import Mathlib

/-!
Verification of the DTS (Device-Tree-Source) text normalizer.

The program under study is a TypeScript text engine with entry point
`stripCommentsFromContent(content, options)`: a lexical comment-stripping /
whitespace-cleanup pass (`basicCommentRemoval`) followed, when
`options.semanticComparison` is set, by a structural normalization pass
(`semanticDtsNormalization` / `finalizeNode`) that sorts properties and child
nodes and canonicalizes hex literals and array syntax.

The shallow embedding below works on `List Char` text.  JavaScript strings are
modelled as lists of characters (all inputs of interest are ASCII), the
JS regexes used by the source are implemented as hand-written scanners with
leftmost-match / greedy semantics (each one is annotated with the regex it
implements), `Array.prototype.sort` with a comparator is modelled as a stable
insertion sort, and `String.prototype.localeCompare` is modelled as ordinal
(code-point) comparison, which is what the repository's own documentation calls
it.  Loops of the source that consume a data-dependent number of characters per
iteration are written with an explicit fuel argument; every wrapper passes
`length + 1` fuel, which is enough because each loop iteration of the source
consumes at least one character or line.
-/

namespace DTS

/-- Text is a list of characters (a JS string). -/
abbrev Str := List Char

/-- JS whitespace as relevant here (space, tab, CR, LF); used for `\s`,
`trim`, `trimEnd`. -/
def isJsWs (c : Char) : Bool := c = ' ' || c = '\t' || c = '\n' || c = '\r'

/-- Models `String.prototype.trimEnd`. -/
def trimEnd (s : Str) : Str := (s.reverse.dropWhile isJsWs).reverse

/-- Models `String.prototype.trim`. -/
def jsTrim (s : Str) : Str := trimEnd (s.dropWhile isJsWs)

/-- Models `s.split('\n')`. -/
def splitLines : Str → List Str
  | [] => [[]]
  | c :: cs =>
    match splitLines cs with
    | [] => [[c]]
    | l :: ls => if c = '\n' then [] :: l :: ls else (c :: l) :: ls

/-- Models `lines.join('\n')`. -/
def joinLines : List Str → Str
  | [] => []
  | [l] => l
  | l :: ls => l ++ '\n' :: joinLines ls

/-- Last character test (`s.endsWith(c)` for a one-character suffix). -/
def endsWithChar (s : Str) (c : Char) : Bool :=
  match s.getLast? with
  | some d => d = c
  | none => false

/-- The options record of the source (`interface FilterOptions`). -/
structure FilterOptions where
  stripLineComments : Bool
  stripBlockComments : Bool
  preserveStringLiterals : Bool
  normalizeWhitespace : Bool
  semanticComparison : Bool
  normalizeHexValues : Bool
  normalizeArrays : Bool
  sortProperties : Bool
deriving DecidableEq

/-- Space or tab, the class consumed by the whitespace runs of
`basicCommentRemoval`. -/
def isSpTab (c : Char) : Bool := c = ' ' || c = '\t'

/-- The character-scanning loop of `basicCommentRemoval` (source lines
1289-1394).  State: `inB`/`inL`/`inS` are the block-comment, line-comment and
string modes, `delim` the current string delimiter, `lineStart` the
at-start-of-line flag, `prev` the previous raw input character
(`content[i-1]`, used only for the backslash-escape test before a quote).
`fuel` bounds the number of loop iterations; each iteration consumes at least
one character, and the wrapper passes `length + 1`. -/
def bcrLoop (o : FilterOptions) :
    Nat → Bool → Bool → Bool → Char → Bool → Option Char → Str → Str
  | 0, _, _, _, _, _, _, _ => []
  | _ + 1, _, _, _, _, _, _, [] => []
  | fuel + 1, inB, inL, inS, delim, lineStart, prev, c :: cs =>
    if !inB && !inL && o.preserveStringLiterals && (c = '"' || c = '\'')
        && !(prev = some '\\') then
      -- string-delimiter handling: toggle string mode, emit the quote
      if !inS then
        c :: bcrLoop o fuel inB inL true c false (some c) cs
      else if c = delim then
        c :: bcrLoop o fuel inB inL false delim false (some c) cs
      else
        c :: bcrLoop o fuel inB inL inS delim false (some c) cs
    else if !inS && !inL && o.stripBlockComments && c = '/'
        && cs.head? = some '*' then
      -- start of block comment: consume both characters
      bcrLoop o fuel true inL inS delim lineStart (some '*') cs.tail
    else if !inS && inB && c = '*' && cs.head? = some '/' then
      -- end of block comment: consume both, then any horizontal whitespace
      let rest := cs.tail
      let run := rest.takeWhile isSpTab
      let rest' := rest.dropWhile isSpTab
      bcrLoop o fuel false inL inS delim lineStart
        (some ((run.getLast?).getD '/')) rest'
    else if !inS && !inB && o.stripLineComments && c = '/'
        && cs.head? = some '/' then
      -- start of line comment: consume both characters
      bcrLoop o fuel inB true inS delim lineStart (some '/') cs.tail
    else if !inS && inL && (c = '\n' || c = '\r') then
      -- end of line comment: the newline itself is emitted
      c :: bcrLoop o fuel inB false inS delim true (some c) cs
    else if !inB && !inL then
      if o.normalizeWhitespace && (c = '\n' || c = '\r') then
        if c = '\r' && cs.head? = some '\n' then
          '\n' :: bcrLoop o fuel inB inL inS delim true (some '\n') cs.tail
        else
          '\n' :: bcrLoop o fuel inB inL inS delim true (some c) cs
      else if o.normalizeWhitespace && (c = ' ' || c = '\t') then
        let run := (c :: cs).takeWhile isSpTab
        let rest := (c :: cs).dropWhile isSpTab
        let prev' := some ((run.getLast?).getD c)
        if !lineStart then
          -- mid-line run of spaces/tabs collapses to one space,
          -- emitted only when more input follows
          (if rest = [] then [] else [' ']) ++
            bcrLoop o fuel inB inL inS delim lineStart prev' rest
        else
          -- leading run re-expressed as width-4 units plus remainder
          let indentLevel := run.foldl (fun a d => a + if d = '\t' then 4 else 1) 0
          (if indentLevel > 0 && !(rest = []) then
            List.replicate (indentLevel / 4 * 4) ' ' ++
              List.replicate (indentLevel % 4) ' '
          else []) ++ bcrLoop o fuel inB inL inS delim false prev' rest
      else
        c :: bcrLoop o fuel inB inL inS delim false (some c) cs
    else
      bcrLoop o fuel inB inL inS delim lineStart (some c) cs

/-- The post-pass blank-line filter of `basicCommentRemoval` (source lines
1400-1407): an empty line is kept only at the ends or adjacent to a non-blank
line.  In the source the neighbour accesses are guarded by the short-circuit
on `index`, so the out-of-range default is never observed. -/
def cleanupLines (lines : List Str) : List Str :=
  let n := lines.length
  (List.range n).filterMap fun i =>
    let line := lines.getD i []
    if line.length = 0 then
      if i = 0 || i = n - 1 || (lines.getD (i - 1) []).length > 0
          || (lines.getD (i + 1) []).length > 0 then
        some line
      else none
    else some line

/-- Implements the final `.replace(/\n\x7b3,\x7d/g, "\n\n")`: caps every run of
newlines at two.  `k` is the number of newlines already emitted in the current
run. -/
def collapseNL : Nat → Str → Str
  | _, [] => []
  | k, c :: cs =>
    if c = '\n' then (if k ≥ 2 then [] else ['\n']) ++ collapseNL (k + 1) cs
    else c :: collapseNL 0 cs

/-- The cleanup tail of `basicCommentRemoval` (source lines 1396-1409):
trim line ends, drop interior blank-line runs, collapse 3+ newlines to 2. -/
def bcrCleanup (s : Str) : Str :=
  collapseNL 0 (joinLines (cleanupLines ((splitLines s).map trimEnd)))

/-- Embeds `basicCommentRemoval` (source lines 1280-1410). -/
def basicCommentRemoval (content : Str) (o : FilterOptions) : Str :=
  bcrCleanup (bcrLoop o (content.length + 1) false false false '"' true none content)

/-- Character class `[a-zA-Z0-9_-]` of the node-opener regexes. -/
def isIdentDash (c : Char) : Bool := c.isAlpha || c.isDigit || c = '_' || c = '-'

/-- Character class `[a-zA-Z0-9_@]` of the name-extraction fallback regex. -/
def isIdentAt (c : Char) : Bool := c.isAlpha || c.isDigit || c = '_' || c = '@'

/-- Character class `[0-9a-fA-F]`. -/
def isHexDigit (c : Char) : Bool :=
  c.isDigit || ('a' ≤ c && c ≤ 'f') || ('A' ≤ c && c ≤ 'F')

/-- Tests `\s*\x7b` at the start of `s`: optional whitespace then an opening brace. -/
def wsThenBrace (s : Str) : Bool := (s.dropWhile isJsWs).head? = some '\x7b'

/-- First node-opener regex `^[a-zA-Z0-9_-]+(@[0-9a-fA-F]+)?\s*\x7b` applied to
a trimmed line.  The identifier run is maximal (its class excludes `@`,
whitespace and the brace, so no backtracking can produce another match). -/
def openerPat1 (t : Str) : Bool :=
  t.takeWhile isIdentDash ≠ [] &&
    (if (t.dropWhile isIdentDash).head? = some '@' then
      (t.dropWhile isIdentDash).tail.takeWhile isHexDigit ≠ [] &&
        wsThenBrace ((t.dropWhile isIdentDash).tail.dropWhile isHexDigit)
    else wsThenBrace (t.dropWhile isIdentDash))

/-- Second node-opener regex `^[a-zA-Z0-9_-]+\s*:\s*.+\x7b` applied to a
trimmed line: identifier, optional spaces, a colon, and then an opening brace
somewhere after at least one further character (`\s*` and the greedy `.+`
backtrack to exactly this condition; `.` excludes line terminators). -/
def openerPat2 (t : Str) : Bool :=
  t.takeWhile isIdentDash ≠ [] &&
    (if (((t.dropWhile isIdentDash).dropWhile isJsWs)).head? = some ':' then
      (((((t.dropWhile isIdentDash).dropWhile isJsWs)).tail.takeWhile
        fun c => !(c = '\n' || c = '\r')).drop 1).contains '\x7b'
    else false)

/-- Node-opener classification of `semanticDtsNormalization` (line 1437) and
`finalizeNode` (line 1554): either opener regex matches the trimmed line. -/
def isNodeOpener (t : Str) : Bool := openerPat1 t || openerPat2 t

/-- The sort-key literal `'zzz_unknown'`. -/
def sentinelKey : Str := "zzz_unknown".toList

/-- Sort-key derivation for a node-declaration line, as written in
`semanticDtsNormalization` (lines 1455-1461): first
`^\s*([a-zA-Z0-9_-]+)\s*:` (label before a colon), else
`^\s*([a-zA-Z0-9_@]+)(?=\s*\x7b)` (identifier token, including any `@address`,
directly before the brace; only the maximal class run can satisfy the
lookahead), else the sentinel.  The capture is then `.trim()`ed. -/
def topNodeSortKey (decl : Str) : Str :=
  if (decl.dropWhile isJsWs).takeWhile isIdentDash ≠ [] &&
      (((decl.dropWhile isJsWs).dropWhile isIdentDash).dropWhile isJsWs).head?
        = some ':' then
    jsTrim ((decl.dropWhile isJsWs).takeWhile isIdentDash)
  else if (decl.dropWhile isJsWs).takeWhile isIdentAt ≠ [] &&
      wsThenBrace ((decl.dropWhile isJsWs).dropWhile isIdentAt) then
    jsTrim ((decl.dropWhile isJsWs).takeWhile isIdentAt)
  else sentinelKey

/-- Sort-key derivation for a child-node declaration line, as written in
`finalizeNode` (lines 1675-1681); the source text is an exact duplicate of the
top-level derivation. -/
def childNodeSortKey (decl : Str) : Str :=
  if (decl.dropWhile isJsWs).takeWhile isIdentDash ≠ [] &&
      (((decl.dropWhile isJsWs).dropWhile isIdentDash).dropWhile isJsWs).head?
        = some ':' then
    jsTrim ((decl.dropWhile isJsWs).takeWhile isIdentDash)
  else if (decl.dropWhile isJsWs).takeWhile isIdentAt ≠ [] &&
      wsThenBrace ((decl.dropWhile isJsWs).dropWhile isIdentAt) then
    jsTrim ((decl.dropWhile isJsWs).takeWhile isIdentAt)
  else sentinelKey

/-- Net brace count of a line:
`(line.match(/\x7b/g)||[]).length - (line.match(/\x7d/g)||[]).length`. -/
def braceDelta (line : Str) : Int :=
  (line.countP (· = '\x7b') : Int) - (line.countP (· = '\x7d') : Int)

/-- The brace-balancing `do/while` loop used both at top level (lines
1444-1449) and for child extraction (lines 1562-1572): starting from the
running count `count`, consume lines while the cumulative count stays positive
and input remains.  Returns the consumed node lines and the remaining lines. -/
def extractNode : Int → List Str → List Str × List Str
  | _, [] => ([], [])
  | count, l :: rest =>
    let c' := count + braceDelta l
    if c' > 0 && rest ≠ [] then
      let (nl, rem) := extractNode c' rest
      (l :: nl, rem)
    else ([l], rest)

/-- A collected top-level node: its raw lines, sort key, and start line. -/
structure TopNode where
  lines : List Str
  sortKey : Str
  startLine : Nat
deriving DecidableEq

/-- Ordinal comparison of two character lists; models
`a.localeCompare(b)` (the repository documents the comparison as ordinal). -/
def cmpStr : Str → Str → Ordering
  | [], [] => .eq
  | [], _ :: _ => .lt
  | _ :: _, [] => .gt
  | a :: as', b :: bs' =>
    if a < b then .lt else if b < a then .gt else cmpStr as' bs'

/-- Stable insertion of `x` into `l`: `x` is placed before the first element
it is `le`-related to, so equal keys keep their original relative order. -/
def insertLe (le : α → α → Bool) (x : α) : List α → List α
  | [] => [x]
  | y :: ys => if le x y then x :: y :: ys else y :: insertLe le x ys

/-- Stable sort, modelling `Array.prototype.sort` with a consistent
comparator (JS sort is stable). -/
def sortByLe (le : α → α → Bool) : List α → List α
  | [] => []
  | x :: xs => insertLe le x (sortByLe le xs)

/-- Comparator `(a, b) => a.sortKey.localeCompare(b.sortKey)` on nodes. -/
def nodeLe (a b : TopNode) : Bool := cmpStr a.sortKey b.sortKey ≠ .gt

/-- The top-level collection loop of `semanticDtsNormalization` (lines
1430-1474): walk the lines, extracting a complete node at every opener and
recording every other line with its line number.  `fuel` bounds the number of
iterations; each iteration consumes at least one line. -/
def collectTopAux : Nat → Nat → List Str → List TopNode × List (Str × Nat)
  | 0, _, _ => ([], [])
  | _ + 1, _, [] => ([], [])
  | fuel + 1, i, l :: rest =>
    if isNodeOpener (jsTrim l) then
      let (nodeLines, rem) := extractNode 0 (l :: rest)
      let (ns, fs) := collectTopAux fuel (i + nodeLines.length) rem
      (⟨nodeLines, topNodeSortKey l, i⟩ :: ns, fs)
    else
      let (ns, fs) := collectTopAux fuel (i + 1) rest
      (ns, (l, i) :: fs)

/-- The scanning loop of `normalizeHexValues` (lines 1725-1734), implementing
`line.replace(/0x([0-9a-fA-F]+)/g, ...)`: at every leftmost occurrence of
`0x` followed by at least one hex digit, lower-case the maximal digit run and
left-pad one `0` when its length is odd; scanning resumes after the match. -/
def nhvLoop : Nat → Str → Str
  | 0, _ => []
  | _ + 1, [] => []
  | fuel + 1, c :: cs =>
    if c = '0' ∧ cs.head? = some 'x' ∧ cs.tail.takeWhile isHexDigit ≠ [] then
      '0' :: 'x' ::
        ((if ((cs.tail.takeWhile isHexDigit).map Char.toLower).length % 2 = 1
            then '0' :: (cs.tail.takeWhile isHexDigit).map Char.toLower
            else (cs.tail.takeWhile isHexDigit).map Char.toLower) ++
          nhvLoop fuel (cs.tail.dropWhile isHexDigit))
    else c :: nhvLoop fuel cs

/-- Embeds `normalizeHexValues` (source lines 1725-1734). -/
def normalizeHexValues (line : Str) : Str := nhvLoop (line.length + 1) line

/-- Split `s` at the first occurrence of `ch`, returning the parts before and
after it, or `none` when absent. -/
def splitAtFirst (ch : Char) : Str → Option (Str × Str)
  | [] => none
  | c :: cs =>
    if c = ch then some ([], cs)
    else match splitAtFirst ch cs with
      | some (a, b) => some (c :: a, b)
      | none => none

/-- Models `content.trim().split(/\s+/).filter(el => el.length > 0)`. -/
def splitWsRuns : Str → List Str
  | [] => [[]]
  | c :: cs =>
    match splitWsRuns cs with
    | [] => [[c]]
    | l :: ls => if isJsWs c then [] :: l :: ls else (c :: l) :: ls

/-- Non-empty whitespace-separated tokens of `s`. -/
def wsTokens (s : Str) : List Str := (splitWsRuns (jsTrim s)).filter (· ≠ [])

/-- Models `xs.join(sep)`. -/
def joinSep (sep : Str) : List Str → Str
  | [] => []
  | [x] => x
  | x :: xs => x ++ sep ++ joinSep sep xs

/-- The angle-bracket pass of `normalizeArrays` (lines 1740-1745),
implementing `line.replace(/<\s*([^>]+)\s*>/g, ...)`: every `<`...`>` span
with a non-empty interior is rewritten as `< tok tok ... >`. -/
def angleLoop : Nat → Str → Str
  | 0, _ => []
  | _ + 1, [] => []
  | fuel + 1, c :: cs =>
    if c = '<' then
      match splitAtFirst '>' cs with
      | some (between, after) =>
        if between ≠ [] then
          '<' :: ' ' ::
            (joinSep [' '] (wsTokens between) ++ ' ' :: '>' :: angleLoop fuel after)
        else '<' :: angleLoop fuel cs
      | none => '<' :: angleLoop fuel cs
    else c :: angleLoop fuel cs

/-- Parse one double-quoted unit `["][^"]*"` at the head of `s`; returns the
unit (quotes included) and the rest. -/
def parseQuoted (s : Str) : Option (Str × Str) :=
  if s.head? = some '"' ∧ (s.tail.dropWhile (· ≠ '"')).head? = some '"' then
    some ('"' :: (s.tail.takeWhile (· ≠ '"') ++ ['"']),
      (s.tail.dropWhile (· ≠ '"')).tail)
  else none

/-- The repetition `(?:\s*,\s*"[^"]*")*` of the string-array regex: greedily
parse further comma-separated quoted units; a failed attempt consumes
nothing. -/
def saReps : Nat → Str → List Str → List Str × Str
  | 0, s, acc => (acc, s)
  | fuel + 1, s, acc =>
    if (s.dropWhile isJsWs).head? = some ',' then
      (parseQuoted (((s.dropWhile isJsWs).tail).dropWhile isJsWs)).elim (acc, s)
        fun ur => saReps fuel ur.2 (acc ++ [ur.1])
    else (acc, s)

/-- Attempt the string-array regex
`=\s*(["][^"]*"(?:\s*,\s*"[^"]*")*)\s*;` at a position just after an `=`:
returns the quoted elements and the input remaining after the `;`.  No
backtracking across repetitions can succeed (undoing a repetition leaves a
comma where the `;` is required), so the greedy parse is exact. -/
def saMatch (s : Str) : Option (List Str × Str) :=
  (parseQuoted (s.dropWhile isJsWs)).bind fun ur =>
    if ((saReps (ur.2.length + 1) ur.2 [ur.1]).2.dropWhile isJsWs).head? = some ';'
    then
      some ((saReps (ur.2.length + 1) ur.2 [ur.1]).1,
        ((saReps (ur.2.length + 1) ur.2 [ur.1]).2.dropWhile isJsWs).tail)
    else none

/-- The string-array pass of `normalizeArrays` (lines 1749-1780): at every
leftmost match of the string-array regex, split the captured content on
commas outside quotes (the quoted units), trim the elements, and rewrite as
` = e1, e2, ...;` (for one element, the trimmed capture). -/
def saLoop : Nat → Str → Str
  | 0, _ => []
  | _ + 1, [] => []
  | fuel + 1, c :: cs =>
    if c = '=' then
      (saMatch cs).elim ('=' :: saLoop fuel cs) fun ea =>
        ' ' :: '=' :: ' ' ::
          (joinSep [',', ' '] ea.1 ++ ';' :: saLoop fuel ea.2)
    else c :: saLoop fuel cs

/-- Embeds `normalizeArrays` (source lines 1736-1783): the angle-bracket pass, then
the string-array pass. -/
def normalizeArrays (line : Str) : Str :=
  let line' := angleLoop (line.length + 1) line
  saLoop (line'.length + 1) line'

/-- The content-walking loop of `finalizeNode` (lines 1542-1582): skip blank
lines, extract a complete child node at every opener (same brace-balancing
loop), collect every other line as a candidate property line.  `fuel` bounds
the iterations; each consumes at least one line. -/
def classifyContent : Nat → List Str → List (List Str) × List Str
  | 0, _ => ([], [])
  | _ + 1, [] => ([], [])
  | fuel + 1, l :: rest =>
    let t := jsTrim l
    if t = [] then classifyContent fuel rest
    else if isNodeOpener t then
      let (nl, rem) := extractNode 0 (l :: rest)
      let (cs, ps) := classifyContent fuel rem
      (nl :: cs, ps)
    else
      let (cs, ps) := classifyContent fuel rest
      (cs, l :: ps)

/-- The multi-line property merging loop of `finalizeNode` (lines 1584-1619):
a line not ending in `;` or `,` continues the current property; a line ending
in `,` continues it further when the following raw line (trimmed) starts with
a quote or lacks an `=`; continuations are joined with a single space; a
non-empty remainder is flushed at the end. -/
def mergeProps (current : Str) : List Str → List Str
  | [] => if jsTrim current ≠ [] then [current] else []
  | line :: rest =>
    let t := jsTrim line
    if t = [] then mergeProps current rest
    else
      let cur' := current ++ (if current = [] then [] else [' ']) ++ t
      if !endsWithChar t ';' && !endsWithChar t ',' then
        mergeProps cur' rest
      else if endsWithChar t ',' then
        match rest.head? with
        | some nl =>
          let nt := jsTrim nl
          if nt.head? = some '"' || !nt.contains '=' then mergeProps cur' rest
          else cur' :: mergeProps [] rest
        | none => cur' :: mergeProps [] rest
      else cur' :: mergeProps [] rest

/-- A property record of `finalizeNode` (line 1622). -/
structure PropRec where
  original : Str
  normalized : Str
  sortKey : Str
deriving DecidableEq

/-- Property sort-key regex `^([^=;:]+)[:=]?` (line 1645): the maximal prefix
free of `=`, `;`, `:`, when non-empty. -/
def propKeyCapture (s : Str) : Option Str :=
  let r := s.takeWhile fun c => !(c = '=' || c = ';' || c = ':')
  if r = [] then none else some r

/-- Sort key of a merged property (lines 1644-1648): the trimmed capture of
`^([^=;:]+)[:=]?` when it matches, else the whole property text. -/
def propSortKey (s : Str) : Str :=
  match propKeyCapture s with
  | some k => jsTrim k
  | none => s

/-- The property-building loop of `finalizeNode` (lines 1621-1655): skip
blank/structural remnants, apply the enabled value normalizers, derive the
sort key (the trimmed capture, else the whole text). -/
def buildProps (o : FilterOptions) (merged : List Str) : List PropRec :=
  merged.filterMap fun propertyText =>
    let cleanText := jsTrim propertyText
    if cleanText = [] || cleanText = ['\x7d'] || cleanText = ['\x7d', ';'] then
      none
    else
      let n1 := if o.normalizeHexValues then normalizeHexValues propertyText
        else propertyText
      let n2 := if o.normalizeArrays then normalizeArrays n1 else n1
      some ⟨propertyText, n2, propSortKey propertyText⟩

/-- Comparator on property records. -/
def propLe (a b : PropRec) : Bool := cmpStr a.sortKey b.sortKey ≠ .gt

/-- A processed child node with its sort key (line 1663). -/
structure ChildRec where
  lines : List Str
  sortKey : Str
deriving DecidableEq

/-- Comparator on processed child nodes. -/
def childLe (a b : ChildRec) : Bool := cmpStr a.sortKey b.sortKey ≠ .gt

/-- Embeds `finalizeNode` (source lines 1523-1723), with an explicit fuel for the
recursion on child nodes.  The source recursion is bounded by the depth guard
`depth > 5`: every recursive call increases `depth` by one, so from any start
depth the guard fires after at most 6 nested calls and a fuel of 7 is never
exhausted; `finalizeNode` below instantiates the fuel with 7. -/
def finalizeNodeAux (o : FilterOptions) : Nat → List Str → Nat → List Str
  | 0, nodeLines, _ => nodeLines
  | fuel + 1, nodeLines, depth =>
    if nodeLines.length < 2 || depth > 5 then nodeLines
    else
      let firstLine := nodeLines.headD []
      let lastLine := nodeLines.getLastD []
      let contentLines := (nodeLines.drop 1).dropLast
      let firstLineIndent := firstLine.takeWhile isJsWs
      let propertyIndent := firstLineIndent ++ [' ', ' ', ' ', ' ']
      let (childNodes, propertyLines) :=
        classifyContent (contentLines.length + 1) contentLines
      let mergedProperties := mergeProps [] propertyLines
      let properties := buildProps o mergedProperties
      let properties :=
        if o.sortProperties then sortByLe propLe properties else properties
      let processedChildNodes := childNodes.map fun cn =>
        ChildRec.mk (finalizeNodeAux o fuel cn (depth + 1))
          (childNodeSortKey (cn.headD []))
      let processedChildNodes :=
        if o.sortProperties && processedChildNodes.length > 1 then
          sortByLe childLe processedChildNodes
        else processedChildNodes
      firstLine ::
        (properties.map fun p => propertyIndent ++ jsTrim p.normalized) ++
        (processedChildNodes.map (·.lines)).flatten ++ [lastLine]

/-- Embeds `finalizeNode(nodeLines, options, depth)` of the source. -/
def finalizeNode (nodeLines : List Str) (o : FilterOptions) (depth : Nat) :
    List Str :=
  finalizeNodeAux o 7 nodeLines depth

/-- The reassembly loop over the sorted top-level nodes (lines 1493-1507):
after each node but the last, the free lines whose original position lies
strictly between this node's original end line and the next sorted node's
original start line are emitted. -/
def assembleNodes (o : FilterOptions) (frees : List (Str × Nat)) :
    List TopNode → List Str
  | [] => []
  | [n] => finalizeNode n.lines o 0
  | n :: n' :: rest =>
    finalizeNode n.lines o 0 ++
      ((frees.filter fun p =>
          n.startLine + n.lines.length - 1 < p.2 && p.2 < n'.startLine).map
        (·.1)) ++
      assembleNodes o frees (n' :: rest)

/-- Embeds `semanticDtsNormalization` (source lines 1412-1519). -/
def semanticDtsNormalization (content : Str) (o : FilterOptions) : Str :=
  if !o.sortProperties then content
  else
    let lines := splitLines content
    let (topLevelNodes0, nonNodeLines) :=
      collectTopAux (lines.length + 1) 0 lines
    let topLevelNodes :=
      if o.sortProperties && topLevelNodes0.length > 1 then
        sortByLe nodeLe topLevelNodes0
      else topLevelNodes0
    let firstNodeLine :=
      match topLevelNodes.map (·.startLine) with
      | [] => lines.length
      | x :: xs => xs.foldl min x
    let pre := (nonNodeLines.filter fun p => p.2 < firstNodeLine).map (·.1)
    let mid := assembleNodes o nonNodeLines topLevelNodes
    let post :=
      match topLevelNodes.getLast? with
      | some lastN =>
        (nonNodeLines.filter fun p =>
            lastN.startLine + lastN.lines.length - 1 < p.2).map (·.1)
      | none => []
    joinLines (pre ++ mid ++ post)

/-- Embeds `stripCommentsFromContent` (source lines 1263-1278), the entry point. -/
def stripCommentsFromContent (content : Str) (o : FilterOptions) : Str :=
  let result := basicCommentRemoval content o
  if o.semanticComparison then semanticDtsNormalization result o else result

/-! ### Concrete inputs used by the claim theorems -/

/-- Options with only the structural pass enabled: `semanticComparison` and
`sortProperties` true, every lexical and value-normalization flag false. -/
def optsSemSort : FilterOptions := ⟨false, false, false, false, true, false, false, true⟩

/-- A node whose properties regroup differently after sorting: the input order
is `b;` then `a = "p",`; once sorted, the trailing-comma property precedes a
line without `=`, which the merge heuristic then absorbs. -/
def idemIn : Str := "n \x7b\n    b;\n    a = \"p\",\n\x7d;".toList

/-- First application of the entry point to `idemIn`. -/
def idemOut1 : Str := "n \x7b\n    a = \"p\",\n    b;\n\x7d;".toList

/-- Second application of the entry point to `idemIn`. -/
def idemOut2 : Str := "n \x7b\n    a = \"p\", b;\n\x7d;".toList

/-- Two documents that differ only in the order of two sibling properties
sharing the sort key `foo`. -/
def tieDocA : Str := "n \x7b\n    foo = <1>;\n    foo = <2>;\n\x7d;".toList

/-- The same document with the two tied properties swapped. -/
def tieDocB : Str := "n \x7b\n    foo = <2>;\n    foo = <1>;\n\x7d;".toList

/-- Number of lines of `s` that the top-level scanner classifies as node
openers: the opener regexes are anchored without leading whitespace, so this
counts un-indented opener lines. -/
def topOpenerCount (s : Str) : Nat :=
  ((splitLines s).filter fun l => isNodeOpener l).length

/-- Number of un-indented `\x7d;` lines of `s` (top-level closing
constructs). -/
def topCloserCount (s : Str) : Nat :=
  ((splitLines s).filter fun l => l = ['\x7d', ';']).length

/-- Number of lines of `s` whose trimmed text is exactly `t` (used to count
occurrences of a node-declaration line at any nesting level). -/
def declOcc (t : Str) (s : Str) : Nat :=
  ((splitLines s).filter fun l => jsTrim l = t).length

/-- A two-node document whose hyphenated-identifier node (`zz-a`) gets the
sentinel sort key, while its sibling's extracted key `zzzz` compares greater
than the sentinel. -/
def hyphenDoc : Str := "zzzz \x7b\n\x7d;\nzz-a \x7b\n\x7d;".toList

/-! ### C1 — idempotence of the entry point -/

/-- C1: the entry point is not idempotent.  On `idemIn` with the structural
options, the first application sorts the two properties (output `idemOut1`);
re-applying the entry point to that output merges the now-adjacent
`a = "p",` and `b;` lines into one property (output `idemOut2`), so
`process(process(x, o), o) ≠ process(x, o)`.  The spec states idempotence as
a testable property of the canonicalization, so this is a defect of the
merge heuristic rather than of the claim. -/
theorem c1_idempotence_fails :
    stripCommentsFromContent idemIn optsSemSort = idemOut1 ∧
    stripCommentsFromContent (stripCommentsFromContent idemIn optsSemSort)
        optsSemSort = idemOut2 ∧
    stripCommentsFromContent (stripCommentsFromContent idemIn optsSemSort)
        optsSemSort ≠ stripCommentsFromContent idemIn optsSemSort := by
  refine ⟨by decide, by decide, by decide⟩

/-! ### C2 — order-insensitivity, tie counterexample -/

/-- C2 counterexample: two documents differing only in the order of two
sibling properties that share the sort key `foo` produce different outputs
(the sort is stable, so tied properties keep their original relative order),
refuting the claim's parenthetical "including when two siblings share the
same sortKey". -/
theorem c2_tie_counterexample :
    stripCommentsFromContent tieDocA optsSemSort ≠
      stripCommentsFromContent tieDocB optsSemSort := by
  decide

/-! ### C3 — structural fidelity, unbalanced counterexample -/

/-- C3 counterexample: the single-line input `a \x7b` contains one top-level
node opener, yet the output (returned verbatim: the brace-counting loop stops
at end-of-input and the one-line node is below the two-line processing
threshold) contains zero top-level closing constructs, refuting the claim for
inputs with unbalanced braces. -/
theorem c3_counterexample :
    topOpenerCount ("a \x7b".toList) = 1 ∧
    stripCommentsFromContent ("a \x7b".toList) optsSemSort = "a \x7b".toList ∧
    topCloserCount (stripCommentsFromContent ("a \x7b".toList) optsSemSort) = 0 := by
  refine ⟨by decide, by decide, by decide⟩

/-! ### C4 — sort-key derivation counterexample -/

/-- C4 counterexample: for the label-less opener `memory@2f000000 \x7b` the
derived sort key is the full token `memory@2f000000` — the extraction class
`[a-zA-Z0-9_@]` includes `@` and the unit address — not the bare identifier
`memory` that the claim describes. -/
theorem c4_counterexample :
    topNodeSortKey ("memory@2f000000 \x7b".toList) = "memory@2f000000".toList ∧
    topNodeSortKey ("memory@2f000000 \x7b".toList) ≠ "memory".toList := by
  refine ⟨by decide, by decide⟩

/-! ### C5 — finalizeNode base case counterexample -/

/-- C5 counterexample: a node with exactly one inner property line (three
lines in total) is not returned verbatim: the guard tests
`nodeLines.length < 2`, counting all lines rather than inner lines, so the
three-line node is processed and its property re-indented. -/
theorem c5_counterexample :
    finalizeNode ["n \x7b".toList, "  b;".toList, "\x7d;".toList] optsSemSort 0
        = ["n \x7b".toList, "    b;".toList, "\x7d;".toList] ∧
    finalizeNode ["n \x7b".toList, "  b;".toList, "\x7d;".toList] optsSemSort 0
        ≠ ["n \x7b".toList, "  b;".toList, "\x7d;".toList] := by
  refine ⟨by decide, by decide⟩

/-! ### C7 — comment stripping vs. strings, counterexample -/

/-- C7 counterexample: with `stripLineComments` true but
`preserveStringLiterals` false, the `//` inside the quoted string is treated
as a line comment and the string is truncated, refuting the claim for
"every options record with stripLineComments set to true". -/
theorem c7_counterexample :
    basicCommentRemoval ("x = \"http://example.com\";".toList)
        ⟨true, false, false, false, false, false, false, false⟩
      = "x = \"http:".toList := by
  decide

/-! ### C8 — hex normalization counterexample -/

/-- C8 counterexample: `0xAB0` has three hex digits, an odd count, so the
code pads it to `0x0ab0`; the claim's example `0xAB0 becomes 0xab0`
contradicts the padding rule the same claim states. -/
theorem c8_counterexample :
    normalizeHexValues ("0xAB0".toList) = "0x0ab0".toList ∧
    normalizeHexValues ("0xAB0".toList) ≠ "0xab0".toList := by
  refine ⟨by decide, by decide⟩

/-! ### C10 — hyphenated identifiers, ordering counterexample -/

/-- C10 counterexample: in `hyphenDoc` the hyphenated node `zz-a` receives the
sentinel key `zzz_unknown`, but its sibling's extracted key `zzzz` compares
greater than the sentinel, so after sorting the hyphenated node is emitted
first — not "after all siblings whose identifiers were successfully
extracted". -/
theorem c10_counterexample :
    topNodeSortKey ("zz-a \x7b".toList) = sentinelKey ∧
    topNodeSortKey ("zzzz \x7b".toList) = "zzzz".toList ∧
    stripCommentsFromContent hyphenDoc optsSemSort =
      "zz-a \x7b\n\x7d;\nzzzz \x7b\n\x7d;".toList := by
  refine ⟨by decide, by decide, by decide⟩

/-! ### Generic helper lemmas on lists, trimming and line splitting -/

theorem takeWhile_append_stop (p : Char → Bool) (l t : Str)
    (hl : ∀ c ∈ l, p c = true) (ht : ∀ c, t.head? = some c → p c = false) :
    (l ++ t).takeWhile p = l := by
  induction l with
  | nil =>
    cases t with
    | nil => rfl
    | cons c cs => simp [List.takeWhile, ht c rfl]
  | cons a l ih =>
    have ha : p a = true := hl a (by simp)
    simp only [List.cons_append, List.takeWhile_cons, ha, if_true]
    exact congrArg (a :: ·) (ih fun c hc => hl c (by simp [hc]))

theorem dropWhile_append_stop (p : Char → Bool) (l t : Str)
    (hl : ∀ c ∈ l, p c = true) (ht : ∀ c, t.head? = some c → p c = false) :
    (l ++ t).dropWhile p = t := by
  induction l with
  | nil =>
    cases t with
    | nil => rfl
    | cons c cs => simp [List.dropWhile, ht c rfl]
  | cons a l ih =>
    have ha : p a = true := hl a (by simp)
    simp only [List.cons_append, List.dropWhile_cons, ha, if_true]
    exact ih fun c hc => hl c (by simp [hc])

theorem dropWhile_head_false (p : Char → Bool) (l : Str)
    (h : ∀ c, l.head? = some c → p c = false) : l.dropWhile p = l := by
  cases l with
  | nil => rfl
  | cons c cs => simp [List.dropWhile, h c rfl]

theorem takeWhile_head_false (p : Char → Bool) (l : Str)
    (h : ∀ c, l.head? = some c → p c = false) : l.takeWhile p = [] := by
  cases l with
  | nil => rfl
  | cons c cs => simp [List.takeWhile, h c rfl]

theorem trimEnd_eq_self (l : Str)
    (h : ∀ c, l.getLast? = some c → isJsWs c = false) : trimEnd l = l := by
  unfold trimEnd
  rw [dropWhile_head_false _ _ (fun c hc => h c (by rwa [← List.head?_reverse]))]
  exact List.reverse_reverse l

theorem jsTrim_eq_self (l : Str)
    (hh : ∀ c, l.head? = some c → isJsWs c = false)
    (hl : ∀ c, l.getLast? = some c → isJsWs c = false) : jsTrim l = l := by
  unfold jsTrim
  rw [dropWhile_head_false _ _ hh]
  exact trimEnd_eq_self l hl

theorem dropWhile_append_all (p : Char → Bool) (w t : Str)
    (hw : ∀ c ∈ w, p c = true) : (w ++ t).dropWhile p = t.dropWhile p := by
  induction w with
  | nil => rfl
  | cons a w ih =>
    have ha : p a = true := hw a (by simp)
    simp only [List.cons_append, List.dropWhile_cons, ha, if_true]
    exact ih fun c hc => hw c (by simp [hc])

theorem jsTrim_ws_append (w p : Str) (hw : ∀ c ∈ w, isJsWs c = true) :
    jsTrim (w ++ p) = jsTrim p := by
  unfold jsTrim
  rw [dropWhile_append_all _ _ _ hw]

theorem range_getD_map (l : List Str) :
    (List.range l.length).map (fun i => l.getD i []) = l := by
  induction l with
  | nil => rfl
  | cons a l ih =>
    rw [List.length_cons, List.range_succ_eq_map]
    simp only [List.map_cons, List.map_map]
    refine congrArg₂ (· :: ·) rfl ?_
    calc (List.range l.length).map ((fun i => (a :: l).getD i []) ∘ (· + 1))
        = (List.range l.length).map (fun i => l.getD i []) := by
          exact List.map_congr_left fun i _ => rfl
      _ = l := ih

theorem cleanupLines_eq_self (lines : List Str)
    (h : ∀ l ∈ lines, l ≠ []) : cleanupLines lines = lines := by
  unfold cleanupLines
  have step : ∀ i ∈ List.range lines.length,
      (fun i =>
        let line := lines.getD i []
        if line.length = 0 then
          if i = 0 || i = lines.length - 1 || (lines.getD (i - 1) []).length > 0
              || (lines.getD (i + 1) []).length > 0 then
            some line
          else none
        else some line) i = some (lines.getD i []) := by
    intro i hi
    have hlt : i < lines.length := List.mem_range.mp hi
    have hmem : lines.getD i [] ∈ lines := by
      rw [List.getD_eq_getElem lines [] hlt]
      exact List.getElem_mem hlt
    have hne : lines.getD i [] ≠ [] := h _ hmem
    have : (lines.getD i []).length ≠ 0 := by
      simpa [List.length_eq_zero] using hne
    simp only [this, if_neg]
    simp [List.length_eq_zero, hne]
  rw [List.filterMap_congr step]
  rw [show (fun i => some (lines.getD i [])) = some ∘ (fun i => lines.getD i []) from rfl]
  rw [List.filterMap_eq_map]
  exact range_getD_map lines

theorem splitLines_ne_nil (s : Str) : splitLines s ≠ [] := by
  cases s with
  | nil => simp [splitLines]
  | cons c cs =>
    simp only [splitLines]
    rcases h : splitLines cs with _ | ⟨l, ls⟩
    · simp
    · by_cases hc : c = '\n' <;> simp [hc]

theorem splitLines_nlfree (l : Str) (h : '\n' ∉ l) : splitLines l = [l] := by
  induction l with
  | nil => rfl
  | cons c cs ih =>
    have hc : c ≠ '\n' := fun hc => h (by simp [hc])
    have hcs : '\n' ∉ cs := fun hm => h (by simp [hm])
    simp [splitLines, ih hcs, hc]

theorem splitLines_append_nl (l t : Str) (h : '\n' ∉ l) :
    splitLines (l ++ '\n' :: t) = l :: splitLines t := by
  induction l with
  | nil =>
    simp only [List.nil_append, splitLines]
    rcases ht : splitLines t with _ | ⟨l', ls⟩
    · exact absurd ht (splitLines_ne_nil t)
    · simp
  | cons c cs ih =>
    have hc : c ≠ '\n' := fun hc => h (by simp [hc])
    have hcs : '\n' ∉ cs := fun hm => h (by simp [hm])
    show (match splitLines (cs ++ '\n' :: t) with
      | [] => [[c]]
      | l :: ls => if c = '\n' then [] :: l :: ls else (c :: l) :: ls) = _
    rw [ih hcs]
    simp [hc]

theorem splitLines_joinLines (L : List Str) (hne : L ≠ [])
    (h : ∀ l ∈ L, '\n' ∉ l) : splitLines (joinLines L) = L := by
  induction L with
  | nil => exact absurd rfl hne
  | cons l ls ih =>
    cases ls with
    | nil => exact splitLines_nlfree l (h l (by simp))
    | cons l' ls' =>
      rw [show joinLines (l :: l' :: ls') = l ++ '\n' :: joinLines (l' :: ls') from rfl]
      rw [splitLines_append_nl _ _ (h l (by simp))]
      rw [ih (by simp) fun x hx => h x (by simp [hx])]

theorem collapseNL_copy (l t : Str) (hl : l ≠ []) (h : '\n' ∉ l) (k : Nat) :
    collapseNL k (l ++ t) = l ++ collapseNL 0 t := by
  induction l generalizing k with
  | nil => exact absurd rfl hl
  | cons c cs ih =>
    have hc : c ≠ '\n' := fun hc => h (by simp [hc])
    have hcs : '\n' ∉ cs := fun hm => h (by simp [hm])
    cases cs with
    | nil => simp [collapseNL, hc]
    | cons c' cs' =>
      simp only [List.cons_append, collapseNL, hc, if_neg]
      exact congrArg (c :: ·) (ih (by simp) hcs 0)

theorem collapseNL_join (L : List Str) (h1 : ∀ l ∈ L, l ≠ [])
    (h2 : ∀ l ∈ L, '\n' ∉ l) (k : Nat) :
    collapseNL k (joinLines L) = joinLines L := by
  induction L generalizing k with
  | nil => rfl
  | cons l ls ih =>
    cases ls with
    | nil =>
      show collapseNL k l = l
      have := collapseNL_copy l [] (h1 l (by simp)) (h2 l (by simp)) k
      simpa [collapseNL] using this
    | cons l' ls' =>
      show collapseNL k (l ++ '\n' :: joinLines (l' :: ls')) =
        l ++ '\n' :: joinLines (l' :: ls')
      rw [collapseNL_copy l _ (h1 l (by simp)) (h2 l (by simp)) k]
      show l ++ '\n' :: collapseNL 1 (joinLines (l' :: ls')) = _
      rw [ih (fun x hx => h1 x (by simp [hx])) (fun x hx => h2 x (by simp [hx])) 1]

theorem mem_joinLines {c : Char} {L : List Str} (hc : c ∈ joinLines L) :
    c = '\n' ∨ ∃ l ∈ L, c ∈ l := by
  induction L with
  | nil => simp [joinLines] at hc
  | cons l ls ih =>
    cases ls with
    | nil =>
      right
      exact ⟨l, by simp, hc⟩
    | cons l' ls' =>
      rw [show joinLines (l :: l' :: ls') = l ++ '\n' :: joinLines (l' :: ls') from rfl]
        at hc
      rcases List.mem_append.mp hc with h | h
      · exact Or.inr ⟨l, by simp, h⟩
      · rcases List.mem_cons.mp h with h | h
        · exact Or.inl h
        · rcases ih h with h | ⟨x, hx, hcx⟩
          · exact Or.inl h
          · exact Or.inr ⟨x, by simp [hx], hcx⟩

/-! ### Lemmas about the ordinal comparison and the stable sort -/

theorem cmpStr_eq_iff : ∀ a b : Str, cmpStr a b = .eq ↔ a = b := by
  intro a
  induction a with
  | nil => intro b; cases b <;> simp [cmpStr]
  | cons x xs ih =>
    intro b
    cases b with
    | nil => simp [cmpStr]
    | cons y ys =>
      simp only [cmpStr]
      rcases lt_trichotomy x y with h | h | h
      · simp only [h, if_true]
        constructor
        · intro hc; exact absurd hc (by simp)
        · intro hc
          exact absurd (List.cons.injEq .. ▸ hc).1 (ne_of_lt h)
      · subst h
        simp only [lt_irrefl, if_false]
        rw [ih ys]
        constructor
        · intro hc; rw [hc]
        · intro hc; exact (List.cons.injEq .. ▸ hc).2
      · rw [if_neg (not_lt_of_gt h), if_pos h]
        constructor
        · intro hc; exact absurd hc (by simp)
        · intro hc
          exact absurd (List.cons.injEq .. ▸ hc).1 (ne_of_gt h)

theorem cmpStr_gt_iff_lt : ∀ a b : Str, cmpStr a b = .gt ↔ cmpStr b a = .lt := by
  intro a
  induction a with
  | nil => intro b; cases b <;> simp [cmpStr]
  | cons x xs ih =>
    intro b
    cases b with
    | nil => simp [cmpStr]
    | cons y ys =>
      simp only [cmpStr]
      rcases lt_trichotomy x y with h | h | h
      · rw [if_pos h, if_neg (lt_asymm h), if_pos h]
        simp
      · subst h
        simp only [lt_irrefl, if_false]
        exact ih ys
      · rw [if_neg (lt_asymm h), if_pos h, if_pos h]
        simp

theorem cmpStr_le_trans : ∀ a b c : Str,
    cmpStr a b ≠ .gt → cmpStr b c ≠ .gt → cmpStr a c ≠ .gt := by
  intro a
  induction a with
  | nil =>
    intro b c _ _
    cases c <;> simp [cmpStr]
  | cons x xs ih =>
    intro b c h1 h2
    cases b with
    | nil => exact absurd rfl h1
    | cons y ys =>
      cases c with
      | nil => exact absurd rfl h2
      | cons z zs =>
        simp only [cmpStr] at h1 h2 ⊢
        rcases lt_trichotomy x y with hxy | hxy | hxy
        · rcases lt_trichotomy y z with hyz | hyz | hyz
          · rw [if_pos (lt_trans hxy hyz)]; simp
          · subst hyz; rw [if_pos hxy]; simp
          · rw [if_neg (not_lt_of_gt hyz), if_pos hyz] at h2
            exact absurd rfl h2
        · subst hxy
          rcases lt_trichotomy x z with hxz | hxz | hxz
          · rw [if_pos hxz]; simp
          · subst hxz
            simp only [lt_irrefl, if_false] at h1 h2 ⊢
            exact ih ys zs h1 h2
          · rw [if_neg (not_lt_of_gt hxz), if_pos hxz] at h2
            exact absurd rfl h2
        · rw [if_neg (not_lt_of_gt hxy), if_pos hxy] at h1
          exact absurd rfl h1

theorem cmpStr_le_total (a b : Str) : cmpStr a b ≠ .gt ∨ cmpStr b a ≠ .gt := by
  rcases h : cmpStr a b with _ | _ | _
  · left; simp
  · left; simp
  · right
    rw [cmpStr_gt_iff_lt] at h
    simp [h]

theorem cmpStr_antisymm (a b : Str) (h1 : cmpStr a b ≠ .gt)
    (h2 : cmpStr b a ≠ .gt) : a = b := by
  rcases h : cmpStr a b with _ | _ | _
  · exact absurd h fun hl => h2 ((cmpStr_gt_iff_lt b a).mpr hl)
  · exact (cmpStr_eq_iff a b).mp h
  · exact absurd h h1

theorem insertLe_perm (le : α → α → Bool) (x : α) (l : List α) :
    (insertLe le x l).Perm (x :: l) := by
  induction l with
  | nil => exact List.Perm.refl _
  | cons y ys ih =>
    simp only [insertLe]
    split
    · exact List.Perm.refl _
    · exact (List.Perm.cons y ih).trans (List.Perm.swap x y ys)

theorem sortByLe_perm (le : α → α → Bool) (l : List α) :
    (sortByLe le l).Perm l := by
  induction l with
  | nil => exact List.Perm.refl _
  | cons x xs ih =>
    exact (insertLe_perm le x (sortByLe le xs)).trans (List.Perm.cons x ih)

/-- Pairwise sortedness with a boolean `le`. -/
def SortedLe (le : α → α → Bool) (l : List α) : Prop :=
  l.Pairwise fun a b => le a b = true

theorem insertLe_sorted (le : α → α → Bool)
    (htot : ∀ a b, le a b = true ∨ le b a = true)
    (htrans : ∀ a b c, le a b = true → le b c = true → le a c = true)
    (x : α) (l : List α) (hl : SortedLe le l) :
    SortedLe le (insertLe le x l) := by
  induction l with
  | nil => simp [insertLe, SortedLe]
  | cons y ys ih =>
    rcases List.pairwise_cons.mp hl with ⟨hy, hys⟩
    simp only [insertLe]
    split
    · rename_i hxy
      refine List.pairwise_cons.mpr ⟨?_, hl⟩
      intro b hb
      rcases List.mem_cons.mp hb with rfl | hb
      · exact hxy
      · exact htrans x y b hxy (hy b hb)
    · rename_i hxy
      have hyx : le y x = true := by
        rcases htot x y with h | h
        · exact absurd h hxy
        · exact h
      refine List.pairwise_cons.mpr ⟨?_, ih hys⟩
      intro b hb
      have := (insertLe_perm le x ys).mem_iff.mp hb
      rcases List.mem_cons.mp this with rfl | hb'
      · exact hyx
      · exact hy b hb'

theorem sortByLe_sorted (le : α → α → Bool)
    (htot : ∀ a b, le a b = true ∨ le b a = true)
    (htrans : ∀ a b c, le a b = true → le b c = true → le a c = true)
    (l : List α) : SortedLe le (sortByLe le l) := by
  induction l with
  | nil => simp [sortByLe, SortedLe]
  | cons x xs ih => exact insertLe_sorted le htot htrans x _ ih

/-- Two sorted lists that are permutations of each other and have pairwise
distinct keys are equal; `le` must be the key comparison. -/
theorem sorted_perm_nodup_eq (key : α → Str)
    (le : α → α → Bool) (hle : ∀ a b, le a b = (cmpStr (key a) (key b) ≠ .gt)) :
    ∀ (l₁ l₂ : List α), l₁.Perm l₂ → SortedLe le l₁ → SortedLe le l₂ →
    (l₁.map key).Nodup → l₁ = l₂ := by
  intro l₁
  induction l₁ with
  | nil =>
    intro l₂ hp _ _ _
    exact (List.Perm.nil_eq hp).symm ▸ rfl
  | cons a t₁ ih =>
    intro l₂ hp hs₁ hs₂ hnd
    cases l₂ with
    | nil => exact absurd hp.symm (by simp)
    | cons b t₂ =>
      by_cases hab : a = b
      · subst hab
        have hpt : t₁.Perm t₂ := hp.cons_inv
        have := ih t₂ hpt (List.pairwise_cons.mp hs₁).2
          (List.pairwise_cons.mp hs₂).2 (by simpa using (List.nodup_cons.mp hnd).2)
        rw [this]
      · exfalso
        have hbmem : b ∈ a :: t₁ := hp.mem_iff.mpr (by simp)
        have hbt₁ : b ∈ t₁ := by
          rcases List.mem_cons.mp hbmem with h | h
          · exact absurd h.symm hab
          · exact h
        have hamem : a ∈ b :: t₂ := hp.mem_iff.mp (by simp)
        have hat₂ : a ∈ t₂ := by
          rcases List.mem_cons.mp hamem with h | h
          · exact absurd h hab
          · exact h
        have h1 : le a b = true := (List.pairwise_cons.mp hs₁).1 b hbt₁
        have h2 : le b a = true := (List.pairwise_cons.mp hs₂).1 a hat₂
        rw [hle] at h1 h2
        have hkey : key a = key b :=
          cmpStr_antisymm _ _ (by simpa using h1) (by simpa using h2)
        have : key b ∈ t₁.map key := List.mem_map_of_mem key hbt₁
        exact (List.nodup_cons.mp hnd).1 (hkey ▸ this)

/-! ### The lexical stage is the identity on comment-free, tidy input -/

theorem bcrLoop_copy (o : FilterOptions) (hws : o.normalizeWhitespace = false) :
    ∀ (fuel : Nat) (s : Str), s.length < fuel →
    (∀ c ∈ s, c ≠ '/' ∧ c ≠ '*') →
    ∀ (inS : Bool) (delim : Char) (lineStart : Bool) (prev : Option Char),
    bcrLoop o fuel false false inS delim lineStart prev s = s := by
  intro fuel
  induction fuel with
  | zero => intro s h; exact absurd h (Nat.not_lt_zero _)
  | succ f ih =>
    intro s hlen hc inS delim lineStart prev
    cases s with
    | nil => rfl
    | cons c cs =>
      have hcc := hc c (by simp)
      have hlen' : cs.length < f := by simp at hlen; omega
      have hcs : ∀ d ∈ cs, d ≠ '/' ∧ d ≠ '*' := fun d hd => hc d (by simp [hd])
      simp only [bcrLoop, hws, hcc.1, hcc.2, Bool.not_false, Bool.true_and,
        Bool.and_false, Bool.false_and, Bool.and_true, decide_False,
        Bool.false_eq_true, if_false, ite_false]
      split_ifs <;>
        exact congrArg (c :: ·) (ih cs hlen' hcs _ _ _ _)

theorem basicCommentRemoval_id (o : FilterOptions) (L : List Str)
    (hws : o.normalizeWhitespace = false) (hne : L ≠ [])
    (h1 : ∀ l ∈ L, l ≠ [])
    (h2 : ∀ l ∈ L, '\n' ∉ l)
    (h3 : ∀ l ∈ L, ∀ c, l.getLast? = some c → isJsWs c = false)
    (h4 : ∀ l ∈ L, ∀ c ∈ l, c ≠ '/' ∧ c ≠ '*') :
    basicCommentRemoval (joinLines L) o = joinLines L := by
  unfold basicCommentRemoval
  have hchars : ∀ c ∈ joinLines L, c ≠ '/' ∧ c ≠ '*' := by
    intro c hcmem
    rcases mem_joinLines hcmem with rfl | ⟨l, hl, hcl⟩
    · exact ⟨by decide, by decide⟩
    · exact h4 l hl c hcl
  rw [bcrLoop_copy o hws _ _ (Nat.lt_succ_self _) hchars _ _ _ _]
  unfold bcrCleanup
  rw [splitLines_joinLines L hne h2]
  have hmap : L.map trimEnd = L := by
    rw [List.map_congr_left fun l hl => trimEnd_eq_self l (h3 l hl)]
    exact List.map_id L
  rw [hmap, cleanupLines_eq_self L h1, collapseNL_join L h1 h2 0]

/-- Stable sort commutes with a projection that determines the comparator. -/
theorem sortByLe_map (f : α → β) (leA : α → α → Bool) (leB : β → β → Bool)
    (h : ∀ a b, leA a b = leB (f a) (f b)) (l : List α) :
    (sortByLe leA l).map f = sortByLe leB (l.map f) := by
  induction l with
  | nil => rfl
  | cons x xs ih =>
    show (insertLe leA x (sortByLe leA xs)).map f = _
    rw [show sortByLe leB ((x :: xs).map f)
      = insertLe leB (f x) (sortByLe leB (xs.map f)) from rfl, ← ih]
    generalize sortByLe leA xs = l'
    induction l' with
    | nil => rfl
    | cons y ys ihy =>
      simp only [insertLe, List.map_cons, h x y]
      split
      · rfl
      · simpa using ihy

/-! ### Character-class and opener-classification lemmas -/

/-- Plain identifier characters: letters, digits, underscore. -/
def isAlnumU (c : Char) : Bool := c.isAlpha || c.isDigit || c = '_'

theorem alnumU_identDash {c : Char} (h : isAlnumU c = true) :
    isIdentDash c = true := by
  simp only [isAlnumU, Bool.or_eq_true] at h
  simp only [isIdentDash, Bool.or_eq_true]
  tauto

theorem alnumU_identAt {c : Char} (h : isAlnumU c = true) :
    isIdentAt c = true := by
  simp only [isAlnumU, Bool.or_eq_true] at h
  simp only [isIdentAt, Bool.or_eq_true]
  tauto

theorem alnumU_ne {c : Char} (h : isAlnumU c = true) (d : Char)
    (hd : isAlnumU d = false) : c ≠ d := by
  intro hcd
  rw [hcd, hd] at h
  exact absurd h (by simp)

theorem isAlpha_not_special {c : Char} (h : c.isAlpha = true) :
    isJsWs c = false := by
  by_contra hws
  have hw : isJsWs c = true := by revert hws; cases hx : isJsWs c <;> simp
  simp only [isJsWs, Bool.or_eq_true, decide_eq_true_eq] at hw
  rcases hw with ((rfl | rfl) | rfl) | rfl <;>
    simp [Char.isAlpha, Char.isUpper, Char.isLower] at h

theorem isDigit_not_ws {c : Char} (h : c.isDigit = true) : isJsWs c = false := by
  by_contra hws
  have hw : isJsWs c = true := by revert hws; cases hx : isJsWs c <;> simp
  simp only [isJsWs, Bool.or_eq_true, decide_eq_true_eq] at hw
  rcases hw with ((rfl | rfl) | rfl) | rfl <;> simp [Char.isDigit] at h

theorem identDash_not_ws {c : Char} (h : isIdentDash c = true) :
    isJsWs c = false := by
  simp only [isIdentDash, Bool.or_eq_true, decide_eq_true_eq] at h
  rcases h with ((h | h) | rfl) | rfl
  · exact isAlpha_not_special h
  · exact isDigit_not_ws h
  · decide
  · decide

theorem identAt_not_ws {c : Char} (h : isIdentAt c = true) :
    isJsWs c = false := by
  simp only [isIdentAt, Bool.or_eq_true, decide_eq_true_eq] at h
  rcases h with ((h | h) | rfl) | rfl
  · exact isAlpha_not_special h
  · exact isDigit_not_ws h
  · decide
  · decide

theorem alnumU_not_ws {c : Char} (h : isAlnumU c = true) : isJsWs c = false :=
  identDash_not_ws (alnumU_identDash h)

/-- Letters and digits are none of the syntax characters that the scanners
treat specially. -/
theorem alnumU_ne_special {c : Char} (h : isAlnumU c = true) :
    c ≠ '\x7b' ∧ c ≠ '\x7d' ∧ c ≠ ':' ∧ c ≠ '@' ∧ c ≠ '-' ∧ c ≠ '/' ∧ c ≠ '*'
      ∧ c ≠ '\n' ∧ c ≠ '\r' ∧ c ≠ ';' ∧ c ≠ ',' ∧ c ≠ '=' ∧ c ≠ '"' ∧ c ≠ '<'
      ∧ c ≠ '>' := by
  refine ⟨?_, ?_, ?_, ?_, ?_, ?_, ?_, ?_, ?_, ?_, ?_, ?_, ?_, ?_, ?_⟩ <;>
    exact alnumU_ne h _ (by decide)

theorem mem_of_wsThenBrace {s : Str} (h : wsThenBrace s = true) : '\x7b' ∈ s := by
  unfold wsThenBrace at h
  have hmem : '\x7b' ∈ s.dropWhile isJsWs := by
    cases hd : s.dropWhile isJsWs with
    | nil => rw [hd] at h; simp at h
    | cons c cs =>
      rw [hd] at h
      simp only [List.head?_cons, Option.some.injEq, decide_eq_true_eq] at h
      subst h
      exact List.mem_cons_self _ _
  exact (List.dropWhile_sublist _).subset hmem

theorem opener_has_brace {t : Str} (h : isNodeOpener t = true) : '\x7b' ∈ t := by
  have hsub1 : List.Sublist (t.dropWhile isIdentDash) t := List.dropWhile_sublist _
  unfold isNodeOpener at h
  rcases Bool.or_eq_true _ _ |>.mp h with h1 | h2
  · unfold openerPat1 at h1
    rcases Bool.and_eq_true _ _ |>.mp h1 with ⟨_, hrest⟩
    by_cases hat : (t.dropWhile isIdentDash).head? = some '@'
    · rw [if_pos hat] at hrest
      rcases Bool.and_eq_true _ _ |>.mp hrest with ⟨_, hb⟩
      have hm : '\x7b' ∈ (t.dropWhile isIdentDash).tail.dropWhile isHexDigit :=
        mem_of_wsThenBrace hb
      have hm2 : '\x7b' ∈ (t.dropWhile isIdentDash).tail :=
        (List.dropWhile_sublist _).subset hm
      exact hsub1.subset ((List.tail_sublist _).subset hm2)
    · rw [if_neg hat] at hrest
      exact hsub1.subset (mem_of_wsThenBrace hrest)
  · unfold openerPat2 at h2
    rcases Bool.and_eq_true _ _ |>.mp h2 with ⟨_, hrest⟩
    by_cases hcol : ((t.dropWhile isIdentDash).dropWhile isJsWs).head? = some ':'
    · rw [if_pos hcol] at hrest
      have hrest' : '\x7b' ∈
          ((((t.dropWhile isIdentDash).dropWhile isJsWs).tail.takeWhile
            fun c => !(c = '\n' || c = '\r')).drop 1) := by
        simpa [List.contains, List.elem_iff] using hrest
      have hm : '\x7b' ∈ ((t.dropWhile isIdentDash).dropWhile isJsWs).tail := by
        have hdrop := (List.drop_sublist 1 _).subset hrest'
        exact (List.takeWhile_sublist _).subset hdrop
      exact hsub1.subset ((List.dropWhile_sublist _).subset
        ((List.tail_sublist _).subset hm))
    · rw [if_neg hcol] at hrest
      exact absurd hrest (by simp)

theorem not_opener_of_no_brace {l : Str} (h : '\x7b' ∉ l) :
    isNodeOpener l = false := by
  cases ho : isNodeOpener l with
  | false => rfl
  | true => exact absurd (opener_has_brace ho) h

theorem jsTrim_subset (l : Str) : ∀ c ∈ jsTrim l, c ∈ l := by
  intro c hc
  unfold jsTrim trimEnd at hc
  have h1 := (List.dropWhile_sublist (l := (l.dropWhile isJsWs).reverse) isJsWs).subset
  have h2 : c ∈ (l.dropWhile isJsWs).reverse := h1 (by simpa using hc)
  have h3 : c ∈ l.dropWhile isJsWs := by simpa using h2
  exact (List.dropWhile_sublist _).subset h3

/-! ### Brace counting, node extraction and content classification -/

theorem braceDelta_zero {l : Str} (h1 : '\x7b' ∉ l) (h2 : '\x7d' ∉ l) :
    braceDelta l = 0 := by
  unfold braceDelta
  rw [List.countP_eq_zero.mpr, List.countP_eq_zero.mpr]
  · rfl
  · intro a ha
    simp only [decide_eq_true_eq]
    exact fun hc => h2 (hc ▸ ha)
  · intro a ha
    simp only [decide_eq_true_eq]
    exact fun hc => h1 (hc ▸ ha)

theorem extractNode_run (inner : List Str) (close : Str) (rest : List Str)
    (hinner : ∀ l ∈ inner, braceDelta l = 0) (hclose : braceDelta close = -1) :
    extractNode 1 (inner ++ close :: rest) = (inner ++ [close], rest) := by
  induction inner with
  | nil =>
    simp only [List.nil_append, extractNode, hclose]
    norm_num
  | cons p ps ih =>
    have hp : braceDelta p = 0 := hinner p (by simp)
    have ihr := ih fun l hl => hinner l (by simp [hl])
    simp only [List.cons_append, extractNode, hp, add_zero]
    rw [if_pos (by simp)]
    simp only [List.append_eq, ihr]

theorem extractNode_block (decl : Str) (inner : List Str) (close : Str)
    (rest : List Str) (hdecl : braceDelta decl = 1)
    (hinner : ∀ l ∈ inner, braceDelta l = 0) (hclose : braceDelta close = -1) :
    extractNode 0 (decl :: (inner ++ close :: rest)) =
      (decl :: (inner ++ [close]), rest) := by
  simp only [extractNode, hdecl, zero_add]
  rw [if_pos (by simp)]
  rw [extractNode_run inner close rest hinner hclose]

theorem classifyContent_props (ls : List Str)
    (h : ∀ l ∈ ls, jsTrim l ≠ [] ∧ isNodeOpener (jsTrim l) = false) :
    ∀ fuel, ls.length < fuel → classifyContent fuel ls = ([], ls) := by
  induction ls with
  | nil =>
    intro fuel hf
    cases fuel with
    | zero => omega
    | succ f => rfl
  | cons l ls ih =>
    intro fuel hf
    cases fuel with
    | zero => omega
    | succ f =>
      have hl := h l (by simp)
      simp only [classifyContent, hl.1, hl.2, if_neg, if_false]
      rw [ih (fun x hx => h x (by simp [hx])) f (by simp at hf; omega)]
      simp

theorem mergeProps_semis (ls : List Str)
    (h : ∀ l ∈ ls, jsTrim l ≠ [] ∧ (jsTrim l).getLast? = some ';') :
    mergeProps [] ls = ls.map jsTrim := by
  induction ls with
  | nil => rfl
  | cons l ls ih =>
    have hl := h l (by simp)
    have hsemi : endsWithChar (jsTrim l) ';' = true := by
      unfold endsWithChar
      rw [hl.2]
      simp
    have hcomma : endsWithChar (jsTrim l) ',' = false := by
      unfold endsWithChar
      rw [hl.2]
      simp
    simp only [mergeProps]
    rw [if_neg hl.1]
    simp only [hsemi, hcomma, Bool.not_true, Bool.false_and, Bool.false_eq_true,
      if_false, ite_false, List.nil_append, if_pos rfl, List.map_cons]
    rw [ih fun x hx => h x (by simp [hx])]
    simp

theorem finalizeNodeAux_pair (o : FilterOptions) (fuel : Nat) (d c : Str)
    (depth : Nat) : finalizeNodeAux o (fuel + 1) [d, c] depth = [d, c] := by
  by_cases hd5 : depth > 5
  · simp [finalizeNodeAux, hd5]
  · cases hsp : o.sortProperties <;>
      simp [finalizeNodeAux, hd5, hsp, classifyContent, mergeProps, buildProps,
        sortByLe, jsTrim, trimEnd, List.getLastD]

/-! ### Sort-key derivation on well-formed declaration lines -/

theorem head?_eq_some_mem {l : Str} {c : Char} (h : l.head? = some c) : c ∈ l :=
  List.mem_of_mem_head? (by simp [h])

theorem takeWhile_all (p : Char → Bool) (l : Str) (h : ∀ c ∈ l, p c = true) :
    l.takeWhile p = l := by
  have := takeWhile_append_stop p l [] h (by simp)
  simpa using this

theorem hex_identAt {c : Char} (h : isHexDigit c = true) : isIdentAt c = true := by
  simp only [isHexDigit, Bool.or_eq_true, Bool.and_eq_true, decide_eq_true_eq] at h
  simp only [isIdentAt, Bool.or_eq_true, decide_eq_true_eq]
  rcases h with (h | ⟨h1, h2⟩) | ⟨h1, h2⟩
  · exact Or.inl (Or.inl (Or.inr h))
  · refine Or.inl (Or.inl (Or.inl ?_))
    simp only [Char.isAlpha, Char.isLower, Bool.or_eq_true, Bool.and_eq_true,
      decide_eq_true_eq]
    exact Or.inr ⟨h1, le_trans h2 (show 'f' ≤ 'z' by decide)⟩
  · refine Or.inl (Or.inl (Or.inl ?_))
    simp only [Char.isAlpha, Char.isUpper, Bool.or_eq_true, Bool.and_eq_true,
      decide_eq_true_eq]
    exact Or.inl ⟨h1, le_trans h2 (show 'F' ≤ 'Z' by decide)⟩

theorem hex_not_ws {c : Char} (h : isHexDigit c = true) : isJsWs c = false :=
  identAt_not_ws (hex_identAt h)

/-- On a declaration `n {` with a plain identifier, the derived sort key is
the identifier itself. -/
theorem topNodeSortKey_name (n : Str) (hne : n ≠ [])
    (h : ∀ c ∈ n, isAlnumU c = true) (rest : Str) :
    topNodeSortKey (n ++ ' ' :: '\x7b' :: rest) = n := by
  unfold topNodeSortKey
  have hhead : ∀ c, (n ++ ' ' :: '\x7b' :: rest).head? = some c → isJsWs c = false := by
    intro c hc
    rw [List.head?_append_of_ne_nil n hne] at hc
    exact alnumU_not_ws (h c (head?_eq_some_mem hc))
  rw [dropWhile_head_false _ _ hhead]
  have ht1 : (n ++ ' ' :: '\x7b' :: rest).takeWhile isIdentDash = n :=
    takeWhile_append_stop _ _ _ (fun c hc => alnumU_identDash (h c hc))
      (fun c hc => by simp at hc; subst hc; decide)
  have hd1 : (n ++ ' ' :: '\x7b' :: rest).dropWhile isIdentDash = ' ' :: '\x7b' :: rest :=
    dropWhile_append_stop _ _ _ (fun c hc => alnumU_identDash (h c hc))
      (fun c hc => by simp at hc; subst hc; decide)
  have ht2 : (n ++ ' ' :: '\x7b' :: rest).takeWhile isIdentAt = n :=
    takeWhile_append_stop _ _ _ (fun c hc => alnumU_identAt (h c hc))
      (fun c hc => by simp at hc; subst hc; decide)
  have hd2 : (n ++ ' ' :: '\x7b' :: rest).dropWhile isIdentAt = ' ' :: '\x7b' :: rest :=
    dropWhile_append_stop _ _ _ (fun c hc => alnumU_identAt (h c hc))
      (fun c hc => by simp at hc; subst hc; decide)
  rw [ht1, hd1]
  have hnocolon : ((' ' :: '\x7b' :: rest).dropWhile isJsWs).head? = some '\x7b' := by
    show ((List.dropWhile isJsWs (' ' :: '\x7b' :: rest))).head? = _
    rw [List.dropWhile_cons_of_pos (by decide), List.dropWhile_cons_of_neg (by decide)]
    rfl
  rw [if_neg (by simp [hnocolon])]
  rw [ht2, hd2]
  have hbrace : wsThenBrace (' ' :: '\x7b' :: rest) = true := by
    unfold wsThenBrace
    rw [List.dropWhile_cons_of_pos (by decide), List.dropWhile_cons_of_neg (by decide)]
    simp
  rw [if_pos (by simp [hbrace, hne])]
  exact jsTrim_eq_self n (fun c hc => alnumU_not_ws (h c (head?_eq_some_mem hc)))
    (fun c hc => alnumU_not_ws (h c (List.mem_of_getLast?_eq_some hc)))

/-- On a labelled declaration `label: ...` the derived sort key is the
label. -/
theorem topNodeSortKey_label (n : Str) (hne : n ≠ [])
    (h : ∀ c ∈ n, isAlnumU c = true) (rest : Str) :
    topNodeSortKey (n ++ ':' :: rest) = n := by
  unfold topNodeSortKey
  have hhead : ∀ c, (n ++ ':' :: rest).head? = some c → isJsWs c = false := by
    intro c hc
    rw [List.head?_append_of_ne_nil n hne] at hc
    exact alnumU_not_ws (h c (head?_eq_some_mem hc))
  rw [dropWhile_head_false _ _ hhead]
  have ht1 : (n ++ ':' :: rest).takeWhile isIdentDash = n :=
    takeWhile_append_stop _ _ _ (fun c hc => alnumU_identDash (h c hc))
      (fun c hc => by simp at hc; subst hc; decide)
  have hd1 : (n ++ ':' :: rest).dropWhile isIdentDash = ':' :: rest :=
    dropWhile_append_stop _ _ _ (fun c hc => alnumU_identDash (h c hc))
      (fun c hc => by simp at hc; subst hc; decide)
  rw [ht1, hd1]
  have hcolon : ((':' :: rest).dropWhile isJsWs).head? = some ':' := by
    rw [List.dropWhile_cons_of_neg (by decide)]
    rfl
  rw [if_pos (by simp [hcolon, hne])]
  exact jsTrim_eq_self n (fun c hc => alnumU_not_ws (h c (head?_eq_some_mem hc)))
    (fun c hc => alnumU_not_ws (h c (List.mem_of_getLast?_eq_some hc)))

/-- On a declaration `base@addr {` the derived sort key is the whole token
`base@addr`, including the unit address. -/
theorem topNodeSortKey_addr (n a : Str) (hn : n ≠ []) (ha : a ≠ [])
    (hna : ∀ c ∈ n, isAlnumU c = true) (haa : ∀ c ∈ a, isHexDigit c = true)
    (rest : Str) :
    topNodeSortKey (n ++ '@' :: (a ++ ' ' :: '\x7b' :: rest)) = n ++ '@' :: a := by
  unfold topNodeSortKey
  have hhead : ∀ c, (n ++ '@' :: (a ++ ' ' :: '\x7b' :: rest)).head? = some c →
      isJsWs c = false := by
    intro c hc
    rw [List.head?_append_of_ne_nil n hn] at hc
    exact alnumU_not_ws (hna c (head?_eq_some_mem hc))
  rw [dropWhile_head_false _ _ hhead]
  have ht1 : (n ++ '@' :: (a ++ ' ' :: '\x7b' :: rest)).takeWhile isIdentDash = n :=
    takeWhile_append_stop _ _ _ (fun c hc => alnumU_identDash (hna c hc))
      (fun c hc => by simp at hc; subst hc; decide)
  have hd1 : (n ++ '@' :: (a ++ ' ' :: '\x7b' :: rest)).dropWhile isIdentDash =
      '@' :: (a ++ ' ' :: '\x7b' :: rest) :=
    dropWhile_append_stop _ _ _ (fun c hc => alnumU_identDash (hna c hc))
      (fun c hc => by simp at hc; subst hc; decide)
  rw [ht1, hd1]
  have hat : (('@' :: (a ++ ' ' :: '\x7b' :: rest)).dropWhile isJsWs).head?
      = some '@' := by
    rw [List.dropWhile_cons_of_neg (by decide)]
    rfl
  rw [if_neg (by simp [hat])]
  have hassoc : n ++ '@' :: (a ++ ' ' :: '\x7b' :: rest) =
      (n ++ '@' :: a) ++ ' ' :: '\x7b' :: rest := by
    simp
  have hall2 : ∀ c ∈ n ++ '@' :: a, isIdentAt c = true := by
    intro c hc
    rcases List.mem_append.mp hc with hc | hc
    · exact alnumU_identAt (hna c hc)
    · rcases List.mem_cons.mp hc with rfl | hc
      · decide
      · exact hex_identAt (haa c hc)
  have ht2 : (n ++ '@' :: (a ++ ' ' :: '\x7b' :: rest)).takeWhile isIdentAt =
      n ++ '@' :: a := by
    rw [hassoc]
    exact takeWhile_append_stop _ _ _ hall2
      (fun c hc => by simp at hc; subst hc; decide)
  have hd2 : (n ++ '@' :: (a ++ ' ' :: '\x7b' :: rest)).dropWhile isIdentAt =
      ' ' :: '\x7b' :: rest := by
    rw [hassoc]
    exact dropWhile_append_stop _ _ _ hall2
      (fun c hc => by simp at hc; subst hc; decide)
  rw [ht2, hd2]
  have hbrace : wsThenBrace (' ' :: '\x7b' :: rest) = true := by
    unfold wsThenBrace
    rw [List.dropWhile_cons_of_pos (by decide), List.dropWhile_cons_of_neg (by decide)]
    simp
  rw [if_pos (by simp [hbrace])]
  refine jsTrim_eq_self _ ?_ ?_
  · intro c hc
    rw [List.head?_append_of_ne_nil n hn] at hc
    exact alnumU_not_ws (hna c (head?_eq_some_mem hc))
  · intro c hc
    rw [List.getLast?_append_of_ne_nil n (by simp)] at hc
    rw [show ('@' :: a) = ['@'] ++ a from rfl,
      List.getLast?_append_of_ne_nil _ ha] at hc
    exact hex_not_ws (haa c (List.mem_of_getLast?_eq_some hc))

/-- A line starting with `&` matches neither extraction pattern, so the key
falls back to the sentinel. -/
theorem topNodeSortKey_amp (rest : Str) :
    topNodeSortKey ('&' :: rest) = sentinelKey := by
  unfold topNodeSortKey
  rw [List.dropWhile_cons_of_neg (by decide)]
  rw [takeWhile_head_false _ _ (fun c hc => by simp at hc; subst hc; decide)]
  rw [if_neg (by simp)]
  rw [takeWhile_head_false _ _ (fun c hc => by simp at hc; subst hc; decide)]
  rw [if_neg (by simp)]

/-- A hyphenated label-less identifier gets the sentinel key: the opener run
accepts `-` but the extraction class does not, and the lookahead then fails
at the hyphen. -/
theorem topNodeSortKey_hyphen (p q : Str) (hp : p ≠ [])
    (hpa : ∀ c ∈ p, isAlnumU c = true) (hqa : ∀ c ∈ q, isAlnumU c = true)
    (rest : Str) :
    topNodeSortKey (p ++ '-' :: (q ++ ' ' :: '\x7b' :: rest)) = sentinelKey := by
  unfold topNodeSortKey
  have hhead : ∀ c, (p ++ '-' :: (q ++ ' ' :: '\x7b' :: rest)).head? = some c →
      isJsWs c = false := by
    intro c hc
    rw [List.head?_append_of_ne_nil p hp] at hc
    exact alnumU_not_ws (hpa c (head?_eq_some_mem hc))
  rw [dropWhile_head_false _ _ hhead]
  have hassoc : p ++ '-' :: (q ++ ' ' :: '\x7b' :: rest) =
      (p ++ '-' :: q) ++ ' ' :: '\x7b' :: rest := by
    simp
  have hall1 : ∀ c ∈ p ++ '-' :: q, isIdentDash c = true := by
    intro c hc
    rcases List.mem_append.mp hc with hc | hc
    · exact alnumU_identDash (hpa c hc)
    · rcases List.mem_cons.mp hc with rfl | hc
      · decide
      · exact alnumU_identDash (hqa c hc)
  have ht1 : (p ++ '-' :: (q ++ ' ' :: '\x7b' :: rest)).takeWhile isIdentDash =
      p ++ '-' :: q := by
    rw [hassoc]
    exact takeWhile_append_stop _ _ _ hall1
      (fun c hc => by simp at hc; subst hc; decide)
  have hd1 : (p ++ '-' :: (q ++ ' ' :: '\x7b' :: rest)).dropWhile isIdentDash =
      ' ' :: '\x7b' :: rest := by
    rw [hassoc]
    exact dropWhile_append_stop _ _ _ hall1
      (fun c hc => by simp at hc; subst hc; decide)
  rw [ht1, hd1]
  have hnocolon : ((' ' :: '\x7b' :: rest).dropWhile isJsWs).head? = some '\x7b' := by
    rw [List.dropWhile_cons_of_pos (by decide), List.dropWhile_cons_of_neg (by decide)]
    rfl
  rw [if_neg (by simp [hnocolon])]
  have ht2 : (p ++ '-' :: (q ++ ' ' :: '\x7b' :: rest)).takeWhile isIdentAt = p :=
    takeWhile_append_stop _ _ _ (fun c hc => alnumU_identAt (hpa c hc))
      (fun c hc => by simp at hc; subst hc; decide)
  have hd2 : (p ++ '-' :: (q ++ ' ' :: '\x7b' :: rest)).dropWhile isIdentAt =
      '-' :: (q ++ ' ' :: '\x7b' :: rest) :=
    dropWhile_append_stop _ _ _ (fun c hc => alnumU_identAt (hpa c hc))
      (fun c hc => by simp at hc; subst hc; decide)
  rw [ht2, hd2]
  have hdash : wsThenBrace ('-' :: (q ++ ' ' :: '\x7b' :: rest)) = false := by
    unfold wsThenBrace
    rw [List.dropWhile_cons_of_neg (by decide)]
    simp
  rw [if_neg (by simp [hdash])]

/-- The duplicated child-node derivation is the same function as the
top-level one (the source repeats the code verbatim). -/
theorem childNodeSortKey_eq_top (l : Str) : childNodeSortKey l = topNodeSortKey l :=
  rfl

/-! ### Openers and extraction on rendered documents -/

/-- A label-less opener line -- an opener-class identifier run followed by a
space and a brace -- matches the first opener pattern. -/
theorem isNodeOpener_name (n : Str) (hne : n ≠ [])
    (h : ∀ c ∈ n, isIdentDash c = true) (rest : Str) :
    isNodeOpener (n ++ ' ' :: '\x7b' :: rest) = true := by
  have ht1 : (n ++ ' ' :: '\x7b' :: rest).takeWhile isIdentDash = n :=
    takeWhile_append_stop _ _ _ h
      (fun c hc => by simp at hc; subst hc; decide)
  have hd1 : (n ++ ' ' :: '\x7b' :: rest).dropWhile isIdentDash =
      ' ' :: '\x7b' :: rest :=
    dropWhile_append_stop _ _ _ h
      (fun c hc => by simp at hc; subst hc; decide)
  have hbrace : wsThenBrace (' ' :: '\x7b' :: rest) = true := by
    unfold wsThenBrace
    rw [List.dropWhile_cons_of_pos (by decide), List.dropWhile_cons_of_neg (by decide)]
    simp
  unfold isNodeOpener openerPat1
  rw [ht1, hd1]
  rw [if_neg (by simp)]
  simp [hne, hbrace]

/-- A hyphenated label-less opener still matches the first opener pattern
(the opener class includes the hyphen). -/
theorem isNodeOpener_hyphen (p q : Str) (_hp : p ≠ [])
    (hpa : ∀ c ∈ p, isAlnumU c = true) (hqa : ∀ c ∈ q, isAlnumU c = true)
    (rest : Str) :
    isNodeOpener (p ++ '-' :: (q ++ ' ' :: '\x7b' :: rest)) = true := by
  have hassoc : p ++ '-' :: (q ++ ' ' :: '\x7b' :: rest) =
      (p ++ '-' :: q) ++ ' ' :: '\x7b' :: rest := by
    simp
  have hall1 : ∀ c ∈ p ++ '-' :: q, isIdentDash c = true := by
    intro c hc
    rcases List.mem_append.mp hc with hc | hc
    · exact alnumU_identDash (hpa c hc)
    · rcases List.mem_cons.mp hc with rfl | hc
      · decide
      · exact alnumU_identDash (hqa c hc)
  rw [hassoc]
  exact isNodeOpener_name (p ++ '-' :: q) (by simp) hall1 rest

/-- The top-level closing line `\x7d;`. -/
def closeTop : Str := ['\x7d', ';']

/-- Declaration line of a plain named node. -/
def nodeDecl (n : Str) : Str := n ++ [' ', '\x7b']

/-- A two-line node block `n \x7b` / `\x7d;`. -/
def nameBlock (n : Str) : List Str := [nodeDecl n, closeTop]

/-- Property line with the canonical four-space indentation. -/
def propLine (p : Str) : Str := ' ' :: ' ' :: ' ' :: ' ' :: p

/-- A document consisting of one node `n` whose content is the given
property lines. -/
def propsDoc (props : List Str) : Str :=
  joinLines (nodeDecl ['n'] :: (props.map propLine ++ [closeTop]))

/-- A document consisting of a sequence of two-line sibling nodes. -/
def nodesDoc (names : List Str) : Str :=
  joinLines ((names.map nameBlock).flatten)

/-- Well-formedness of a property line for the order-insensitivity theorem:
trimmed, semicolon-terminated, free of braces, newlines and comment
characters. -/
def WfSortProp (p : Str) : Prop :=
  p ≠ [] ∧ (∀ c, p.head? = some c → isJsWs c = false) ∧
  p.getLast? = some ';' ∧
  (∀ c ∈ p, c ≠ '\x7b' ∧ c ≠ '\x7d' ∧ c ≠ '\n' ∧ c ≠ '\r' ∧ c ≠ '/' ∧ c ≠ '*')

theorem collectTopAux_nil (fuel i : Nat) : collectTopAux fuel i [] = ([], []) := by
  cases fuel <;> rfl

theorem extractNode_pair (decl close : Str) (rest : List Str)
    (hdecl : braceDelta decl = 1) (hclose : braceDelta close = -1) :
    extractNode 0 (decl :: close :: rest) = ([decl, close], rest) := by
  have := extractNode_block decl [] close rest hdecl (by simp) hclose
  simpa using this

theorem assembleNodes_nofree (o : FilterOptions) (ns : List TopNode) :
    assembleNodes o [] ns = (ns.map fun nd => finalizeNode nd.lines o 0).flatten := by
  induction ns with
  | nil => rfl
  | cons n ns ih =>
    cases ns with
    | nil => simp [assembleNodes]
    | cons n' rest =>
      show finalizeNode n.lines o 0 ++ _ ++ assembleNodes o [] (n' :: rest) = _
      rw [ih]
      simp [List.filter]

theorem mem_propLine {c : Char} {p : Str} (h : c ∈ propLine p) :
    c = ' ' ∨ c ∈ p := by
  unfold propLine at h
  rcases List.mem_cons.mp h with rfl | h
  · exact Or.inl rfl
  · rcases List.mem_cons.mp h with rfl | h
    · exact Or.inl rfl
    · rcases List.mem_cons.mp h with rfl | h
      · exact Or.inl rfl
      · rcases List.mem_cons.mp h with rfl | h
        · exact Or.inl rfl
        · exact Or.inr h

theorem propLine_no_brace {p : Str} (hwf : WfSortProp p) :
    '\x7b' ∉ propLine p ∧ '\x7d' ∉ propLine p := by
  constructor <;>
  · intro hm
    rcases mem_propLine hm with h | h
    · exact absurd h (by decide)
    · first
      | exact (hwf.2.2.2 _ h).1 rfl
      | exact (hwf.2.2.2 _ h).2.1 rfl

theorem getLast?_propLine {p : Str} (hne : p ≠ []) :
    (propLine p).getLast? = p.getLast? := by
  show ([' ', ' ', ' ', ' '] ++ p).getLast? = p.getLast?
  exact List.getLast?_append_of_ne_nil _ hne

theorem jsTrim_propLine {p : Str} (hwf : WfSortProp p) : jsTrim (propLine p) = p := by
  show jsTrim ([' ', ' ', ' ', ' '] ++ p) = p
  rw [jsTrim_ws_append _ _ (by decide)]
  exact jsTrim_eq_self p hwf.2.1 fun c hc => by
    rw [hwf.2.2.1] at hc
    simp at hc
    subst hc
    decide

theorem propsDoc_lines_wf (props : List Str) (hwf : ∀ p ∈ props, WfSortProp p) :
    ∀ l ∈ nodeDecl ['n'] :: (props.map propLine ++ [closeTop]),
      l ≠ [] ∧ '\n' ∉ l ∧ (∀ c, l.getLast? = some c → isJsWs c = false) ∧
        ∀ c ∈ l, c ≠ '/' ∧ c ≠ '*' := by
  intro l hl
  rcases List.mem_cons.mp hl with rfl | hl
  · exact ⟨by decide, by decide, by decide, by decide⟩
  · rcases List.mem_append.mp hl with hl | hl
    · obtain ⟨p, hp, rfl⟩ := List.mem_map.mp hl
      have hw := hwf p hp
      refine ⟨by simp [propLine], ?_, ?_, ?_⟩
      · intro hm
        rcases mem_propLine hm with h | h
        · exact absurd h (by decide)
        · exact (hw.2.2.2 _ h).2.2.1 rfl
      · intro c hc
        rw [getLast?_propLine hw.1, hw.2.2.1] at hc
        simp at hc
        subst hc
        decide
      · intro c hc
        rcases mem_propLine hc with rfl | hc
        · exact ⟨by decide, by decide⟩
        · exact ⟨(hw.2.2.2 _ hc).2.2.2.2.1, (hw.2.2.2 _ hc).2.2.2.2.2⟩
    · rw [List.mem_singleton.mp hl]
      exact ⟨by decide, by decide, by decide, by decide⟩

theorem splitLines_propsDoc (props : List Str) (hwf : ∀ p ∈ props, WfSortProp p) :
    splitLines (propsDoc props) =
      nodeDecl ['n'] :: (props.map propLine ++ [closeTop]) :=
  splitLines_joinLines _ (by simp)
    (fun l hl => (propsDoc_lines_wf props hwf l hl).2.1)

theorem buildProps_simple (o : FilterOptions) (hhex : o.normalizeHexValues = false)
    (harr : o.normalizeArrays = false) (merged : List Str)
    (h : ∀ p ∈ merged, jsTrim p = p ∧ p ≠ [] ∧ '\x7d' ∉ p) :
    buildProps o merged = merged.map fun p => PropRec.mk p p (propSortKey p) := by
  unfold buildProps
  have step : ∀ p ∈ merged,
      (fun propertyText =>
        if jsTrim propertyText = [] || jsTrim propertyText = ['\x7d'] ||
            jsTrim propertyText = ['\x7d', ';'] then none
        else
          some (PropRec.mk propertyText
            (if o.normalizeArrays then
              normalizeArrays (if o.normalizeHexValues then
                normalizeHexValues propertyText else propertyText)
            else if o.normalizeHexValues then normalizeHexValues propertyText
              else propertyText)
            (propSortKey propertyText))) p
      = some (PropRec.mk p p (propSortKey p)) := by
    intro p hp
    obtain ⟨ht, hne, hnb⟩ := h p hp
    simp only []
    rw [ht]
    have c1 : p ≠ ['\x7d'] := fun hc => hnb (hc ▸ List.mem_cons_self _ _)
    have c2 : p ≠ ['\x7d', ';'] := fun hc => hnb (hc ▸ List.mem_cons_self _ _)
    rw [if_neg (by simp [hne, c1, c2])]
    rw [hhex, harr]
    simp
  rw [List.filterMap_congr step]
  rw [show (fun p => some (PropRec.mk p p (propSortKey p)))
    = some ∘ (fun p => PropRec.mk p p (propSortKey p)) from rfl]
  exact congrFun (List.filterMap_eq_map _) merged

theorem collectTop_propsDoc (props : List Str) (hwf : ∀ p ∈ props, WfSortProp p)
    (fuel : Nat)
    (hf : (nodeDecl ['n'] :: (props.map propLine ++ [closeTop])).length < fuel) :
    collectTopAux fuel 0 (nodeDecl ['n'] :: (props.map propLine ++ [closeTop])) =
      ([⟨nodeDecl ['n'] :: (props.map propLine ++ [closeTop]),
        topNodeSortKey (nodeDecl ['n']), 0⟩], []) := by
  cases fuel with
  | zero => omega
  | succ f =>
    have hopen : isNodeOpener (jsTrim (nodeDecl ['n'])) = true := by decide
    have hextract : extractNode 0
        (nodeDecl ['n'] :: (props.map propLine ++ closeTop :: [])) =
        (nodeDecl ['n'] :: (props.map propLine ++ [closeTop]), []) :=
      extractNode_block _ _ _ _ (by decide)
        (fun l hl => by
          obtain ⟨p, hp, rfl⟩ := List.mem_map.mp hl
          have hb := propLine_no_brace (hwf p hp)
          exact braceDelta_zero hb.1 hb.2) (by decide)
    simp only [collectTopAux, hopen, if_pos, hextract, collectTopAux_nil]

theorem semantic_propsDoc (o : FilterOptions) (hsort : o.sortProperties = true)
    (props : List Str) (hwf : ∀ p ∈ props, WfSortProp p) :
    semanticDtsNormalization (propsDoc props) o =
      joinLines (finalizeNode
        (nodeDecl ['n'] :: (props.map propLine ++ [closeTop])) o 0) := by
  unfold semanticDtsNormalization
  rw [hsort]
  simp only [Bool.not_true, Bool.false_eq_true, if_false, ite_false]
  rw [splitLines_propsDoc props hwf]
  rw [collectTop_propsDoc props hwf _ (Nat.lt_succ_self _)]
  simp only [List.length_cons, List.length_singleton, hsort]
  rw [if_neg (by simp)]
  simp only [List.map_cons, List.map_nil, List.filter_nil, List.getLast?_cons,
    List.getLast?_nil]
  show joinLines ([] ++ assembleNodes o [] [_] ++ _) = _
  rw [assembleNodes_nofree]
  simp [List.filter]

theorem finalizeNode_propsNode (o : FilterOptions) (hsort : o.sortProperties = true)
    (hhex : o.normalizeHexValues = false) (harr : o.normalizeArrays = false)
    (props : List Str) (hwf : ∀ p ∈ props, WfSortProp p) :
    finalizeNode (nodeDecl ['n'] :: (props.map propLine ++ [closeTop])) o 0 =
      nodeDecl ['n'] ::
        ((sortByLe propLe (props.map fun p => PropRec.mk p p (propSortKey p))).map
          (fun r => [' ', ' ', ' ', ' '] ++ jsTrim r.normalized) ++ [closeTop]) := by
  have hcl : ∀ l ∈ props.map propLine,
      jsTrim l ≠ [] ∧ isNodeOpener (jsTrim l) = false := by
    intro l hl
    obtain ⟨p, hp, rfl⟩ := List.mem_map.mp hl
    rw [jsTrim_propLine (hwf p hp)]
    refine ⟨(hwf p hp).1, not_opener_of_no_brace ?_⟩
    intro hb
    exact ((hwf p hp).2.2.2 _ hb).1 rfl
  have hms : ∀ l ∈ props.map propLine,
      jsTrim l ≠ [] ∧ (jsTrim l).getLast? = some ';' := by
    intro l hl
    obtain ⟨p, hp, rfl⟩ := List.mem_map.mp hl
    rw [jsTrim_propLine (hwf p hp)]
    exact ⟨(hwf p hp).1, (hwf p hp).2.2.1⟩
  have hbp : ∀ p ∈ props, jsTrim p = p ∧ p ≠ [] ∧ '\x7d' ∉ p := by
    intro p hp
    have hw := hwf p hp
    refine ⟨jsTrim_eq_self p hw.2.1 ?_, hw.1, fun hb => (hw.2.2.2 _ hb).2.1 rfl⟩
    intro c hc
    rw [hw.2.2.1] at hc
    simp at hc
    subst hc
    decide
  have hmap : (props.map propLine).map jsTrim = props := by
    rw [List.map_map]
    calc List.map (jsTrim ∘ propLine) props
        = List.map id props :=
          List.map_congr_left fun p hp => jsTrim_propLine (hwf p hp)
      _ = props := List.map_id props
  unfold finalizeNode
  rw [show (7 : Nat) = 6 + 1 from rfl]
  rw [finalizeNodeAux]
  rw [if_neg (by simp)]
  have hdrop : ((nodeDecl ['n'] :: (props.map propLine ++ [closeTop])).drop 1).dropLast
      = props.map propLine := by
    simp
  have hlast : (nodeDecl ['n'] :: (props.map propLine ++ [closeTop])).getLastD []
      = closeTop := by
    show ((nodeDecl ['n'] :: props.map propLine) ++ [closeTop]).getLastD [] = closeTop
    rw [List.getLastD_eq_getLast?, List.getLast?_concat]
    rfl
  simp only [List.headD_cons, hlast, hdrop]
  rw [classifyContent_props _ hcl _ (Nat.lt_succ_self _)]
  rw [mergeProps_semis _ hms, hmap]
  rw [buildProps_simple o hhex harr props hbp]
  rw [hsort]
  simp only [if_pos, List.map_nil, List.length_nil, List.flatten_nil, if_true]
  rw [if_neg (by simp)]
  simp [nodeDecl]
  intro a _
  decide

/-! ### Collection of sibling node blocks -/

/-- The nodes that the top-level collection produces on a block document. -/
def blockNodes : List Str → Nat → List TopNode
  | [], _ => []
  | n :: ns, i => ⟨nameBlock n, n, i⟩ :: blockNodes ns (i + 2)

theorem braceDelta_nodeDecl (n : Str) (h : ∀ c ∈ n, isAlnumU c = true) :
    braceDelta (nodeDecl n) = 1 := by
  have h1 : n.countP (· = '\x7b') = 0 := List.countP_eq_zero.mpr fun a ha => by
    simp only [decide_eq_true_eq]
    exact (alnumU_ne_special (h a ha)).1
  have h2 : n.countP (· = '\x7d') = 0 := List.countP_eq_zero.mpr fun a ha => by
    simp only [decide_eq_true_eq]
    exact (alnumU_ne_special (h a ha)).2.1
  unfold nodeDecl braceDelta
  rw [List.countP_append, List.countP_append, h1, h2]
  decide

theorem jsTrim_nodeDecl (n : Str) (hne : n ≠ [])
    (h : ∀ c ∈ n, isAlnumU c = true) : jsTrim (nodeDecl n) = nodeDecl n := by
  refine jsTrim_eq_self _ ?_ ?_
  · intro c hc
    unfold nodeDecl at hc
    rw [List.head?_append_of_ne_nil n hne] at hc
    exact alnumU_not_ws (h c (head?_eq_some_mem hc))
  · intro c hc
    unfold nodeDecl at hc
    rw [List.getLast?_append_of_ne_nil n (by simp)] at hc
    simp at hc
    subst hc
    decide

theorem topNodeSortKey_nodeDecl (n : Str) (hne : n ≠ [])
    (h : ∀ c ∈ n, isAlnumU c = true) : topNodeSortKey (nodeDecl n) = n :=
  topNodeSortKey_name n hne h []

theorem isNodeOpener_nodeDecl (n : Str) (hne : n ≠ [])
    (h : ∀ c ∈ n, isAlnumU c = true) : isNodeOpener (nodeDecl n) = true :=
  isNodeOpener_name n hne (fun c hc => alnumU_identDash (h c hc)) []

theorem collectTop_blocks (names : List Str)
    (hwf : ∀ n ∈ names, n ≠ [] ∧ ∀ c ∈ n, isAlnumU c = true) :
    ∀ (fuel i : Nat), ((names.map nameBlock).flatten).length < fuel →
    collectTopAux fuel i ((names.map nameBlock).flatten) = (blockNodes names i, []) := by
  induction names with
  | nil =>
    intro fuel i _
    show collectTopAux fuel i [] = ([], [])
    exact collectTopAux_nil fuel i
  | cons n ns ih =>
    intro fuel i hf
    obtain ⟨hne, hal⟩ := hwf n (by simp)
    have hflat : ((n :: ns).map nameBlock).flatten =
        nodeDecl n :: closeTop :: (ns.map nameBlock).flatten := by
      simp [nameBlock]
    rw [hflat] at hf ⊢
    cases fuel with
    | zero => omega
    | succ f =>
      have hopen : isNodeOpener (jsTrim (nodeDecl n)) = true := by
        rw [jsTrim_nodeDecl n hne hal]
        exact isNodeOpener_nodeDecl n hne hal
      have hext : extractNode 0 (nodeDecl n :: closeTop :: (ns.map nameBlock).flatten)
          = ([nodeDecl n, closeTop], (ns.map nameBlock).flatten) :=
        extractNode_pair _ _ _ (braceDelta_nodeDecl n hal) (by decide)
      simp only [collectTopAux, hopen, if_pos, hext]
      norm_num
      rw [ih (fun m hm => hwf m (by simp [hm])) f (i + 2) (by simp at hf ⊢; omega)]
      rw [topNodeSortKey_nodeDecl n hne hal]
      simp [blockNodes, nameBlock]

theorem blockNodes_length (names : List Str) (i : Nat) :
    (blockNodes names i).length = names.length := by
  induction names generalizing i with
  | nil => rfl
  | cons n ns ih => simp [blockNodes, ih]

/-- Projection of a collected node to its key and lines. -/
def nodePi (nd : TopNode) : Str × List Str := (nd.sortKey, nd.lines)

theorem blockNodes_map_pi (names : List Str) (i : Nat) :
    (blockNodes names i).map nodePi = names.map fun n => (n, nameBlock n) := by
  induction names generalizing i with
  | nil => rfl
  | cons n ns ih => simp [blockNodes, ih, nodePi]

theorem mem_blockNodes_lines {nd : TopNode} {names : List Str} {i : Nat}
    (h : nd ∈ blockNodes names i) : ∃ n ∈ names, nd.lines = nameBlock n := by
  induction names generalizing i with
  | nil => simp [blockNodes] at h
  | cons n ns ih =>
    rcases List.mem_cons.mp h with rfl | h
    · exact ⟨n, by simp, rfl⟩
    · obtain ⟨m, hm, he⟩ := ih h
      exact ⟨m, by simp [hm], he⟩

/-- Comparator on key-lines pairs, the projection of the node comparator. -/
def pairLe (a b : Str × List Str) : Bool := cmpStr a.1 b.1 ≠ .gt

theorem nodesDoc_lines_wf (names : List Str)
    (hwf : ∀ n ∈ names, n ≠ [] ∧ ∀ c ∈ n, isAlnumU c = true) :
    ∀ l ∈ (names.map nameBlock).flatten,
      l ≠ [] ∧ '\n' ∉ l ∧ (∀ c, l.getLast? = some c → isJsWs c = false) ∧
        ∀ c ∈ l, c ≠ '/' ∧ c ≠ '*' := by
  intro l hl
  obtain ⟨b, hb, hlb⟩ := List.mem_flatten.mp hl
  obtain ⟨n, hn, rfl⟩ := List.mem_map.mp hb
  obtain ⟨hne, hal⟩ := hwf n hn
  rcases List.mem_cons.mp hlb with rfl | hlb
  · refine ⟨by simp [nodeDecl, hne], ?_, ?_, ?_⟩
    · intro hm
      unfold nodeDecl at hm
      rcases List.mem_append.mp hm with hm | hm
      · exact (alnumU_ne_special (hal _ hm)).2.2.2.2.2.2.2.1 rfl
      · simp at hm
    · intro c hc
      unfold nodeDecl at hc
      rw [List.getLast?_append_of_ne_nil n (by simp)] at hc
      simp at hc
      subst hc
      decide
    · intro c hc
      unfold nodeDecl at hc
      rcases List.mem_append.mp hc with hc | hc
      · exact ⟨(alnumU_ne_special (hal _ hc)).2.2.2.2.2.1,
          (alnumU_ne_special (hal _ hc)).2.2.2.2.2.2.1⟩
      · rcases List.mem_cons.mp hc with rfl | hc
        · exact ⟨by decide, by decide⟩
        · simp at hc
          subst hc
          exact ⟨by decide, by decide⟩
  · rw [List.mem_singleton.mp hlb]
    exact ⟨by decide, by decide, by decide, by decide⟩

theorem semantic_nodesDoc (o : FilterOptions) (hsort : o.sortProperties = true)
    (names : List Str) (hlen : 1 < names.length)
    (hwf : ∀ n ∈ names, n ≠ [] ∧ ∀ c ∈ n, isAlnumU c = true) :
    semanticDtsNormalization (nodesDoc names) o =
      joinLines (((sortByLe nodeLe (blockNodes names 0)).map (·.lines)).flatten) := by
  unfold semanticDtsNormalization
  rw [hsort]
  simp only [Bool.not_true, Bool.false_eq_true, if_false, ite_false]
  have hflne : (names.map nameBlock).flatten ≠ [] := by
    cases names with
    | nil => simp at hlen
    | cons n ns => simp [nameBlock]
  rw [show nodesDoc names = joinLines ((names.map nameBlock).flatten) from rfl]
  rw [splitLines_joinLines _ hflne
    (fun l hl => (nodesDoc_lines_wf names hwf l hl).2.1)]
  rw [collectTop_blocks names hwf _ 0 (Nat.lt_succ_self _)]
  rw [blockNodes_length names 0]
  rw [if_pos (by simp [hsort, hlen])]
  have hfin : ∀ nd ∈ sortByLe nodeLe (blockNodes names 0),
      finalizeNode nd.lines o 0 = nd.lines := by
    intro nd hnd
    have hmem : nd ∈ blockNodes names 0 :=
      (sortByLe_perm nodeLe (blockNodes names 0)).subset hnd
    obtain ⟨m, _, he⟩ := mem_blockNodes_lines hmem
    rw [he]
    show finalizeNodeAux o 7 (nameBlock m) 0 = nameBlock m
    rw [show (7 : Nat) = 6 + 1 from rfl]
    exact finalizeNodeAux_pair o 6 _ _ 0
  cases hgl : (sortByLe nodeLe (blockNodes names 0)).getLast? with
  | none =>
    simp only [hgl]
    rw [assembleNodes_nofree]
    rw [List.map_congr_left hfin]
    simp
  | some lastN =>
    simp only [hgl]
    rw [assembleNodes_nofree]
    rw [List.map_congr_left hfin]
    simp [List.filter]

theorem propLe_total (a b : PropRec) : propLe a b = true ∨ propLe b a = true := by
  unfold propLe
  rcases cmpStr_le_total a.sortKey b.sortKey with h | h
  · left; simpa using h
  · right; simpa using h

theorem propLe_trans (a b c : PropRec) (h1 : propLe a b = true)
    (h2 : propLe b c = true) : propLe a c = true := by
  unfold propLe at h1 h2 ⊢
  simp only [decide_eq_true_eq] at h1 h2 ⊢
  exact cmpStr_le_trans _ _ _ h1 h2

theorem pairLe_total (a b : Str × List Str) : pairLe a b = true ∨ pairLe b a = true := by
  unfold pairLe
  rcases cmpStr_le_total a.1 b.1 with h | h
  · left; simpa using h
  · right; simpa using h

theorem pairLe_trans (a b c : Str × List Str) (h1 : pairLe a b = true)
    (h2 : pairLe b c = true) : pairLe a c = true := by
  unfold pairLe at h1 h2 ⊢
  simp only [decide_eq_true_eq] at h1 h2 ⊢
  exact cmpStr_le_trans _ _ _ h1 h2

theorem sorted_props_eq (props props' : List Str) (hperm : props.Perm props')
    (hnodup : (props.map propSortKey).Nodup) :
    sortByLe propLe (props.map fun p => PropRec.mk p p (propSortKey p)) =
      sortByLe propLe (props'.map fun p => PropRec.mk p p (propSortKey p)) := by
  have hkeys : ((props.map fun p => PropRec.mk p p (propSortKey p)).map
      PropRec.sortKey) = props.map propSortKey := by
    rw [List.map_map]
    rfl
  refine sorted_perm_nodup_eq PropRec.sortKey propLe
    (fun a b => by simp [propLe]) _ _
    ((sortByLe_perm _ _).trans ((hperm.map _).trans (sortByLe_perm _ _).symm))
    (sortByLe_sorted _ propLe_total propLe_trans _)
    (sortByLe_sorted _ propLe_total propLe_trans _) ?_
  have h0 : ((props.map fun p => PropRec.mk p p (propSortKey p)).map
      PropRec.sortKey).Perm (props.map propSortKey) := by
    rw [hkeys]
  have hp : ((sortByLe propLe (props.map fun p =>
      PropRec.mk p p (propSortKey p))).map PropRec.sortKey).Perm
      (props.map propSortKey) :=
    ((sortByLe_perm _ _).map _).trans h0
  exact hp.nodup_iff.mpr hnodup

theorem sorted_blocks_eq (names names' : List Str) (hperm : names.Perm names')
    (hnodup : names.Nodup) :
    (sortByLe nodeLe (blockNodes names 0)).map (·.lines) =
      (sortByLe nodeLe (blockNodes names' 0)).map (·.lines) := by
  have hpi : ∀ (ns : List Str),
      (sortByLe nodeLe (blockNodes ns 0)).map nodePi =
        sortByLe pairLe (ns.map fun n => (n, nameBlock n)) := by
    intro ns
    rw [sortByLe_map nodePi nodeLe pairLe (fun a b => rfl)]
    rw [blockNodes_map_pi]
  have hkeys : ((names.map fun n => (n, nameBlock n)).map Prod.fst) = names := by
    rw [List.map_map]
    exact List.map_id names
  have hsorteq : sortByLe pairLe (names.map fun n => (n, nameBlock n)) =
      sortByLe pairLe (names'.map fun n => (n, nameBlock n)) := by
    refine sorted_perm_nodup_eq Prod.fst pairLe
      (fun a b => by simp [pairLe]) _ _
      ((sortByLe_perm _ _).trans ((hperm.map _).trans (sortByLe_perm _ _).symm))
      (sortByLe_sorted _ pairLe_total pairLe_trans _)
      (sortByLe_sorted _ pairLe_total pairLe_trans _) ?_
    have h0 : ((names.map fun n => (n, nameBlock n)).map Prod.fst).Perm names := by
      rw [hkeys]
    have hp : ((sortByLe pairLe (names.map fun n => (n, nameBlock n))).map
        Prod.fst).Perm names :=
      ((sortByLe_perm _ _).map _).trans h0
    exact hp.nodup_iff.mpr hnodup
  have h1 := hpi names
  have h2 := hpi names'
  rw [hsorteq] at h1
  have hmaps := h1.trans h2.symm
  have hfst : ∀ (s : List TopNode),
      s.map (·.lines) = (s.map nodePi).map Prod.snd := by
    intro s
    rw [List.map_map]
    exact List.map_congr_left fun _ _ => rfl
  rw [hfst, hfst, hmaps]

theorem wfSortProp_of (p : Str) (h1 : p ≠ [])
    (h2 : (p.head?.any fun c => !isJsWs c) = true)
    (h3 : p.getLast? = some ';')
    (h4 : ∀ c ∈ p, c ≠ '\x7b' ∧ c ≠ '\x7d' ∧ c ≠ '\n' ∧ c ≠ '\r' ∧ c ≠ '/'
      ∧ c ≠ '*') : WfSortProp p := by
  refine ⟨h1, ?_, h3, h4⟩
  intro c hc
  rw [hc] at h2
  simpa using h2

/-! ### The finalizeNode guard and the extraction loop's progress -/

/-- The worker `finalizeNodeAux` returns its input unchanged whenever the guard
`nodeLines.length < 2 || depth > 5` holds (any non-zero fuel). -/
theorem finalizeNodeAux_guard (o : FilterOptions) (fuel : Nat) (l : List Str)
    (d : Nat) (h : l.length < 2 ∨ 5 < d) : finalizeNodeAux o (fuel + 1) l d = l := by
  rw [finalizeNodeAux]
  rw [if_pos]
  rcases h with h | h <;> simp [h]

/-- C5 (amended): `finalizeNode` returns the node's lines unchanged when the
node has fewer than 2 lines in total (the guard counts the whole `nodeLines`
array, including the declaration and closing lines, not the inner lines the
claim describes) or when `depth` exceeds the recursion ceiling of 5.  In
particular a node with exactly one inner property line (three lines in total)
is NOT returned verbatim — see the counterexample theorem. -/
theorem c5_amended_guard (l : List Str) (o : FilterOptions) (d : Nat)
    (h : l.length < 2 ∨ 5 < d) : finalizeNode l o d = l := by
  unfold finalizeNode
  rw [show (7 : Nat) = 6 + 1 from rfl]
  exact finalizeNodeAux_guard o 6 l d h

/-- Witness for C5 (amended): a one-line node at depth 0 and a four-line node
at depth 6 are both returned verbatim. -/
theorem c5_amended_witness :
    finalizeNode ["x = <1>;".toList] optsSemSort 0 = ["x = <1>;".toList] ∧
    finalizeNode ["n \x7b".toList, "a;".toList, "b;".toList, "\x7d;".toList]
        optsSemSort 6
      = ["n \x7b".toList, "a;".toList, "b;".toList, "\x7d;".toList] :=
  ⟨c5_amended_guard _ optsSemSort 0 (Or.inl (by decide)),
   c5_amended_guard _ optsSemSort 6 (Or.inr (by decide))⟩

/-- C9: termination.  The brace-counting extraction loop always stops, having
consumed at least one line and partitioned its input exactly (so the driving
loops make strict progress and their fuel, one more than the number of lines,
never runs out, whatever the brace balance); and the recursion of
`finalizeNode` is cut off by the depth ceiling: beyond depth 5 it is the
identity.  The embedding itself is built from total functions, so the entry
point returns a string on every input text and options record. -/
theorem c9_termination :
    (∀ (count : Int) (lines : List Str), lines ≠ [] →
      (extractNode count lines).1 ++ (extractNode count lines).2 = lines ∧
      (extractNode count lines).1 ≠ [] ∧
      (extractNode count lines).2.length < lines.length) ∧
    (∀ (l : List Str) (o : FilterOptions) (d : Nat), 5 < d →
      finalizeNode l o d = l) := by
  constructor
  · intro count lines
    induction lines generalizing count with
    | nil => intro h; exact absurd rfl h
    | cons l rest ih =>
      intro _
      rw [extractNode]
      split
      · rename_i hcond
        have hr : rest ≠ [] := by
          have h2 := ((Bool.and_eq_true _ _).mp hcond).2
          simpa using h2
        obtain ⟨hpart, hnn, hlen⟩ := ih (count + braceDelta l) hr
        rcases hE : extractNode (count + braceDelta l) rest with ⟨nl, rem⟩
        rw [hE] at hpart hnn hlen
        dsimp only at hpart hnn hlen
        simp only [hE]
        refine ⟨by simpa using hpart, by simp, ?_⟩
        simp only [List.length_cons]
        omega
      · exact ⟨rfl, by simp, by simp⟩
  · intro l o d hd
    unfold finalizeNode
    rw [show (7 : Nat) = 6 + 1 from rfl]
    exact finalizeNodeAux_guard o 6 l d (Or.inr hd)

/-- Witness for C9 at concrete inputs: an unbalanced two-line extraction and a
node beyond the depth ceiling. -/
theorem c9_witness :
    ((extractNode 0 ["a \x7b".toList, "b \x7b".toList]).1 ++
        (extractNode 0 ["a \x7b".toList, "b \x7b".toList]).2
      = ["a \x7b".toList, "b \x7b".toList] ∧
     (extractNode 0 ["a \x7b".toList, "b \x7b".toList]).1 ≠ [] ∧
     (extractNode 0 ["a \x7b".toList, "b \x7b".toList]).2.length < 2) ∧
    finalizeNode ["n \x7b".toList, "a;".toList, "b;".toList, "\x7d;".toList]
        optsSemSort 7
      = ["n \x7b".toList, "a;".toList, "b;".toList, "\x7d;".toList] :=
  ⟨c9_termination.1 0 ["a \x7b".toList, "b \x7b".toList] (by decide),
   c9_termination.2 _ optsSemSort 7 (by decide)⟩

/-! ### C4 and C10 — the sort-key derivation, assembled -/

/-- C4 (amended): the sort-key derivation.  The label before `:` is
preferred; without a label the key is the full leading `[a-zA-Z0-9_@]` token
— for a unit-addressed node this is `base@address`, including the `@` and the
address, not the bare identifier the claim describes; when neither pattern
yields text (e.g. a `&`-reference opener) the key is the sentinel
`zzz_unknown`; and the child-node derivation is the same function as the
top-level one. -/
theorem c4_amended_sortkey_derivation :
    (∀ (label rest : Str), label ≠ [] → (∀ c ∈ label, isAlnumU c = true) →
      topNodeSortKey (label ++ ':' :: rest) = label) ∧
    (∀ (base rest : Str), base ≠ [] → (∀ c ∈ base, isAlnumU c = true) →
      topNodeSortKey (base ++ ' ' :: '\x7b' :: rest) = base) ∧
    (∀ (base addr rest : Str), base ≠ [] → addr ≠ [] →
      (∀ c ∈ base, isAlnumU c = true) → (∀ c ∈ addr, isHexDigit c = true) →
      topNodeSortKey (base ++ '@' :: (addr ++ ' ' :: '\x7b' :: rest))
        = base ++ '@' :: addr) ∧
    (∀ rest : Str, topNodeSortKey ('&' :: rest) = sentinelKey) ∧
    (∀ l : Str, childNodeSortKey l = topNodeSortKey l) :=
  ⟨fun label rest h1 h2 => topNodeSortKey_label label h1 h2 rest,
   fun base rest h1 h2 => topNodeSortKey_name base h1 h2 rest,
   fun base addr rest h1 h2 h3 h4 => topNodeSortKey_addr base addr h1 h2 h3 h4 rest,
   topNodeSortKey_amp,
   childNodeSortKey_eq_top⟩

/-- Witness for C4 (amended) at concrete declaration lines. -/
theorem c4_amended_witness :
    topNodeSortKey ("cpus".toList ++ ':' :: " x \x7b".toList) = "cpus".toList ∧
    topNodeSortKey ("uart0".toList ++ ' ' :: '\x7b' :: []) = "uart0".toList ∧
    topNodeSortKey ("memory".toList ++ '@' ::
        ("2f000000".toList ++ ' ' :: '\x7b' :: []))
      = "memory".toList ++ '@' :: "2f000000".toList ∧
    topNodeSortKey ('&' :: "gpio \x7b".toList) = sentinelKey ∧
    childNodeSortKey "memory@2f000000 \x7b".toList
      = topNodeSortKey "memory@2f000000 \x7b".toList :=
  ⟨c4_amended_sortkey_derivation.1 "cpus".toList " x \x7b".toList (by decide)
     (by decide),
   c4_amended_sortkey_derivation.2.1 "uart0".toList [] (by decide) (by decide),
   c4_amended_sortkey_derivation.2.2.1 "memory".toList "2f000000".toList []
     (by decide) (by decide) (by decide) (by decide),
   c4_amended_sortkey_derivation.2.2.2.1 "gpio \x7b".toList,
   c4_amended_sortkey_derivation.2.2.2.2 "memory@2f000000 \x7b".toList⟩

/-- C10 (amended): a label-less hyphenated declaration is recognized as a
node opener (the opener class accepts `-`) yet receives the sentinel sort key
`zzz_unknown` (the extraction class rejects `-` and the lookahead fails at
the hyphen).  Under the stable sort such a node is placed after a sibling
whose extracted key compares below the sentinel, but BEFORE a sibling whose
key compares above it (e.g. `zzzz`), so "sorts last among siblings" does not
hold in general. -/
theorem c10_amended_hyphen_sentinel :
    (∀ (p q rest : Str), p ≠ [] →
      (∀ c ∈ p, isAlnumU c = true) → (∀ c ∈ q, isAlnumU c = true) →
      isNodeOpener (p ++ '-' :: (q ++ ' ' :: '\x7b' :: rest)) = true ∧
      topNodeSortKey (p ++ '-' :: (q ++ ' ' :: '\x7b' :: rest)) = sentinelKey) ∧
    (∀ a b : TopNode, a.sortKey = sentinelKey →
      cmpStr b.sortKey sentinelKey = .lt → sortByLe nodeLe [a, b] = [b, a]) ∧
    (∀ a b : TopNode, a.sortKey = sentinelKey →
      cmpStr b.sortKey sentinelKey = .gt → sortByLe nodeLe [a, b] = [a, b]) := by
  refine ⟨fun p q rest hp hpa hqa =>
    ⟨isNodeOpener_hyphen p q hp hpa hqa rest,
     topNodeSortKey_hyphen p q hp hpa hqa rest⟩, ?_, ?_⟩
  · intro a b ha hb
    have hgt : cmpStr a.sortKey b.sortKey = .gt := by
      rw [ha]
      exact (cmpStr_gt_iff_lt _ _).mpr hb
    simp [sortByLe, insertLe, nodeLe, hgt]
  · intro a b ha hb
    have hlt : cmpStr a.sortKey b.sortKey = .lt := by
      rw [ha]
      exact (cmpStr_gt_iff_lt _ _).mp hb
    simp [sortByLe, insertLe, nodeLe, hlt]

/-- Witness for C10 (amended): the hyphenated opener `zz-a \x7b`, and two
two-node sorts around the sentinel. -/
theorem c10_amended_witness :
    (isNodeOpener ("zz".toList ++ '-' :: ("a".toList ++ ' ' :: '\x7b' :: []))
        = true ∧
     topNodeSortKey ("zz".toList ++ '-' :: ("a".toList ++ ' ' :: '\x7b' :: []))
        = sentinelKey) ∧
    sortByLe nodeLe [⟨[], sentinelKey, 0⟩, ⟨[], "abc".toList, 1⟩]
      = [⟨[], "abc".toList, 1⟩, ⟨[], sentinelKey, 0⟩] ∧
    sortByLe nodeLe [⟨[], sentinelKey, 0⟩, ⟨[], "zzzz".toList, 1⟩]
      = [⟨[], sentinelKey, 0⟩, ⟨[], "zzzz".toList, 1⟩] :=
  ⟨c10_amended_hyphen_sentinel.1 "zz".toList "a".toList [] (by decide)
     (by decide) (by decide),
   c10_amended_hyphen_sentinel.2.1 ⟨[], sentinelKey, 0⟩ ⟨[], "abc".toList, 1⟩
     rfl (by decide),
   c10_amended_hyphen_sentinel.2.2 ⟨[], sentinelKey, 0⟩ ⟨[], "zzzz".toList, 1⟩
     rfl (by decide)⟩

/-! ### C7 — strings survive comment stripping when preservation is on -/

/-- C7 (amended): for every options record with `stripLineComments` AND
`preserveStringLiterals` true, the `//` inside the double-quoted URL is never
interpreted as a line comment and the line survives comment stripping
unchanged.  (With `preserveStringLiterals` false the string is truncated —
see the counterexample theorem — so the claim's "every options record with
stripLineComments set to true" needs the preservation flag added.) -/
theorem c7_amended_strings_preserved (o : FilterOptions)
    (h1 : o.stripLineComments = true) (h2 : o.preserveStringLiterals = true) :
    basicCommentRemoval ("x = \"http://example.com\";".toList) o
      = "x = \"http://example.com\";".toList := by
  obtain ⟨f1, f2, f3, f4, f5, f6, f7, f8⟩ := o
  revert h1 h2
  revert f1 f2 f3 f4 f5 f6 f7 f8
  decide

/-! ### C6 — string-array normalization -/

/-- A quoted string-array element, quotes included. -/
def saUnit (b : Str) : Str := '"' :: (b ++ ['"'])

/-- Rendering of the trailing `(?:\s*,\s*"[^"]*")*` repetitions of a string
array, threaded with an explicit suffix: each item carries the whitespace
before its comma, the whitespace after it, and its quoted body. -/
def renderTail : List (Str × Str × Str) → Str → Str
  | [], suffix => suffix
  | (w1, w2, b) :: rest, suffix =>
    w1 ++ ',' :: (w2 ++ ('"' :: (b ++ '"' :: renderTail rest suffix)))

/-- The unit parser `parseQuoted` succeeds on a quote-free body wrapped in quotes, consuming
exactly the unit. -/
theorem parseQuoted_unit (b t : Str) (hb : ∀ c ∈ b, ¬ c = '"') :
    parseQuoted ('"' :: (b ++ '"' :: t)) = some (saUnit b, t) := by
  have hdrop : (b ++ '"' :: t).dropWhile (· ≠ '"') = '"' :: t :=
    dropWhile_append_stop _ b ('"' :: t) (fun c hc => by simpa using hb c hc)
      (fun c hc => by simp at hc; subst hc; simp)
  have htake : (b ++ '"' :: t).takeWhile (· ≠ '"') = b :=
    takeWhile_append_stop _ b ('"' :: t) (fun c hc => by simpa using hb c hc)
      (fun c hc => by simp at hc; subst hc; simp)
  unfold parseQuoted
  simp only [List.head?_cons, List.tail_cons, hdrop, htake]
  simp [saUnit]

/-- Each rendered repetition is at least one character long. -/
theorem renderTail_length (items : List (Str × Str × Str)) (s : Str) :
    items.length ≤ (renderTail items s).length := by
  induction items with
  | nil => simp [renderTail]
  | cons x rest ih =>
    obtain ⟨w1, w2, b⟩ := x
    simp only [renderTail, List.length_append, List.length_cons]
    omega

/-- The greedy repetition parser consumes exactly the rendered repetitions,
appending one quoted unit per item to the accumulator, and stops at the
closing `;` with the final whitespace un-consumed. -/
theorem saReps_render (wf : Str) (hwf : ∀ c ∈ wf, isJsWs c = true) :
    ∀ items : List (Str × Str × Str),
      (∀ x ∈ items, (∀ c ∈ x.1, isJsWs c = true) ∧
        (∀ c ∈ x.2.1, isJsWs c = true) ∧ (∀ c ∈ x.2.2, ¬ c = '"')) →
      ∀ fuel acc, items.length < fuel →
        saReps fuel (renderTail items (wf ++ [';'])) acc =
          (acc ++ items.map fun x => saUnit x.2.2, wf ++ [';']) := by
  intro items
  induction items with
  | nil =>
    intro _ fuel acc hf
    cases fuel with
    | zero => omega
    | succ f =>
      rw [renderTail]
      have hdw : (wf ++ [';']).dropWhile isJsWs = [';'] := by
        rw [dropWhile_append_all _ _ _ hwf]
        exact List.dropWhile_cons_of_neg (by decide)
      rw [saReps, hdw]
      rw [if_neg (by simp)]
      simp
  | cons x rest ih =>
    obtain ⟨w1, w2, b⟩ := x
    intro hitems fuel acc hf
    obtain ⟨hw1, hw2, hbq⟩ := hitems _ (List.mem_cons_self _ _)
    have hrest := fun y hy => hitems y (List.mem_cons_of_mem _ hy)
    cases fuel with
    | zero => omega
    | succ f =>
      rw [renderTail, saReps]
      have hdw1 : (w1 ++ ',' ::
            (w2 ++ ('"' :: (b ++ '"' :: renderTail rest (wf ++ [';']))))).dropWhile
              isJsWs
          = ',' :: (w2 ++ ('"' :: (b ++ '"' :: renderTail rest (wf ++ [';'])))) := by
        rw [dropWhile_append_all _ _ _ hw1]
        exact List.dropWhile_cons_of_neg (by decide)
      rw [hdw1]
      simp only [List.head?_cons, List.tail_cons]
      rw [if_pos trivial]
      have hdw2 : (w2 ++ ('"' :: (b ++ '"' :: renderTail rest (wf ++ [';'])))).dropWhile
            isJsWs
          = '"' :: (b ++ '"' :: renderTail rest (wf ++ [';'])) := by
        rw [dropWhile_append_all _ _ _ hw2]
        exact List.dropWhile_cons_of_neg (by decide)
      rw [hdw2, parseQuoted_unit _ _ hbq]
      show saReps f (renderTail rest (wf ++ [';'])) (acc ++ [saUnit b]) = _
      rw [ih hrest f (acc ++ [saUnit b]) (by simp at hf; omega)]
      simp

/-- The full string-array regex matches a rendered right-hand side exactly:
the captured elements are the quoted units in order, and the whole input is
consumed. -/
theorem saMatch_render (w0 b0 wf : Str) (hw0 : ∀ c ∈ w0, isJsWs c = true)
    (hb0 : ∀ c ∈ b0, ¬ c = '"') (hwf : ∀ c ∈ wf, isJsWs c = true)
    (items : List (Str × Str × Str))
    (hitems : ∀ x ∈ items, (∀ c ∈ x.1, isJsWs c = true) ∧
      (∀ c ∈ x.2.1, isJsWs c = true) ∧ (∀ c ∈ x.2.2, ¬ c = '"')) :
    saMatch (w0 ++ ('"' :: (b0 ++ '"' :: renderTail items (wf ++ [';'])))) =
      some (saUnit b0 :: items.map (fun x => saUnit x.2.2), []) := by
  unfold saMatch
  have hdw : (w0 ++ ('"' :: (b0 ++ '"' ::
        renderTail items (wf ++ [';'])))).dropWhile isJsWs
      = '"' :: (b0 ++ '"' :: renderTail items (wf ++ [';'])) := by
    rw [dropWhile_append_all _ _ _ hw0]
    exact List.dropWhile_cons_of_neg (by decide)
  rw [hdw, parseQuoted_unit _ _ hb0]
  have hbind : ∀ (x : Str × Str) (g : Str × Str → Option (List Str × Str)),
      (some x).bind g = g x := fun _ _ => rfl
  rw [hbind]
  show (if ((saReps ((renderTail items (wf ++ [';'])).length + 1)
          (renderTail items (wf ++ [';'])) [saUnit b0]).2.dropWhile
            isJsWs).head? = some ';'
      then
        some ((saReps ((renderTail items (wf ++ [';'])).length + 1)
            (renderTail items (wf ++ [';'])) [saUnit b0]).1,
          ((saReps ((renderTail items (wf ++ [';'])).length + 1)
              (renderTail items (wf ++ [';'])) [saUnit b0]).2.dropWhile
                isJsWs).tail)
      else none) = _
  rw [saReps_render wf hwf items hitems _ _
    (Nat.lt_succ_of_le (renderTail_length items _))]
  have hdwf : (wf ++ [';']).dropWhile isJsWs = [';'] := by
    rw [dropWhile_append_all _ _ _ hwf]
    exact List.dropWhile_cons_of_neg (by decide)
  dsimp only
  rw [hdwf]
  simp

/-- The string-array pass maps empty input to empty output. -/
theorem saLoop_nil (fuel : Nat) : saLoop fuel [] = [] := by
  cases fuel with
  | zero => rfl
  | succ f => rfl

/-- The string-array pass copies an `=`-free prefix verbatim and, at the
first `=`, rewrites a full match of the string-array regex as
` = e1, e2, ...;`. -/
theorem saLoop_render (R : Str) (elems : List Str)
    (hR : saMatch R = some (elems, []))
    (name : Str) (hname : ∀ c ∈ name, ¬ c = '=') :
    ∀ fuel, name.length < fuel →
      saLoop fuel (name ++ '=' :: R) =
        name ++ ' ' :: '=' :: ' ' :: (joinSep [',', ' '] elems ++ [';']) := by
  induction name with
  | nil =>
    intro fuel hf
    cases fuel with
    | zero => omega
    | succ f =>
      show saLoop (f + 1) ('=' :: R) = _
      rw [saLoop, if_pos rfl, hR]
      have he : ∀ (x : List Str × Str) (n : Str) (g : List Str × Str → Str),
          (some x).elim n g = g x := fun _ _ _ => rfl
      rw [he]
      show ' ' :: '=' :: ' ' :: (joinSep [',', ' '] elems ++ ';' :: saLoop f []) = _
      rw [saLoop_nil]
      simp
  | cons c cs ih =>
    intro fuel hf
    cases fuel with
    | zero => omega
    | succ f =>
      have hc : ¬ c = '=' := hname c (by simp)
      show saLoop (f + 1) (c :: (cs ++ '=' :: R)) = _
      rw [saLoop, if_neg hc]
      rw [ih (fun d hd => hname d (by simp [hd])) f (by simp at hf; omega)]
      simp

/-- The angle-bracket pass maps empty input to empty output. -/
theorem angleLoop_nil (fuel : Nat) : angleLoop fuel [] = [] := by
  cases fuel with
  | zero => rfl
  | succ f => rfl

/-- The angle-bracket pass copies a `<`-free input verbatim. -/
theorem angleLoop_copy (s : Str) (hs : '<' ∉ s) :
    ∀ fuel, s.length ≤ fuel → angleLoop fuel s = s := by
  induction s with
  | nil => intro fuel _; exact angleLoop_nil fuel
  | cons c cs ih =>
    intro fuel hf
    cases fuel with
    | zero => simp at hf
    | succ f =>
      have hc : ¬ c = '<' := fun h => hs (by simp [h])
      rw [angleLoop, if_neg hc,
        ih (fun hm => hs (List.mem_cons_of_mem c hm)) f (by simp at hf; omega)]

/-- Decomposition of membership in a rendered repetition tail. -/
theorem mem_renderTail {c : Char} :
    ∀ {items : List (Str × Str × Str)} {suffix : Str},
      c ∈ renderTail items suffix →
      c ∈ suffix ∨ c = ',' ∨ c = '"' ∨
        ∃ x ∈ items, c ∈ x.1 ∨ c ∈ x.2.1 ∨ c ∈ x.2.2 := by
  intro items
  induction items with
  | nil => intro suffix h; exact Or.inl h
  | cons x rest ih =>
    obtain ⟨w1, w2, b⟩ := x
    intro suffix h
    rw [renderTail] at h
    rcases List.mem_append.mp h with h | h
    · exact Or.inr (Or.inr (Or.inr ⟨_, List.mem_cons_self _ _, Or.inl h⟩))
    rcases List.mem_cons.mp h with rfl | h
    · exact Or.inr (Or.inl rfl)
    rcases List.mem_append.mp h with h | h
    · exact Or.inr (Or.inr (Or.inr ⟨_, List.mem_cons_self _ _, Or.inr (Or.inl h)⟩))
    rcases List.mem_cons.mp h with rfl | h
    · exact Or.inr (Or.inr (Or.inl rfl))
    rcases List.mem_append.mp h with h | h
    · exact Or.inr (Or.inr (Or.inr ⟨_, List.mem_cons_self _ _, Or.inr (Or.inr h)⟩))
    rcases List.mem_cons.mp h with rfl | h
    · exact Or.inr (Or.inr (Or.inl rfl))
    rcases ih h with h | h | h | ⟨y, hy, hyy⟩
    · exact Or.inl h
    · exact Or.inr (Or.inl h)
    · exact Or.inr (Or.inr (Or.inl h))
    · exact Or.inr (Or.inr (Or.inr ⟨y, List.mem_cons_of_mem _ hy, hyy⟩))

/-- C6: on a property line whose right-hand side is one or more double-quoted
strings terminated by `;` (rendered with arbitrary whitespace around the
separating commas), array normalization keeps every quoted unit intact —
commas inside a quoted body are never split points, since only the
inter-unit commas are consumed — trims the whitespace around the elements,
and rejoins them after ` = ` separated by `, `; a single element is simply
re-wrapped.  The bodies may contain commas (e.g. `"nordic,nrf-gpio"`) and
must merely be free of `"` and of `<` (a `<` would engage the prior
angle-bracket pass). -/
theorem c6_string_array_normalization :
    ∀ (name w0 b0 wf : Str) (items : List (Str × Str × Str)),
      (∀ c ∈ name, ¬ c = '=' ∧ ¬ c = '<') →
      (∀ c ∈ w0, isJsWs c = true) → (∀ c ∈ wf, isJsWs c = true) →
      (∀ c ∈ b0, ¬ c = '"' ∧ ¬ c = '<') →
      (∀ x ∈ items, (∀ c ∈ x.1, isJsWs c = true) ∧
        (∀ c ∈ x.2.1, isJsWs c = true) ∧ (∀ c ∈ x.2.2, ¬ c = '"' ∧ ¬ c = '<')) →
      normalizeArrays (name ++ '=' ::
          (w0 ++ ('"' :: (b0 ++ '"' :: renderTail items (wf ++ [';'])))))
        = name ++ ' ' :: '=' :: ' ' ::
            (joinSep [',', ' '] (saUnit b0 :: items.map fun x => saUnit x.2.2)
              ++ [';']) := by
  intro name w0 b0 wf items hname hw0 hwf hb0 hitems
  have hlt : '<' ∉ name ++ '=' ::
      (w0 ++ ('"' :: (b0 ++ '"' :: renderTail items (wf ++ [';'])))) := by
    intro hmem
    rcases List.mem_append.mp hmem with h | h
    · exact (hname '<' h).2 rfl
    rcases List.mem_cons.mp h with h | h
    · exact absurd h (by decide)
    rcases List.mem_append.mp h with h | h
    · exact absurd (hw0 '<' h) (by decide)
    rcases List.mem_cons.mp h with h | h
    · exact absurd h (by decide)
    rcases List.mem_append.mp h with h | h
    · exact (hb0 '<' h).2 rfl
    rcases List.mem_cons.mp h with h | h
    · exact absurd h (by decide)
    rcases mem_renderTail h with h | h | h | ⟨x, hx, hxx⟩
    · rcases List.mem_append.mp h with h | h
      · exact absurd (hwf '<' h) (by decide)
      · exact absurd h (by decide)
    · exact absurd h (by decide)
    · exact absurd h (by decide)
    · rcases hxx with h | h | h
      · exact absurd ((hitems x hx).1 '<' h) (by decide)
      · exact absurd ((hitems x hx).2.1 '<' h) (by decide)
      · exact ((hitems x hx).2.2 '<' h).2 rfl
  have hsm : saMatch
      (w0 ++ ('"' :: (b0 ++ '"' :: renderTail items (wf ++ [';'])))) =
        some (saUnit b0 :: items.map (fun x => saUnit x.2.2), []) :=
    saMatch_render w0 b0 wf hw0 (fun c hc => (hb0 c hc).1) hwf items
      (fun x hx => ⟨(hitems x hx).1, (hitems x hx).2.1,
        fun c hc => ((hitems x hx).2.2 c hc).1⟩)
  show saLoop _ (angleLoop _ _) = _
  rw [angleLoop_copy _ hlt _ (Nat.le_succ _)]
  exact saLoop_render _ _ hsm name (fun c hc => (hname c hc).1) _
    (by simp; omega)

/-- Witness for C6 at the claim's own example `compatible="nordic,nrf-gpio";`
(one element whose body contains a comma) and at a two-element array with
whitespace around the comma. -/
theorem c6_witness :
    normalizeArrays ("compatible".toList ++ '=' ::
        ([] ++ ('"' :: ("nordic,nrf-gpio".toList ++ '"' ::
          renderTail [] ([] ++ [';'])))))
      = "compatible".toList ++ ' ' :: '=' :: ' ' ::
          (joinSep [',', ' ']
            (saUnit "nordic,nrf-gpio".toList ::
              List.map (fun x => saUnit x.2.2) ([] : List (Str × Str × Str)))
            ++ [';']) ∧
    normalizeArrays ("compatible ".toList ++ '=' ::
        (" ".toList ++ ('"' :: ("a".toList ++ '"' ::
          renderTail [(" ".toList, " ".toList, "b".toList)] ([] ++ [';'])))))
      = "compatible ".toList ++ ' ' :: '=' :: ' ' ::
          (joinSep [',', ' ']
            (saUnit "a".toList ::
              List.map (fun x => saUnit x.2.2)
                [(" ".toList, " ".toList, "b".toList)])
            ++ [';']) :=
  ⟨c6_string_array_normalization "compatible".toList [] "nordic,nrf-gpio".toList
     [] [] (by decide) (by decide) (by decide) (by decide) (by decide),
   c6_string_array_normalization "compatible ".toList " ".toList "a".toList
     [] [(" ".toList, " ".toList, "b".toList)]
     (by decide) (by decide) (by decide) (by decide) (by decide)⟩

/-! ### C8 — the hex-normalization scanner -/

/-- The hex scanner maps empty input to empty output at every fuel. -/
theorem nhvLoop_nil (fuel : Nat) : nhvLoop fuel [] = [] := by
  cases fuel with
  | zero => rfl
  | succ f => rfl

/-- The hex scanner copies a `'0'`-free prefix verbatim, spending one unit of
fuel per character. -/
theorem nhvLoop_copy (s t : Str) (hs : ∀ c ∈ s, c ≠ '0') :
    ∀ fuel, s.length ≤ fuel →
      nhvLoop fuel (s ++ t) = s ++ nhvLoop (fuel - s.length) t := by
  induction s with
  | nil => intro fuel _; simp
  | cons c cs ih =>
    intro fuel hf
    cases fuel with
    | zero => simp at hf
    | succ f =>
      have hc : ¬ c = '0' := hs c (by simp)
      show nhvLoop (f + 1) (c :: (cs ++ t)) = _
      rw [nhvLoop, if_neg (fun hcond => hc hcond.1)]
      rw [ih (fun d hd => hs d (List.mem_cons_of_mem c hd)) f
        (by simpa using Nat.succ_le_succ_iff.mp (by simpa using hf))]
      simp only [List.cons_append, List.length_cons]
      congr 3
      omega

/-- The hex scanner never rewrites an `'x'`-free input: the pattern `0x`
cannot occur, so every character is copied. -/
theorem nhvLoop_no_x (s : Str) (hx : 'x' ∉ s) :
    ∀ fuel, s.length ≤ fuel → nhvLoop fuel s = s := by
  induction s with
  | nil => intro fuel _; exact nhvLoop_nil fuel
  | cons c cs ih =>
    intro fuel hf
    cases fuel with
    | zero => simp at hf
    | succ f =>
      have hfcs : cs.length ≤ f := by simpa using Nat.succ_le_succ_iff.mp (by simpa using hf)
      have hxcs : 'x' ∉ cs := fun hmem => hx (List.mem_cons_of_mem c hmem)
      have hcond : ¬(c = '0' ∧ cs.head? = some 'x' ∧
          cs.tail.takeWhile isHexDigit ≠ []) := by
        rintro ⟨-, hhead, -⟩
        cases cs with
        | nil => simp at hhead
        | cons d ds =>
          simp at hhead
          exact hx (by simp [hhead])
      rw [nhvLoop, if_neg hcond, ih hxcs f hfcs]

/-- At `0x` followed by a maximal non-empty hex-digit run, the scanner emits
`0x`, the lower-cased run left-padded with one `0` when its length is odd,
and resumes after the run. -/
theorem nhvLoop_hex (h t : Str) (hne : h ≠ [])
    (hh : ∀ c ∈ h, isHexDigit c = true)
    (ht : ∀ c, t.head? = some c → isHexDigit c = false) (fuel : Nat) :
    nhvLoop (fuel + 1) ('0' :: 'x' :: (h ++ t)) =
      '0' :: 'x' ::
        ((if (h.map Char.toLower).length % 2 = 1
            then '0' :: h.map Char.toLower else h.map Char.toLower) ++
          nhvLoop fuel t) := by
  have htake : (h ++ t).takeWhile isHexDigit = h :=
    takeWhile_append_stop _ _ _ hh ht
  have hdrop : (h ++ t).dropWhile isHexDigit = t :=
    dropWhile_append_stop _ _ _ hh ht
  have hcond : ('0' : Char) = '0' ∧
      (('x' :: (h ++ t)) : Str).head? = some 'x' ∧
      (('x' :: (h ++ t)) : Str).tail.takeWhile isHexDigit ≠ [] := by
    refine ⟨rfl, rfl, ?_⟩
    show (h ++ t).takeWhile isHexDigit ≠ []
    rw [htake]
    exact hne
  rw [nhvLoop, if_pos hcond]
  simp only [List.tail_cons]
  rw [htake, hdrop]

/-- C8 (amended): every `0x`-plus-hex-digits token has its digits
lower-cased and is left-padded with exactly one `0` when the digit count is
odd — so `0xAB0`, with three digits, becomes `0x0ab0`, not the `0xab0` of the
claim's third example — and a line containing no `x` (in particular any line
whose numeric literals are all decimal) is left untouched. -/
theorem c8_amended_hex_normalization :
    (∀ h : Str, h ≠ [] → (∀ c ∈ h, isHexDigit c = true) →
      normalizeHexValues ("q = 0x".toList ++ h ++ [';']) =
        "q = 0x".toList ++
          (if (h.map Char.toLower).length % 2 = 1
            then '0' :: h.map Char.toLower else h.map Char.toLower) ++ [';']) ∧
    (∀ s : Str, 'x' ∉ s → normalizeHexValues s = s) := by
  constructor
  · intro h hne hh
    show nhvLoop (("q = 0x".toList ++ h ++ [';']).length + 1) _ = _
    have hsplit : "q = 0x".toList ++ h ++ [';'] =
        "q = ".toList ++ ('0' :: 'x' :: (h ++ [';'])) := by
      simp
    rw [hsplit]
    have hlen : ("q = ".toList ++ ('0' :: 'x' :: (h ++ [';']))).length + 1
        = h.length + 8 := by
      simp
    rw [hlen]
    rw [nhvLoop_copy "q = ".toList _ (by decide) _ (by simp)]
    have h2 : h.length + 8 - ("q = ".toList).length = (h.length + 3) + 1 := by
      simp
    rw [h2]
    rw [nhvLoop_hex h [';'] hne hh
      (fun c hc => by simp at hc; subst hc; decide)]
    rw [nhvLoop_no_x [';'] (by decide) _ (by simp)]
    simp
  · intro s hx
    exact nhvLoop_no_x s hx _ (Nat.le_succ _)

/-- Witness for C8 (amended): the odd-length run `AB0` and the decimal line
`t = 123;`. -/
theorem c8_amended_witness :
    normalizeHexValues ("q = 0x".toList ++ "AB0".toList ++ [';']) =
      "q = 0x".toList ++
        (if (("AB0".toList.map Char.toLower).length % 2 = 1)
          then '0' :: "AB0".toList.map Char.toLower
          else "AB0".toList.map Char.toLower) ++ [';'] ∧
    normalizeHexValues ("t = 123;".toList) = "t = 123;".toList :=
  ⟨c8_amended_hex_normalization.1 "AB0".toList (by decide) (by decide),
   c8_amended_hex_normalization.2 "t = 123;".toList (by decide)⟩

/-! ### C3 — two-level block documents -/

/-- An indented two-line child block: declaration and closing line, both
under the four-space property indent. -/
def childBlock (k : Str) : List Str := [propLine (nodeDecl k), propLine closeTop]

/-- The lines of a rendered top-level block: declaration, indented property
lines, indented two-line child blocks, closing line.  A block is described by
its name, its property texts and its child names. -/
def bLines (B : Str × List Str × List Str) : List Str :=
  nodeDecl B.1 ::
    (B.2.1.map propLine ++ ((B.2.2.map childBlock).flatten ++ [closeTop]))

/-- A document that is a sequence of rendered top-level blocks. -/
def bDoc (Bs : List (Str × List Str × List Str)) : Str :=
  joinLines ((Bs.map bLines).flatten)

/-- The nodes the top-level collection produces on a block document. -/
def bNodes : List (Str × List Str × List Str) → Nat → List TopNode
  | [], _ => []
  | B :: Bs, i => ⟨bLines B, B.1, i⟩ :: bNodes Bs (i + (bLines B).length)

/-- Well-formedness of a block description: plain-identifier name,
well-formed property texts, plain-identifier child names. -/
def WfBlock (B : Str × List Str × List Str) : Prop :=
  (B.1 ≠ [] ∧ ∀ c ∈ B.1, isAlnumU c = true) ∧
  (∀ p ∈ B.2.1, WfSortProp p) ∧
  (∀ k ∈ B.2.2, k ≠ [] ∧ ∀ c ∈ k, isAlnumU c = true)

/-- A list of length at most one is already sorted. -/
theorem sortByLe_short (le : α → α → Bool) (l : List α) (h : l.length ≤ 1) :
    sortByLe le l = l := by
  cases l with
  | nil => rfl
  | cons x xs =>
    cases xs with
    | nil => rfl
    | cons y ys => simp at h

theorem braceDelta_propLine (l : Str) : braceDelta (propLine l) = braceDelta l := by
  simp [propLine, braceDelta, List.countP_cons]

theorem braceDelta_wfProp {p : Str} (h : WfSortProp p) : braceDelta p = 0 :=
  braceDelta_zero (fun hb => (h.2.2.2 _ hb).1 rfl) (fun hb => (h.2.2.2 _ hb).2.1 rfl)

/-- The sort-key derivation ignores leading whitespace (the capture groups
open with `^\s*`). -/
theorem topNodeSortKey_ws_lead (w l : Str) (hw : ∀ c ∈ w, isJsWs c = true) :
    topNodeSortKey (w ++ l) = topNodeSortKey l := by
  unfold topNodeSortKey
  rw [dropWhile_append_all _ _ _ hw]

/-- An indented line is never a node opener for the un-trimmed anchored
regexes: the identifier run at position 0 is empty. -/
theorem isNodeOpener_propLine (p : Str) : isNodeOpener (propLine p) = false := by
  have h1 : (propLine p).takeWhile isIdentDash = [] :=
    takeWhile_head_false _ _ (fun c hc => by
      unfold propLine at hc
      simp at hc
      subst hc
      decide)
  unfold isNodeOpener openerPat1 openerPat2
  rw [h1]
  simp

theorem bNodes_length (Bs : List (Str × List Str × List Str)) (i : Nat) :
    (bNodes Bs i).length = Bs.length := by
  induction Bs generalizing i with
  | nil => rfl
  | cons B Bs ih => simp [bNodes, ih]

theorem bNodes_map_lines (Bs : List (Str × List Str × List Str)) (i : Nat) :
    (bNodes Bs i).map (·.lines) = Bs.map bLines := by
  induction Bs generalizing i with
  | nil => rfl
  | cons B Bs ih => simp [bNodes, ih]

theorem mem_bNodes_lines {nd : TopNode} {Bs : List (Str × List Str × List Str)}
    {i : Nat} (h : nd ∈ bNodes Bs i) : ∃ B ∈ Bs, nd.lines = bLines B := by
  induction Bs generalizing i with
  | nil => simp [bNodes] at h
  | cons B Bs ih =>
    rcases List.mem_cons.mp h with rfl | h
    · exact ⟨B, by simp, rfl⟩
    · obtain ⟨C, hC, he⟩ := ih h
      exact ⟨C, by simp [hC], he⟩

/-- Every line of a block document is non-empty, newline-free, has no
trailing whitespace and contains no comment characters. -/
theorem bDoc_lines_wf (Bs : List (Str × List Str × List Str))
    (hwf : ∀ B ∈ Bs, WfBlock B) :
    ∀ l ∈ (Bs.map bLines).flatten,
      l ≠ [] ∧ '\n' ∉ l ∧ (∀ c, l.getLast? = some c → isJsWs c = false) ∧
        ∀ c ∈ l, c ≠ '/' ∧ c ≠ '*' := by
  intro l hl
  obtain ⟨b, hb, hlb⟩ := List.mem_flatten.mp hl
  obtain ⟨B, hB, rfl⟩ := List.mem_map.mp hb
  obtain ⟨⟨hne, hal⟩, hprops, hkids⟩ := hwf B hB
  unfold bLines at hlb
  rcases List.mem_cons.mp hlb with rfl | hlb
  · refine ⟨by simp [nodeDecl, hne], ?_, ?_, ?_⟩
    · intro hm
      unfold nodeDecl at hm
      rcases List.mem_append.mp hm with hm | hm
      · exact absurd (hal _ hm) (by decide)
      · simp at hm
    · intro c hc
      unfold nodeDecl at hc
      rw [List.getLast?_append_of_ne_nil B.1 (by simp)] at hc
      simp at hc
      subst hc
      decide
    · intro c hc
      unfold nodeDecl at hc
      rcases List.mem_append.mp hc with hc | hc
      · exact ⟨alnumU_ne (hal _ hc) _ (by decide), alnumU_ne (hal _ hc) _ (by decide)⟩
      · rcases List.mem_cons.mp hc with rfl | hc
        · exact ⟨by decide, by decide⟩
        · simp at hc
          subst hc
          exact ⟨by decide, by decide⟩
  rcases List.mem_append.mp hlb with hlb | hlb
  · obtain ⟨p, hp, rfl⟩ := List.mem_map.mp hlb
    have hw := hprops p hp
    refine ⟨by simp [propLine], ?_, ?_, ?_⟩
    · intro hm
      rcases mem_propLine hm with h | h
      · exact absurd h (by decide)
      · exact (hw.2.2.2 _ h).2.2.1 rfl
    · intro c hc
      rw [getLast?_propLine hw.1, hw.2.2.1] at hc
      simp at hc
      subst hc
      decide
    · intro c hc
      rcases mem_propLine hc with rfl | h
      · exact ⟨by decide, by decide⟩
      · exact ⟨(hw.2.2.2 _ h).2.2.2.2.1, (hw.2.2.2 _ h).2.2.2.2.2⟩
  rcases List.mem_append.mp hlb with hlb | hlb
  · obtain ⟨cb, hcb, hlcb⟩ := List.mem_flatten.mp hlb
    obtain ⟨k, hk, rfl⟩ := List.mem_map.mp hcb
    obtain ⟨hkne, hka⟩ := hkids k hk
    rcases List.mem_cons.mp hlcb with rfl | hlcb
    · refine ⟨by simp [propLine], ?_, ?_, ?_⟩
      · intro hm
        rcases mem_propLine hm with h | h
        · exact absurd h (by decide)
        · unfold nodeDecl at h
          rcases List.mem_append.mp h with h | h
          · exact absurd (hka _ h) (by decide)
          · simp at h
      · intro c hc
        rw [getLast?_propLine (by simp [nodeDecl])] at hc
        unfold nodeDecl at hc
        rw [List.getLast?_append_of_ne_nil k (by simp)] at hc
        simp at hc
        subst hc
        decide
      · intro c hc
        rcases mem_propLine hc with rfl | h
        · exact ⟨by decide, by decide⟩
        · unfold nodeDecl at h
          rcases List.mem_append.mp h with h | h
          · exact ⟨alnumU_ne (hka _ h) _ (by decide),
              alnumU_ne (hka _ h) _ (by decide)⟩
          · rcases List.mem_cons.mp h with rfl | h
            · exact ⟨by decide, by decide⟩
            · simp at h
              subst h
              exact ⟨by decide, by decide⟩
    · rw [List.mem_singleton.mp hlcb]
      exact ⟨by decide, by decide, by decide, by decide⟩
  · rw [List.mem_singleton.mp hlb]
    exact ⟨by decide, by decide, by decide, by decide⟩

/-- At a closing line with the running count at 1, the extraction loop stops,
consuming exactly that line. -/
theorem extractNode_closeTop (rest : List Str) :
    extractNode 1 (closeTop :: rest) = ([closeTop], rest) := by
  have hd : (1 : Int) + braceDelta closeTop = 0 := by decide
  rw [extractNode]
  rw [if_neg (by simp [hd])]

/-- A balanced open–close pair inside a node is consumed whole, leaving the
running count unchanged. -/
theorem extractNode_open_close (d c : Str) (hd : braceDelta d = 1)
    (hc : braceDelta c = -1) (Q : List Str) (hQ : Q ≠ []) :
    extractNode 1 (d :: c :: Q) =
      (d :: c :: (extractNode 1 Q).1, (extractNode 1 Q).2) := by
  rcases hE : extractNode 1 Q with ⟨A, R⟩
  rw [extractNode]
  rw [if_pos (by simp [hd])]
  rw [hd]
  rw [extractNode]
  rw [if_pos (by simp [hc, hQ])]
  rw [hc]
  rw [show (1 : Int) + 1 + -1 = 1 by norm_num]
  rw [hE]

/-- A run of two-line child blocks followed by the top-level closer is
consumed exactly, the count returning to 1 after every block. -/
theorem extractNode_kidrun (kids : List Str)
    (hk : ∀ k ∈ kids, ∀ c ∈ k, isAlnumU c = true) (rest : List Str) :
    extractNode 1 ((kids.map childBlock).flatten ++ closeTop :: rest)
      = ((kids.map childBlock).flatten ++ [closeTop], rest) := by
  induction kids with
  | nil => simpa using extractNode_closeTop rest
  | cons k ks ih =>
    have hflat : ((k :: ks).map childBlock).flatten =
        propLine (nodeDecl k) :: propLine closeTop ::
          (ks.map childBlock).flatten := by
      simp [childBlock]
    have h1 : braceDelta (propLine (nodeDecl k)) = 1 := by
      rw [braceDelta_propLine]
      exact braceDelta_nodeDecl k (hk k (by simp))
    have h2 : braceDelta (propLine closeTop) = -1 := by decide
    rw [hflat, List.cons_append, List.cons_append]
    rw [extractNode_open_close _ _ h1 h2 _ (by simp)]
    rw [ih (fun m hm => hk m (by simp [hm]))]
    simp

/-- Zero-delta lines at the head of the interior are consumed one by one,
leaving the count at 1. -/
theorem extractNode_zeros_first (P : List Str) (hP : ∀ l ∈ P, braceDelta l = 0)
    (Q : List Str) (hQ : Q ≠ []) :
    extractNode 1 (P ++ Q) = (P ++ (extractNode 1 Q).1, (extractNode 1 Q).2) := by
  induction P with
  | nil => simp
  | cons p ps ih =>
    have hp : braceDelta p = 0 := hP p (by simp)
    rcases hE : extractNode 1 Q with ⟨A, R⟩
    rw [hE] at ih
    show extractNode 1 (p :: (ps ++ Q)) = _
    rw [extractNode]
    rw [if_pos (by simp [hp, hQ])]
    rw [hp]
    rw [show (1 : Int) + 0 = 1 by norm_num]
    rw [ih (fun l hl => hP l (by simp [hl]))]
    simp

/-- The extraction loop consumes exactly one rendered block. -/
theorem extractNode_bLines (B : Str × List Str × List Str) (hwfB : WfBlock B)
    (rest : List Str) :
    extractNode 0 (bLines B ++ rest) = (bLines B, rest) := by
  obtain ⟨⟨hne, hal⟩, hprops, hkids⟩ := hwfB
  have hdecl : braceDelta (nodeDecl B.1) = 1 := braceDelta_nodeDecl B.1 hal
  have hzero : ∀ l ∈ B.2.1.map propLine, braceDelta l = 0 := by
    intro l hl
    obtain ⟨p, hp, rfl⟩ := List.mem_map.mp hl
    rw [braceDelta_propLine]
    exact braceDelta_wfProp (hprops p hp)
  have hrun := extractNode_kidrun B.2.2 (fun k hk => (hkids k hk).2) rest
  show extractNode 0 (nodeDecl B.1 ::
    ((B.2.1.map propLine ++ ((B.2.2.map childBlock).flatten ++ [closeTop]))
      ++ rest)) = _
  have hassoc :
      (B.2.1.map propLine ++ ((B.2.2.map childBlock).flatten ++ [closeTop]))
          ++ rest
        = B.2.1.map propLine ++
            ((B.2.2.map childBlock).flatten ++ closeTop :: rest) := by
    simp
  rw [hassoc]
  rw [extractNode]
  rw [if_pos (by simp [hdecl])]
  rw [hdecl]
  rw [show (0 : Int) + 1 = 1 by norm_num]
  rw [extractNode_zeros_first _ hzero _ (by simp)]
  rw [hrun]
  show (nodeDecl B.1 ::
      (B.2.1.map propLine ++ ((B.2.2.map childBlock).flatten ++ [closeTop])),
    rest) = _
  rfl

/-- The content walk extracts a run of two-line child blocks, collecting no
property lines. -/
theorem classifyContent_kidblocks (kids : List Str)
    (hk : ∀ k ∈ kids, k ≠ [] ∧ ∀ c ∈ k, isAlnumU c = true) :
    ∀ fuel, ((kids.map childBlock).flatten).length < fuel →
      classifyContent fuel ((kids.map childBlock).flatten)
        = (kids.map childBlock, []) := by
  induction kids with
  | nil =>
    intro fuel hf
    cases fuel with
    | zero => simp at hf
    | succ f => rfl
  | cons k ks ih =>
    intro fuel hf
    obtain ⟨hkne, hka⟩ := hk k (by simp)
    have hflat : ((k :: ks).map childBlock).flatten =
        propLine (nodeDecl k) :: propLine closeTop ::
          (ks.map childBlock).flatten := by
      simp [childBlock]
    rw [hflat] at hf ⊢
    cases fuel with
    | zero => simp at hf
    | succ f =>
      have hjt : jsTrim (propLine (nodeDecl k)) = nodeDecl k := by
        show jsTrim ([' ', ' ', ' ', ' '] ++ nodeDecl k) = _
        rw [jsTrim_ws_append _ _ (by decide)]
        exact jsTrim_nodeDecl k hkne hka
      have hne2 : ¬ jsTrim (propLine (nodeDecl k)) = [] := by
        rw [hjt]
        simp [nodeDecl]
      have hop : isNodeOpener (jsTrim (propLine (nodeDecl k))) = true := by
        rw [hjt]
        exact isNodeOpener_nodeDecl k hkne hka
      have hext : extractNode 0 (propLine (nodeDecl k) :: propLine closeTop ::
            (ks.map childBlock).flatten)
          = ([propLine (nodeDecl k), propLine closeTop],
              (ks.map childBlock).flatten) :=
        extractNode_pair _ _ _
          (by rw [braceDelta_propLine]; exact braceDelta_nodeDecl k hka)
          (by decide)
      simp only [classifyContent]
      rw [if_neg hne2, if_pos hop, hext]
      rw [ih (fun m hm => hk m (by simp [hm])) f (by simp at hf ⊢; omega)]
      simp [childBlock]

/-- The content walk on property lines followed by child blocks returns
exactly the child blocks and the property lines. -/
theorem classifyContent_props_then (P : List Str)
    (hP : ∀ l ∈ P, jsTrim l ≠ [] ∧ isNodeOpener (jsTrim l) = false)
    (kids : List Str) (hk : ∀ k ∈ kids, k ≠ [] ∧ ∀ c ∈ k, isAlnumU c = true) :
    ∀ fuel, (P ++ (kids.map childBlock).flatten).length < fuel →
      classifyContent fuel (P ++ (kids.map childBlock).flatten)
        = (kids.map childBlock, P) := by
  induction P with
  | nil =>
    intro fuel hf
    simpa using classifyContent_kidblocks kids hk fuel (by simpa using hf)
  | cons l P' ih =>
    intro fuel hf
    cases fuel with
    | zero => simp at hf
    | succ f =>
      have hl := hP l (by simp)
      show classifyContent (f + 1) (l :: (P' ++ (kids.map childBlock).flatten)) = _
      simp only [classifyContent, hl.1, hl.2, if_neg, if_false]
      rw [ih (fun x hx => hP x (by simp [hx])) f (by simp at hf ⊢; omega)]
      simp

/-- Evaluates `finalizeNode` on a rendered block: properties are rebuilt under the
four-space indent in sorted order, child blocks are kept verbatim in sorted
order, the declaration and closing lines frame the result. -/
theorem finalizeNode_block (o : FilterOptions) (hsort : o.sortProperties = true)
    (hhex : o.normalizeHexValues = false) (harr : o.normalizeArrays = false)
    (B : Str × List Str × List Str) (hwfB : WfBlock B) :
    finalizeNode (bLines B) o 0 =
      nodeDecl B.1 ::
        ((sortByLe propLe (B.2.1.map fun p => PropRec.mk p p (propSortKey p))).map
            (fun r => [' ', ' ', ' ', ' '] ++ jsTrim r.normalized) ++
          ((((sortByLe childLe
                (B.2.2.map fun k => ChildRec.mk (childBlock k) k)).map
              (·.lines)).flatten) ++ [closeTop])) := by
  obtain ⟨⟨hne, hal⟩, hprops, hkids⟩ := hwfB
  have hcl : ∀ l ∈ B.2.1.map propLine,
      jsTrim l ≠ [] ∧ isNodeOpener (jsTrim l) = false := by
    intro l hl
    obtain ⟨p, hp, rfl⟩ := List.mem_map.mp hl
    rw [jsTrim_propLine (hprops p hp)]
    refine ⟨(hprops p hp).1, not_opener_of_no_brace ?_⟩
    intro hb
    exact ((hprops p hp).2.2.2 _ hb).1 rfl
  have hms : ∀ l ∈ B.2.1.map propLine,
      jsTrim l ≠ [] ∧ (jsTrim l).getLast? = some ';' := by
    intro l hl
    obtain ⟨p, hp, rfl⟩ := List.mem_map.mp hl
    rw [jsTrim_propLine (hprops p hp)]
    exact ⟨(hprops p hp).1, (hprops p hp).2.2.1⟩
  have hbp : ∀ p ∈ B.2.1, jsTrim p = p ∧ p ≠ [] ∧ '\x7d' ∉ p := by
    intro p hp
    have hw := hprops p hp
    refine ⟨jsTrim_eq_self p hw.2.1 ?_, hw.1, fun hb => (hw.2.2.2 _ hb).2.1 rfl⟩
    intro c hc
    rw [hw.2.2.1] at hc
    simp at hc
    subst hc
    decide
  have hmap : (B.2.1.map propLine).map jsTrim = B.2.1 := by
    rw [List.map_map]
    calc List.map (jsTrim ∘ propLine) B.2.1
        = List.map id B.2.1 :=
          List.map_congr_left fun p hp => jsTrim_propLine (hprops p hp)
      _ = B.2.1 := List.map_id B.2.1
  have hindent : (nodeDecl B.1).takeWhile isJsWs = [] :=
    takeWhile_head_false _ _ (fun c hc => by
      unfold nodeDecl at hc
      rw [List.head?_append_of_ne_nil B.1 hne] at hc
      exact alnumU_not_ws (hal c (head?_eq_some_mem hc)))
  unfold finalizeNode
  rw [show (7 : Nat) = 6 + 1 from rfl]
  unfold bLines
  rw [finalizeNodeAux]
  rw [if_neg (by simp; omega)]
  have hdrop : ((nodeDecl B.1 :: (B.2.1.map propLine ++
        ((B.2.2.map childBlock).flatten ++ [closeTop]))).drop 1).dropLast
      = B.2.1.map propLine ++ (B.2.2.map childBlock).flatten := by
    show (B.2.1.map propLine ++
      ((B.2.2.map childBlock).flatten ++ [closeTop])).dropLast = _
    rw [show B.2.1.map propLine ++ ((B.2.2.map childBlock).flatten ++ [closeTop])
      = (B.2.1.map propLine ++ (B.2.2.map childBlock).flatten) ++ [closeTop] by
        simp]
    simp
  have hlast : (nodeDecl B.1 :: (B.2.1.map propLine ++
        ((B.2.2.map childBlock).flatten ++ [closeTop]))).getLastD [] = closeTop := by
    rw [show nodeDecl B.1 :: (B.2.1.map propLine ++
        ((B.2.2.map childBlock).flatten ++ [closeTop]))
      = (nodeDecl B.1 :: (B.2.1.map propLine ++
          (B.2.2.map childBlock).flatten)) ++ [closeTop] by simp]
    rw [List.getLastD_eq_getLast?, List.getLast?_concat]
    rfl
  simp only [List.headD_cons, hlast, hdrop]
  rw [classifyContent_props_then _ hcl _ hkids _ (Nat.lt_succ_self _)]
  rw [mergeProps_semis _ hms, hmap]
  rw [buildProps_simple o hhex harr B.2.1 hbp]
  rw [hsort]
  have hch : ((B.2.2.map childBlock).map fun cn =>
      ChildRec.mk (finalizeNodeAux o 6 cn (0 + 1)) (childNodeSortKey (cn.headD [])))
      = B.2.2.map fun k => ChildRec.mk (childBlock k) k := by
    rw [List.map_map]
    refine List.map_congr_left fun k hk => ?_
    obtain ⟨hkne, hka⟩ := hkids k hk
    show ChildRec.mk (finalizeNodeAux o 6 (childBlock k) (0 + 1))
        (childNodeSortKey ((childBlock k).headD [])) = _
    congr 1
    · rw [show (6 : Nat) = 5 + 1 from rfl]
      exact finalizeNodeAux_pair o 5 _ _ (0 + 1)
    · show childNodeSortKey (propLine (nodeDecl k)) = k
      rw [childNodeSortKey_eq_top]
      show topNodeSortKey ([' ', ' ', ' ', ' '] ++ nodeDecl k) = k
      rw [topNodeSortKey_ws_lead _ _ (by decide)]
      exact topNodeSortKey_nodeDecl k hkne hka
  rw [hch]
  have hkli : (if true &&
        (B.2.2.map fun k => ChildRec.mk (childBlock k) k).length > 1 then
      sortByLe childLe (B.2.2.map fun k => ChildRec.mk (childBlock k) k)
    else (B.2.2.map fun k => ChildRec.mk (childBlock k) k))
      = sortByLe childLe (B.2.2.map fun k => ChildRec.mk (childBlock k) k) := by
    by_cases h2 : 1 < B.2.2.length
    · rw [if_pos (by simp [h2])]
    · rw [if_neg (by simp; omega)]
      rw [sortByLe_short _ _ (by simp; omega)]
  rw [hkli]
  rw [hindent]
  simp

/-- The top-level collection on a block document: one node per rendered
block, no free lines. -/
theorem collectTop_bDoc (Bs : List (Str × List Str × List Str))
    (hwf : ∀ B ∈ Bs, WfBlock B) :
    ∀ fuel i, ((Bs.map bLines).flatten).length < fuel →
      collectTopAux fuel i ((Bs.map bLines).flatten) = (bNodes Bs i, []) := by
  induction Bs with
  | nil =>
    intro fuel i _
    show collectTopAux fuel i [] = ([], [])
    exact collectTopAux_nil fuel i
  | cons B Bs ih =>
    intro fuel i hf
    obtain ⟨⟨hne, hal⟩, hprops, hkids⟩ := hwf B (by simp)
    have hflat : ((B :: Bs).map bLines).flatten =
        nodeDecl B.1 :: ((B.2.1.map propLine ++
          ((B.2.2.map childBlock).flatten ++ [closeTop])) ++
            (Bs.map bLines).flatten) := by
      simp [bLines]
    rw [hflat] at hf ⊢
    cases fuel with
    | zero => omega
    | succ f =>
      have hopen : isNodeOpener (jsTrim (nodeDecl B.1)) = true := by
        rw [jsTrim_nodeDecl B.1 hne hal]
        exact isNodeOpener_nodeDecl B.1 hne hal
      have hext : extractNode 0 (nodeDecl B.1 :: ((B.2.1.map propLine ++
            ((B.2.2.map childBlock).flatten ++ [closeTop])) ++
              (Bs.map bLines).flatten))
          = (bLines B, (Bs.map bLines).flatten) := by
        have := extractNode_bLines B ⟨⟨hne, hal⟩, hprops, hkids⟩
          ((Bs.map bLines).flatten)
        rwa [show bLines B ++ (Bs.map bLines).flatten
          = nodeDecl B.1 :: ((B.2.1.map propLine ++
            ((B.2.2.map childBlock).flatten ++ [closeTop])) ++
              (Bs.map bLines).flatten) by simp [bLines]] at this
      simp only [collectTopAux, hopen, if_pos, hext]
      rw [ih (fun C hC => hwf C (by simp [hC])) f _ (by simp at hf ⊢; omega)]
      rw [topNodeSortKey_nodeDecl B.1 hne hal]
      simp [bNodes, bLines]

/-- The structural pass on a block document: collect the blocks, sort them by
name, finalize each in place; no free lines exist, so nothing else is
emitted. -/
theorem semantic_bDoc (o : FilterOptions) (hsort : o.sortProperties = true)
    (Bs : List (Str × List Str × List Str)) (hBs : Bs ≠ [])
    (hwf : ∀ B ∈ Bs, WfBlock B) :
    semanticDtsNormalization (bDoc Bs) o =
      joinLines (((sortByLe nodeLe (bNodes Bs 0)).map
        (fun nd => finalizeNode nd.lines o 0)).flatten) := by
  unfold semanticDtsNormalization
  rw [hsort]
  simp only [Bool.not_true, Bool.false_eq_true, if_false, ite_false]
  have hflne : (Bs.map bLines).flatten ≠ [] := by
    cases Bs with
    | nil => exact absurd rfl hBs
    | cons B Bs' => simp [bLines]
  rw [show bDoc Bs = joinLines ((Bs.map bLines).flatten) from rfl]
  rw [splitLines_joinLines _ hflne
    (fun l hl => (bDoc_lines_wf Bs hwf l hl).2.1)]
  rw [collectTop_bDoc Bs hwf _ 0 (Nat.lt_succ_self _)]
  dsimp only
  rw [bNodes_length Bs 0]
  have hsorted : (if (true && decide (Bs.length > 1)) = true then
        sortByLe nodeLe (bNodes Bs 0)
      else bNodes Bs 0) = sortByLe nodeLe (bNodes Bs 0) := by
    by_cases h2 : 1 < Bs.length
    · rw [if_pos (by simp [h2])]
    · rw [if_neg (by simp; omega), sortByLe_short _ _ (by rw [bNodes_length]; omega)]
  rw [hsorted]
  cases hgl : (sortByLe nodeLe (bNodes Bs 0)).getLast? with
  | none =>
    simp only [hgl]
    rw [assembleNodes_nofree]
    simp
  | some lastN =>
    simp only [hgl]
    rw [assembleNodes_nofree]
    simp [List.filter]

/-- Flattening respects pointwise permutation of the mapped lists. -/
theorem flatten_map_perm (l : List α) (f g : α → List β)
    (h : ∀ a ∈ l, (f a).Perm (g a)) :
    ((l.map f).flatten).Perm ((l.map g).flatten) := by
  induction l with
  | nil => exact List.Perm.refl _
  | cons a as ih =>
    simp only [List.map_cons, List.flatten_cons]
    exact (h a (by simp)).append (ih fun b hb => h b (by simp [hb]))

/-- Finalizing a rendered block permutes its lines: the declaration and
closing lines are fixed, the property lines and the child blocks are
reordered but neither duplicated nor lost. -/
theorem procBlock_perm (o : FilterOptions) (hsort : o.sortProperties = true)
    (hhex : o.normalizeHexValues = false) (harr : o.normalizeArrays = false)
    (B : Str × List Str × List Str) (hwfB : WfBlock B) :
    (finalizeNode (bLines B) o 0).Perm (bLines B) := by
  rw [finalizeNode_block o hsort hhex harr B hwfB]
  unfold bLines
  refine List.Perm.cons _
    (List.Perm.append ?_ (List.Perm.append ?_ (List.Perm.refl _)))
  · have h1 : ((sortByLe propLe
        (B.2.1.map fun p => PropRec.mk p p (propSortKey p))).map
          (fun r => [' ', ' ', ' ', ' '] ++ jsTrim r.normalized)).Perm
        ((B.2.1.map fun p => PropRec.mk p p (propSortKey p)).map
          (fun r => [' ', ' ', ' ', ' '] ++ jsTrim r.normalized)) :=
      (sortByLe_perm _ _).map _
    have h2 : (B.2.1.map fun p => PropRec.mk p p (propSortKey p)).map
        (fun r => [' ', ' ', ' ', ' '] ++ jsTrim r.normalized)
        = B.2.1.map propLine := by
      rw [List.map_map]
      refine List.map_congr_left fun p hp => ?_
      have hw := hwfB.2.1 p hp
      have hj : jsTrim p = p :=
        jsTrim_eq_self p hw.2.1 (fun c hc => by
          rw [hw.2.2.1] at hc
          simp at hc
          subst hc
          decide)
      show [' ', ' ', ' ', ' '] ++ jsTrim p = propLine p
      rw [hj]
      rfl
    exact h2 ▸ h1
  · have h1 : ((((sortByLe childLe
        (B.2.2.map fun k => ChildRec.mk (childBlock k) k)).map
          (·.lines)).flatten)).Perm
        (((B.2.2.map fun k => ChildRec.mk (childBlock k) k).map
          (·.lines)).flatten) :=
      ((sortByLe_perm _ _).map _).flatten
    have h2 : (B.2.2.map fun k => ChildRec.mk (childBlock k) k).map (·.lines)
        = B.2.2.map childBlock := by
      rw [List.map_map]
      rfl
    exact h2 ▸ h1

/-- One un-indented opener line per block: the declaration. -/
theorem opener_count_bDoc (Bs : List (Str × List Str × List Str))
    (hwf : ∀ B ∈ Bs, WfBlock B) :
    (((Bs.map bLines).flatten).filter fun l => isNodeOpener l).length
      = Bs.length := by
  induction Bs with
  | nil => rfl
  | cons B Bs ih =>
    obtain ⟨⟨hne, hal⟩, hprops, hkids⟩ := hwf B (by simp)
    have hih := ih (fun C hC => hwf C (by simp [hC]))
    have hflat : ((B :: Bs).map bLines).flatten
        = bLines B ++ (Bs.map bLines).flatten := by
      simp
    rw [hflat, List.filter_append, List.length_append, hih]
    have hp0 : ((B.2.1.map propLine).filter fun l => isNodeOpener l) = [] :=
      List.filter_eq_nil_iff.mpr (fun l hl => by
        obtain ⟨p, _, rfl⟩ := List.mem_map.mp hl
        simp [isNodeOpener_propLine])
    have hk0 : (((B.2.2.map childBlock).flatten).filter
        fun l => isNodeOpener l) = [] :=
      List.filter_eq_nil_iff.mpr (fun l hl => by
        obtain ⟨cb, hcb, hlcb⟩ := List.mem_flatten.mp hl
        obtain ⟨k, _, rfl⟩ := List.mem_map.mp hcb
        rcases List.mem_cons.mp hlcb with rfl | hlcb
        · simp [isNodeOpener_propLine]
        · rw [List.mem_singleton.mp hlcb]
          simp [isNodeOpener_propLine])
    have hblock : ((bLines B).filter fun l => isNodeOpener l).length = 1 := by
      unfold bLines
      rw [List.filter_cons_of_pos (isNodeOpener_nodeDecl B.1 hne hal)]
      rw [List.filter_append, hp0, List.filter_append, hk0]
      rw [show (([closeTop] : List Str).filter fun l => isNodeOpener l) = []
        from by decide]
      simp
    rw [hblock, List.length_cons]
    omega

/-- One un-indented `\x7d;` line per block: the closing line. -/
theorem closer_count_bDoc (Bs : List (Str × List Str × List Str))
    (hwf : ∀ B ∈ Bs, WfBlock B) :
    (((Bs.map bLines).flatten).filter fun l => l = ['\x7d', ';']).length
      = Bs.length := by
  induction Bs with
  | nil => rfl
  | cons B Bs ih =>
    obtain ⟨⟨hne, hal⟩, hprops, hkids⟩ := hwf B (by simp)
    have hih := ih (fun C hC => hwf C (by simp [hC]))
    have hflat : ((B :: Bs).map bLines).flatten
        = bLines B ++ (Bs.map bLines).flatten := by
      simp
    rw [hflat, List.filter_append, List.length_append, hih]
    have hdne : ¬ nodeDecl B.1 = ['\x7d', ';'] := by
      intro h
      have hh := congrArg List.getLast? h
      rw [nodeDecl, List.getLast?_append_of_ne_nil B.1 (by simp)] at hh
      simp at hh
    have hpne : ∀ p : Str, ¬ propLine p = ['\x7d', ';'] := by
      intro p h
      have hh := congrArg List.head? h
      simp [propLine] at hh
    have hp0 : ((B.2.1.map propLine).filter fun l => l = ['\x7d', ';']) = [] :=
      List.filter_eq_nil_iff.mpr (fun l hl => by
        obtain ⟨p, _, rfl⟩ := List.mem_map.mp hl
        simp [hpne p])
    have hk0 : (((B.2.2.map childBlock).flatten).filter
        fun l => l = ['\x7d', ';']) = [] :=
      List.filter_eq_nil_iff.mpr (fun l hl => by
        obtain ⟨cb, hcb, hlcb⟩ := List.mem_flatten.mp hl
        obtain ⟨k, _, rfl⟩ := List.mem_map.mp hcb
        rcases List.mem_cons.mp hlcb with rfl | hlcb
        · simp [hpne]
        · rw [List.mem_singleton.mp hlcb]
          simp [hpne])
    have hblock : ((bLines B).filter fun l => l = ['\x7d', ';']).length = 1 := by
      unfold bLines
      rw [List.filter_cons_of_neg (by simp [hdne])]
      rw [List.filter_append, hp0, List.filter_append, hk0]
      rw [show (([closeTop] : List Str).filter fun l => l = ['\x7d', ';'])
        = [closeTop] from by decide]
      simp
    rw [hblock, List.length_cons]
    omega

/-- C3 (amended): structural fidelity holds for documents made of balanced
top-level blocks (declaration, indented semicolon-terminated properties,
indented two-line child blocks, `\x7d;` closer): the input has one
un-indented opener per block, the output has exactly as many un-indented
`\x7d;` closers as the input has blocks, and for every line text `t` — in
particular every child-node declaration — the number of lines whose trimmed
text is `t` is the same in output and input (no node duplicated, no node
lost).  For unbalanced inputs the property fails — see the counterexample
theorem, whose one-opener input produces zero closers. -/
theorem c3_amended_structural_fidelity :
    ∀ o : FilterOptions, o.normalizeWhitespace = false →
      o.semanticComparison = true → o.sortProperties = true →
      o.normalizeHexValues = false → o.normalizeArrays = false →
    ∀ Bs : List (Str × List Str × List Str), Bs ≠ [] →
      (∀ B ∈ Bs, WfBlock B) →
      topOpenerCount (bDoc Bs) = Bs.length ∧
      topCloserCount (stripCommentsFromContent (bDoc Bs) o) = Bs.length ∧
      ∀ t : Str, declOcc t (stripCommentsFromContent (bDoc Bs) o)
        = declOcc t (bDoc Bs) := by
  intro o hws hsem hsort hhex harr Bs hBs hwf
  have hlwf := bDoc_lines_wf Bs hwf
  have hflne : (Bs.map bLines).flatten ≠ [] := by
    cases Bs with
    | nil => exact absurd rfl hBs
    | cons B Bs' => simp [bLines]
  have hbcr : basicCommentRemoval (bDoc Bs) o = bDoc Bs :=
    basicCommentRemoval_id o ((Bs.map bLines).flatten) hws hflne
      (fun l hl => (hlwf l hl).1) (fun l hl => (hlwf l hl).2.1)
      (fun l hl => (hlwf l hl).2.2.1) (fun l hl => (hlwf l hl).2.2.2)
  have hout : stripCommentsFromContent (bDoc Bs) o =
      joinLines (((sortByLe nodeLe (bNodes Bs 0)).map
        (fun nd => finalizeNode nd.lines o 0)).flatten) := by
    show (if o.semanticComparison then
        semanticDtsNormalization (basicCommentRemoval (bDoc Bs) o) o
      else basicCommentRemoval (bDoc Bs) o) = _
    rw [hsem, if_pos rfl, hbcr]
    exact semantic_bDoc o hsort Bs hBs hwf
  have hperm : (((sortByLe nodeLe (bNodes Bs 0)).map
      (fun nd => finalizeNode nd.lines o 0)).flatten).Perm
      ((Bs.map bLines).flatten) := by
    have h1 := flatten_map_perm (sortByLe nodeLe (bNodes Bs 0))
      (fun nd => finalizeNode nd.lines o 0) (fun nd => nd.lines)
      (fun nd hnd => by
        dsimp only
        obtain ⟨B, hB, he⟩ := mem_bNodes_lines
          ((sortByLe_perm nodeLe (bNodes Bs 0)).subset hnd)
        rw [he]
        exact procBlock_perm o hsort hhex harr B (hwf B hB))
    have h2 : ((((sortByLe nodeLe (bNodes Bs 0)).map (·.lines)).flatten)).Perm
        ((Bs.map bLines).flatten) := by
      have h3 := ((sortByLe_perm nodeLe (bNodes Bs 0)).map (·.lines)).flatten
      rwa [bNodes_map_lines] at h3
    exact h1.trans h2
  have hspl_in : splitLines (bDoc Bs) = (Bs.map bLines).flatten :=
    splitLines_joinLines _ hflne (fun l hl => (hlwf l hl).2.1)
  have houtne : (((sortByLe nodeLe (bNodes Bs 0)).map
      (fun nd => finalizeNode nd.lines o 0)).flatten) ≠ [] := by
    intro h
    refine hflne (List.eq_nil_of_length_eq_zero ?_)
    rw [← hperm.length_eq, h]
    rfl
  have hspl_out : splitLines (joinLines (((sortByLe nodeLe (bNodes Bs 0)).map
      (fun nd => finalizeNode nd.lines o 0)).flatten))
      = ((sortByLe nodeLe (bNodes Bs 0)).map
        (fun nd => finalizeNode nd.lines o 0)).flatten :=
    splitLines_joinLines _ houtne
      (fun l hl => (hlwf l (hperm.subset hl)).2.1)
  refine ⟨?_, ?_, ?_⟩
  · unfold topOpenerCount
    rw [hspl_in]
    exact opener_count_bDoc Bs hwf
  · unfold topCloserCount
    rw [hout, hspl_out, List.Perm.length_eq (hperm.filter _)]
    exact closer_count_bDoc Bs hwf
  · intro t
    unfold declOcc
    rw [hout, hspl_out, hspl_in]
    exact List.Perm.length_eq (hperm.filter _)

/-- Witness for C3 (amended) at a concrete two-block document: node `b` with
two properties and children `d`, `c`, then node `a`; the count of the child
declaration line `c \x7b` is checked across the run. -/
theorem c3_amended_witness :
    topOpenerCount (bDoc [(['b'], ["y = <2>;".toList, "x = <1>;".toList],
        [['d'], ['c']]), (['a'], [], [])]) = 2 ∧
    topCloserCount (stripCommentsFromContent
        (bDoc [(['b'], ["y = <2>;".toList, "x = <1>;".toList],
          [['d'], ['c']]), (['a'], [], [])]) optsSemSort) = 2 ∧
    declOcc (nodeDecl ['c']) (stripCommentsFromContent
        (bDoc [(['b'], ["y = <2>;".toList, "x = <1>;".toList],
          [['d'], ['c']]), (['a'], [], [])]) optsSemSort)
      = declOcc (nodeDecl ['c'])
          (bDoc [(['b'], ["y = <2>;".toList, "x = <1>;".toList],
            [['d'], ['c']]), (['a'], [], [])]) := by
  have hwf : ∀ B ∈ [((['b'] : Str), ["y = <2>;".toList, "x = <1>;".toList],
      [(['d'] : Str), ['c']]), (['a'], [], [])], WfBlock B := by
    intro B hB
    rcases List.mem_cons.mp hB with rfl | hB
    · refine ⟨⟨by decide, by decide⟩, ?_, by decide⟩
      intro p hp
      rcases List.mem_cons.mp hp with rfl | hp
      · exact wfSortProp_of _ (by decide) (by decide) (by decide) (by decide)
      · rcases List.mem_cons.mp hp with rfl | hp
        · exact wfSortProp_of _ (by decide) (by decide) (by decide) (by decide)
        · simp at hp
    · rcases List.mem_cons.mp hB with rfl | hB
      · exact ⟨⟨by decide, by decide⟩, fun p hp => by simp at hp, by decide⟩
      · simp at hB
  have h := c3_amended_structural_fidelity optsSemSort rfl rfl rfl rfl rfl
    [(['b'], ["y = <2>;".toList, "x = <1>;".toList], [['d'], ['c']]),
      (['a'], [], [])] (by simp) hwf
  exact ⟨h.1, h.2.1, h.2.2 (nodeDecl ['c'])⟩

/-! ### C2 — order-insensitivity machinery: the scanner on calm documents -/

/-- Characters the comment scanner copies verbatim in every mode: not a
comment character, not a tab, not a line terminator. -/
def calmChar (c : Char) : Bool :=
  !(c = '/' || c = '*' || c = '\t' || c = '\r' || c = '\n')

/-- No two adjacent spaces. -/
def noDbl : Str → Bool
  | [] => true
  | [_] => true
  | a :: b :: t => !(a = ' ' && b = ' ') && noDbl (b :: t)

/-- Adjacent spaces occur only inside the leading run: `ls` records whether
the scan is still inside it. -/
def leadOk : Bool → Str → Bool
  | _, [] => true
  | _, [_] => true
  | ls, a :: b :: t => (if a = ' ' && b = ' ' then ls else true) && leadOk (ls && a = ' ') (b :: t)

/-- The remaining document after the current line: each further line with its
preceding newline. -/
def docRest (L : List Str) : Str := (L.map (fun l => '\n' :: l)).flatten

/-- Invariant of the comment scanner on calm input: every character is
verbatim-copyable and, when whitespace normalization is on, spaces obey the
leading-run discipline and the text does not end in a space. -/
def CalmCur (o : FilterOptions) (lineStart : Bool) (cur : Str) : Prop :=
  (∀ c ∈ cur, calmChar c = true) ∧
  (o.normalizeWhitespace = true →
    leadOk lineStart cur = true ∧ cur.getLast? ≠ some ' ')

/-- The value normalizers applied to a property text, as enabled by the
options (source lines 1634-1641). -/
def normOpt (o : FilterOptions) (p : Str) : Str :=
  if o.normalizeArrays then
    normalizeArrays (if o.normalizeHexValues then normalizeHexValues p else p)
  else if o.normalizeHexValues then normalizeHexValues p else p

theorem calmChar_facts {c : Char} (h : calmChar c = true) :
    c ≠ '/' ∧ c ≠ '*' ∧ c ≠ '\t' ∧ c ≠ '\r' ∧ c ≠ '\n' := by
  simp only [calmChar, Bool.not_eq_true', Bool.or_eq_false_iff,
    decide_eq_false_iff_not] at h
  exact ⟨h.1.1.1.1, h.1.1.1.2, h.1.1.2, h.1.2, h.2⟩

theorem noDbl_tail {a : Char} {t : Str} (h : noDbl (a :: t) = true) :
    noDbl t = true := by
  cases t with
  | nil => rfl
  | cons b t' =>
    rw [noDbl] at h
    exact ((Bool.and_eq_true _ _).mp h).2

theorem noDbl_head {a b : Char} {t : Str} (h : noDbl (a :: b :: t) = true) :
    ¬(a = ' ' ∧ b = ' ') := by
  rw [noDbl] at h
  have h1 := ((Bool.and_eq_true _ _).mp h).1
  rintro ⟨rfl, rfl⟩
  simp at h1

theorem noDbl_cons_of_head (a : Char) (rest : Str) (h : noDbl rest = true)
    (hh : ∀ b, rest.head? = some b → ¬(a = ' ' ∧ b = ' ')) :
    noDbl (a :: rest) = true := by
  cases rest with
  | nil => rfl
  | cons b t =>
    rw [noDbl]
    refine (Bool.and_eq_true _ _).mpr ⟨?_, h⟩
    have hab := hh b rfl
    by_cases ha : a = ' '
    · by_cases hb : b = ' '
      · exact absurd ⟨ha, hb⟩ hab
      · simp [hb]
    · simp [ha]

theorem noDbl_nospace_append (u : Str) (hu : ∀ c ∈ u, ¬ c = ' ')
    (v : Str) (hv : noDbl v = true) : noDbl (u ++ v) = true := by
  induction u with
  | nil => simpa using hv
  | cons a u' ih =>
    show noDbl (a :: (u' ++ v)) = true
    refine noDbl_cons_of_head a _ (ih (fun c hc => hu c (by simp [hc]))) ?_
    intro b _ hab
    exact hu a (by simp) hab.1

theorem noDbl_leadOk (s : Str) (h : noDbl s = true) : ∀ ls, leadOk ls s = true := by
  induction s with
  | nil => intro ls; rfl
  | cons a t ih =>
    intro ls
    cases t with
    | nil => rfl
    | cons b t' =>
      rw [leadOk]
      have hnd := noDbl_head h
      refine (Bool.and_eq_true _ _).mpr ⟨?_, ih (noDbl_tail h) _⟩
      split
      · rename_i hcond
        rcases (Bool.and_eq_true _ _).mp hcond with ⟨h1, h2⟩
        exact absurd ⟨by simpa using h1, by simpa using h2⟩ hnd
      · rfl

theorem leadOk_cons (ls : Bool) (a : Char) (t : Str)
    (h : leadOk ls (a :: t) = true) : leadOk (ls && a = ' ') t = true := by
  cases t with
  | nil => rfl
  | cons b t' =>
    rw [leadOk] at h
    exact ((Bool.and_eq_true _ _).mp h).2

theorem leadOk_isolated {b : Char} {t : Str}
    (h : leadOk false (' ' :: b :: t) = true) : b ≠ ' ' := by
  rw [leadOk] at h
  have h1 := ((Bool.and_eq_true _ _).mp h).1
  intro hb
  subst hb
  simp at h1

theorem leadOk_lead (n : Nat) (body : Str) (h : noDbl body = true) :
    leadOk true (List.replicate n ' ' ++ body) = true := by
  induction n with
  | zero => simpa using noDbl_leadOk body h true
  | succ m ih =>
    show leadOk true (' ' :: (List.replicate m ' ' ++ body)) = true
    cases hrep : List.replicate m ' ' ++ body with
    | nil => rfl
    | cons b t =>
      rw [leadOk]
      rw [hrep] at ih
      refine (Bool.and_eq_true _ _).mpr ⟨by split <;> rfl, ?_⟩
      simpa using ih

theorem head?_dropWhile_false (p : Char → Bool) (l : Str) :
    ∀ c, (l.dropWhile p).head? = some c → p c = false := by
  induction l with
  | nil => intro c hc; simp at hc
  | cons a t ih =>
    intro c hc
    by_cases hp : p a = true
    · rw [List.dropWhile_cons_of_pos hp] at hc
      exact ih c hc
    · rw [List.dropWhile_cons_of_neg (by simpa using hp)] at hc
      simp at hc
      subst hc
      simpa using hp

theorem indent_foldl (n : Nat) : ∀ a : Nat,
    (List.replicate n ' ').foldl (fun acc d => acc + if d = '\t' then 4 else 1) a
      = a + n := by
  induction n with
  | zero => intro a; simp
  | succ m ih =>
    intro a
    rw [List.replicate_succ, List.foldl_cons, ih]
    rw [if_neg (by decide)]
    omega

theorem replicate_div_mod (n : Nat) :
    List.replicate (n / 4 * 4) ' ' ++ List.replicate (n % 4) ' '
      = List.replicate n ' ' := by
  rw [← List.replicate_add]
  congr 1
  omega

theorem joinLines_eq_docRest (l : Str) (ls : List Str) :
    joinLines (l :: ls) = l ++ docRest ls := by
  induction ls generalizing l with
  | nil =>
    show joinLines [l] = l ++ docRest []
    simp [joinLines, docRest]
  | cons a ls' ih =>
    show joinLines (l :: a :: ls') = _
    rw [joinLines, ih a]
    show l ++ '\n' :: (a ++ docRest ls') = l ++ docRest (a :: ls')
    congr 1
    simp [docRest]

theorem getLast?_tail_ne {c : Char} {t : Str}
    (h : (c :: t).getLast? ≠ some ' ') : t.getLast? ≠ some ' ' := by
  cases t with
  | nil => simp
  | cons b t' => rwa [List.getLast?_cons_cons] at h

theorem leadOk_drop_replicate : ∀ (m : Nat) (body : Str),
    leadOk true (List.replicate m ' ' ++ body) = true → leadOk true body = true := by
  intro m
  induction m with
  | zero => intro body h; simpa using h
  | succ k ih =>
    intro body h
    refine ih body ?_
    rw [List.replicate_succ, List.cons_append] at h
    cases hrep : List.replicate k ' ' ++ body with
    | nil => rfl
    | cons b t =>
      rw [hrep] at h
      rw [leadOk] at h
      have h2 := ((Bool.and_eq_true _ _).mp h).2
      simpa using h2

theorem leadOk_head_ne (ls : Bool) (body : Str)
    (hh : ∀ d, body.head? = some d → d ≠ ' ') : leadOk ls body = leadOk false body := by
  cases body with
  | nil => rfl
  | cons a t =>
    cases t with
    | nil => rfl
    | cons b t' =>
      have ha : a ≠ ' ' := hh a rfl
      rw [leadOk, leadOk]
      simp [ha]

/-- With both comment modes off, the scanner copies a calm document verbatim,
whatever the options: comment markers are absent, space runs occur only as
leading indentation (which the width-4 re-expression reproduces exactly) or
as single interior spaces (which collapse to themselves), no line ends in a
space, and tabs and carriage returns are absent. -/
theorem bcrLoop_calm_go (o : FilterOptions) :
    ∀ fuel (cur : Str) (L : List Str) (lineStart inS : Bool) (delim : Char)
      (prev : Option Char),
      (cur ++ docRest L).length < fuel →
      CalmCur o lineStart cur →
      (∀ l ∈ L, CalmCur o true l) →
      bcrLoop o fuel false false inS delim lineStart prev (cur ++ docRest L)
        = cur ++ docRest L := by
  intro fuel
  induction fuel with
  | zero =>
    intro cur L _ _ _ _ hlen _ _
    omega
  | succ f ih =>
    intro cur L lineStart inS delim prev hlen hcur hL
    cases cur with
    | nil =>
      cases L with
      | nil =>
        show bcrLoop o (f + 1) false false inS delim lineStart prev [] = []
        rfl
      | cons l L' =>
        have hshape : ([] : Str) ++ docRest (l :: L') = '\n' :: (l ++ docRest L') := by
          simp [docRest]
        rw [hshape] at hlen ⊢
        have hlen' : (l ++ docRest L').length < f := by
          simp only [List.length_cons] at hlen
          omega
        have hLl := hL l (by simp)
        have hL' : ∀ x ∈ L', CalmCur o true x := fun x hx => hL x (by simp [hx])
        rw [bcrLoop]
        rw [if_neg (by simp)]
        rw [if_neg (by simp)]
        rw [if_neg (by simp)]
        rw [if_neg (by simp)]
        rw [if_neg (by simp)]
        rw [if_pos (by simp)]
        by_cases hws : o.normalizeWhitespace = true
        · rw [if_pos (by simp [hws])]
          rw [if_neg (by simp)]
          exact congrArg ('\n' :: ·) (ih l L' true inS delim (some '\n') hlen' hLl hL')
        · have hws' : o.normalizeWhitespace = false := by simpa using hws
          rw [if_neg (by simp [hws'])]
          rw [if_neg (by simp [hws'])]
          refine congrArg ('\n' :: ·) (ih l L' false inS delim (some '\n') hlen' ?_ hL')
          exact ⟨hLl.1, fun hw => absurd hw hws⟩
    | cons c cur' =>
      have hcc : calmChar c = true := hcur.1 c (by simp)
      obtain ⟨hc1, hc2, hc3, hc4, hc5⟩ := calmChar_facts hcc
      have hcur1' : ∀ d ∈ cur', calmChar d = true := fun d hd => hcur.1 d (by simp [hd])
      have hshape : (c :: cur') ++ docRest L = c :: (cur' ++ docRest L) := rfl
      rw [hshape] at hlen ⊢
      have hlen1 : (cur' ++ docRest L).length < f := by
        simp only [List.length_cons] at hlen
        omega
      by_cases hsp : c = ' '
      · subst hsp
        by_cases hws : o.normalizeWhitespace = true
        · obtain ⟨hlead, hlast⟩ := hcur.2 hws
          cases lineStart with
          | false =>
            have hne' : cur' ≠ [] := by
              intro h
              subst h
              simp at hlast
            have hhead' : ∀ d, cur'.head? = some d → d ≠ ' ' ∧ d ≠ '\t' := by
              intro d hd
              refine ⟨?_, fun ht =>
                (calmChar_facts (hcur1' d (head?_eq_some_mem hd))).2.2.1 ht⟩
              cases cur' with
              | nil => simp at hd
              | cons b t =>
                simp at hd
                subst hd
                exact leadOk_isolated hlead
            have hrun : (' ' :: (cur' ++ docRest L)).takeWhile isSpTab = [' '] := by
              rw [List.takeWhile_cons_of_pos (by decide)]
              rw [takeWhile_head_false _ _ (fun d hd => by
                rw [List.head?_append_of_ne_nil cur' hne'] at hd
                have hdd := hhead' d hd
                simp [isSpTab, hdd.1, hdd.2])]
            have hdrop : (' ' :: (cur' ++ docRest L)).dropWhile isSpTab
                = cur' ++ docRest L := by
              rw [List.dropWhile_cons_of_pos (by decide)]
              exact dropWhile_head_false _ _ (fun d hd => by
                rw [List.head?_append_of_ne_nil cur' hne'] at hd
                have hdd := hhead' d hd
                simp [isSpTab, hdd.1, hdd.2])
            rw [bcrLoop]
            rw [if_neg (by simp)]
            rw [if_neg (by simp)]
            rw [if_neg (by simp)]
            rw [if_neg (by simp)]
            rw [if_neg (by simp)]
            rw [if_pos (by simp)]
            rw [if_neg (by simp)]
            rw [if_pos (by simp [hws])]
            simp only [hrun, hdrop]
            rw [if_pos (by simp)]
            rw [if_neg (by simp [hne'])]
            rw [ih cur' L false inS delim _ hlen1
              ⟨hcur1', fun _ => ⟨by simpa using leadOk_cons false ' ' cur' hlead,
                getLast?_tail_ne hlast⟩⟩ hL]
            rfl
          | true =>
            have hnotab : ∀ d ∈ (' ' :: cur'), d ≠ '\t' :=
              fun d hd => (calmChar_facts (hcur.1 d hd)).2.2.1
            have hrnall : ∀ d ∈ (' ' :: cur').takeWhile isSpTab, d = ' ' := by
              intro d hd
              have hsd : isSpTab d = true := List.mem_takeWhile_imp hd
              have hmem : d ∈ (' ' :: cur') := (List.takeWhile_sublist _).subset hd
              rcases (by simpa [isSpTab] using hsd : d = ' ' ∨ d = '\t') with h | h
              · exact h
              · exact absurd h (hnotab d hmem)
            have hrn : (' ' :: cur').takeWhile isSpTab
                = List.replicate ((' ' :: cur').takeWhile isSpTab).length ' ' :=
              List.eq_replicate_of_mem hrnall
            have hsplitc : ' ' :: cur' =
                (' ' :: cur').takeWhile isSpTab ++ (' ' :: cur').dropWhile isSpTab :=
              (List.takeWhile_append_dropWhile _ _).symm
            have hbody_head : ∀ d, ((' ' :: cur').dropWhile isSpTab).head? = some d →
                d ≠ ' ' ∧ d ≠ '\t' := by
              intro d hd
              have := head?_dropWhile_false isSpTab (' ' :: cur') d hd
              constructor
              · intro h; rw [h] at this; simp [isSpTab] at this
              · intro h; rw [h] at this; simp [isSpTab] at this
            have hbody_ne : (' ' :: cur').dropWhile isSpTab ≠ [] := by
              intro h
              rw [h, List.append_nil] at hsplitc
              have hlen0 : 1 ≤ ((' ' :: cur').takeWhile isSpTab).length := by
                rw [← hsplitc]
                simp
              rw [hsplitc, hrn] at hlast
              cases hn : ((' ' :: cur').takeWhile isSpTab).length with
              | zero => omega
              | succ k =>
                rw [hn, List.replicate_succ'] at hlast
                rw [List.getLast?_concat] at hlast
                exact hlast rfl
            have hrun : (' ' :: (cur' ++ docRest L)).takeWhile isSpTab
                = (' ' :: cur').takeWhile isSpTab := by
              conv_lhs => rw [show ' ' :: (cur' ++ docRest L)
                = (' ' :: cur') ++ docRest L from rfl, hsplitc, List.append_assoc]
              refine takeWhile_append_stop _ _ _
                (fun d hd => List.mem_takeWhile_imp hd) ?_
              intro d hd
              rw [List.head?_append_of_ne_nil _ hbody_ne] at hd
              have hdd := hbody_head d hd
              simp [isSpTab, hdd.1, hdd.2]
            have hdrop : (' ' :: (cur' ++ docRest L)).dropWhile isSpTab
                = (' ' :: cur').dropWhile isSpTab ++ docRest L := by
              conv_lhs => rw [show ' ' :: (cur' ++ docRest L)
                = (' ' :: cur') ++ docRest L from rfl, hsplitc, List.append_assoc]
              refine dropWhile_append_stop _ _ _
                (fun d hd => List.mem_takeWhile_imp hd) ?_
              intro d hd
              rw [List.head?_append_of_ne_nil _ hbody_ne] at hd
              have hdd := hbody_head d hd
              simp [isSpTab, hdd.1, hdd.2]
            have hlen2 : ((' ' :: cur').dropWhile isSpTab ++ docRest L).length < f := by
              have hs1 : ((' ' :: cur').takeWhile isSpTab).length
                  + ((' ' :: cur').dropWhile isSpTab).length = (' ' :: cur').length := by
                rw [← List.length_append, ← hsplitc]
              have hp1 : 1 ≤ ((' ' :: cur').takeWhile isSpTab).length := by
                rw [List.takeWhile_cons_of_pos (by decide)]
                simp
              simp only [List.length_append, List.length_cons] at hs1 hlen ⊢
              omega
            have hcalm2 : CalmCur o false ((' ' :: cur').dropWhile isSpTab) := by
              refine ⟨fun d hd => hcur.1 d ((List.dropWhile_sublist _).subset hd),
                fun _ => ⟨?_, ?_⟩⟩
              · have h1 : leadOk true ((' ' :: cur').takeWhile isSpTab ++
                    (' ' :: cur').dropWhile isSpTab) = true := by
                  rw [← hsplitc]
                  exact hlead
                rw [hrn] at h1
                have h2 := leadOk_drop_replicate _ _ h1
                rw [leadOk_head_ne true _ (fun d hd => (hbody_head d hd).1)] at h2
                exact h2
              · rw [hsplitc, List.getLast?_append_of_ne_nil _ hbody_ne] at hlast
                exact hlast
            have hfold : ((' ' :: cur').takeWhile isSpTab).foldl
                (fun acc d => acc + if d = '\t' then 4 else 1) 0
                = ((' ' :: cur').takeWhile isSpTab).length := by
              conv_lhs => rw [hrn]
              rw [indent_foldl]
              omega
            have hpos : 0 < ((' ' :: cur').takeWhile isSpTab).length := by
              rw [List.takeWhile_cons_of_pos (by decide)]
              simp
            rw [bcrLoop]
            rw [if_neg (by simp)]
            rw [if_neg (by simp)]
            rw [if_neg (by simp)]
            rw [if_neg (by simp)]
            rw [if_neg (by simp)]
            rw [if_pos (by simp)]
            rw [if_neg (by simp)]
            rw [if_pos (by simp [hws])]
            simp only [hrun, hdrop, hfold]
            rw [if_neg (by simp)]
            rw [if_pos (by simp [hpos, hbody_ne])]
            rw [ih _ L false inS delim _ hlen2 hcalm2 hL]
            rw [replicate_div_mod]
            conv_rhs => rw [show ' ' :: (cur' ++ docRest L)
              = (' ' :: cur') ++ docRest L from rfl, hsplitc, List.append_assoc]
            rw [hrn]
            simp
        · have hws' : o.normalizeWhitespace = false := by simpa using hws
          rw [bcrLoop]
          rw [if_neg (by simp)]
          rw [if_neg (by simp)]
          rw [if_neg (by simp)]
          rw [if_neg (by simp)]
          rw [if_neg (by simp)]
          rw [if_pos (by simp)]
          rw [if_neg (by simp [hws'])]
          rw [if_neg (by simp [hws'])]
          refine congrArg (' ' :: ·) (ih cur' L false inS delim (some ' ') hlen1 ?_ hL)
          exact ⟨hcur1', fun hw => absurd hw hws⟩
      · have hmid : CalmCur o false cur' := by
          refine ⟨hcur1', fun hw => ?_⟩
          obtain ⟨hlead, hlast⟩ := hcur.2 hw
          refine ⟨?_, getLast?_tail_ne hlast⟩
          have h1 := leadOk_cons lineStart c cur' hlead
          simpa [hsp] using h1
        simp only [bcrLoop, hc1, hc3, hc4, hc5, hsp, decide_False, Bool.false_or,
          Bool.or_false, Bool.and_false, Bool.false_and, Bool.or_self, if_false,
          ite_false, Bool.not_false, Bool.true_and, Bool.and_true]
        split_ifs <;>
          first
            | exact congrArg (c :: ·) (ih cur' L false _ _ _ hlen1 hmid hL)
            | exact False.elim (by assumption)

theorem basicCommentRemoval_calm (o : FilterOptions) (L : List Str)
    (hne : L ≠ [])
    (h1 : ∀ l ∈ L, l ≠ [])
    (h2 : ∀ l ∈ L, '\n' ∉ l)
    (h3 : ∀ l ∈ L, ∀ c, l.getLast? = some c → isJsWs c = false)
    (hcalm : ∀ l ∈ L, CalmCur o true l) :
    basicCommentRemoval (joinLines L) o = joinLines L := by
  unfold basicCommentRemoval
  cases L with
  | nil => exact absurd rfl hne
  | cons l ls =>
    have hgo : bcrLoop o ((joinLines (l :: ls)).length + 1) false false false '"' true
        none (joinLines (l :: ls)) = joinLines (l :: ls) := by
      conv_lhs => rw [joinLines_eq_docRest]
      rw [bcrLoop_calm_go o _ l ls true false '"' none
        (by rw [← joinLines_eq_docRest]; exact Nat.lt_succ_self _)
        (hcalm l (by simp)) (fun x hx => hcalm x (by simp [hx]))]
      rw [← joinLines_eq_docRest]
    rw [hgo]
    unfold bcrCleanup
    rw [splitLines_joinLines (l :: ls) hne h2]
    have hmap : (l :: ls).map trimEnd = l :: ls := by
      rw [List.map_congr_left fun x hx => trimEnd_eq_self x (h3 x hx)]
      exact List.map_id _
    rw [hmap, cleanupLines_eq_self _ h1, collapseNL_join _ h1 h2 0]

theorem alnumU_calm {c : Char} (h : isAlnumU c = true) : calmChar c = true := by
  have h1 := alnumU_ne h '/' (by decide)
  have h2 := alnumU_ne h '*' (by decide)
  have h3 := alnumU_ne h '\t' (by decide)
  have h4 := alnumU_ne h '\r' (by decide)
  have h5 := alnumU_ne h '\n' (by decide)
  simp [calmChar, h1, h2, h3, h4, h5]

/-- Calm block descriptions: well-formed, with tab-free, double-space-free
property texts, so that the whitespace-normalization pass reproduces the
rendered lines exactly. -/
def CalmBlock (B : Str × List Str × List Str) : Prop :=
  WfBlock B ∧ ∀ p ∈ B.2.1, '\t' ∉ p ∧ noDbl p = true

theorem bDoc_lines_calm (o : FilterOptions) (Bs : List (Str × List Str × List Str))
    (hwf : ∀ B ∈ Bs, CalmBlock B) :
    ∀ l ∈ (Bs.map bLines).flatten, CalmCur o true l := by
  intro l hl
  obtain ⟨b, hb, hlb⟩ := List.mem_flatten.mp hl
  obtain ⟨B, hB, rfl⟩ := List.mem_map.mp hb
  obtain ⟨⟨⟨hne, hal⟩, hprops, hkids⟩, hcalmp⟩ := hwf B hB
  unfold bLines at hlb
  rcases List.mem_cons.mp hlb with rfl | hlb
  · refine ⟨?_, fun _ => ⟨?_, ?_⟩⟩
    · intro c hc
      unfold nodeDecl at hc
      rcases List.mem_append.mp hc with hc | hc
      · exact alnumU_calm (hal _ hc)
      · rcases List.mem_cons.mp hc with rfl | hc
        · decide
        · simp at hc
          subst hc
          decide
    · exact noDbl_leadOk _ (noDbl_nospace_append B.1
        (fun c hc => alnumU_ne (hal _ hc) ' ' (by decide)) [' ', '\x7b']
        (by decide)) true
    · unfold nodeDecl
      rw [List.getLast?_append_of_ne_nil B.1 (by simp)]
      simp
  rcases List.mem_append.mp hlb with hlb | hlb
  · obtain ⟨p, hp, rfl⟩ := List.mem_map.mp hlb
    have hw := hprops p hp
    have hcp := hcalmp p hp
    refine ⟨?_, fun _ => ⟨?_, ?_⟩⟩
    · intro c hcm
      rcases mem_propLine hcm with rfl | h
      · decide
      · have h4 := hw.2.2.2 _ h
        have htab : c ≠ '\t' := fun hh => hcp.1 (hh ▸ h)
        simp [calmChar, h4.2.2.2.2.1, h4.2.2.2.2.2, htab, h4.2.2.1, h4.2.2.2.1]
    · exact leadOk_lead 4 p hcp.2
    · rw [getLast?_propLine hw.1, hw.2.2.1]
      simp
  rcases List.mem_append.mp hlb with hlb | hlb
  · obtain ⟨cb, hcb, hlcb⟩ := List.mem_flatten.mp hlb
    obtain ⟨k, hk, rfl⟩ := List.mem_map.mp hcb
    obtain ⟨hkne, hka⟩ := hkids k hk
    rcases List.mem_cons.mp hlcb with rfl | hlcb
    · refine ⟨?_, fun _ => ⟨?_, ?_⟩⟩
      · intro c hcm
        rcases mem_propLine hcm with rfl | h
        · decide
        · unfold nodeDecl at h
          rcases List.mem_append.mp h with h | h
          · exact alnumU_calm (hka _ h)
          · rcases List.mem_cons.mp h with rfl | h
            · decide
            · simp at h
              subst h
              decide
      · exact leadOk_lead 4 (nodeDecl k) (noDbl_nospace_append k
          (fun c hcm => alnumU_ne (hka _ hcm) ' ' (by decide)) [' ', '\x7b']
          (by decide))
      · rw [getLast?_propLine (by simp [nodeDecl])]
        unfold nodeDecl
        rw [List.getLast?_append_of_ne_nil k (by simp)]
        simp
    · rw [List.mem_singleton.mp hlcb]
      exact ⟨by decide, fun _ => ⟨by decide, by decide⟩⟩
  · rw [List.mem_singleton.mp hlb]
    exact ⟨by decide, fun _ => ⟨by decide, by decide⟩⟩

theorem buildProps_wf (o : FilterOptions) (merged : List Str)
    (h : ∀ p ∈ merged, jsTrim p = p ∧ p ≠ [] ∧ '\x7d' ∉ p) :
    buildProps o merged =
      merged.map fun p => PropRec.mk p (normOpt o p) (propSortKey p) := by
  unfold buildProps
  have step : ∀ p ∈ merged,
      (fun propertyText =>
        if jsTrim propertyText = [] || jsTrim propertyText = ['\x7d'] ||
            jsTrim propertyText = ['\x7d', ';'] then none
        else
          some (PropRec.mk propertyText
            (if o.normalizeArrays then
              normalizeArrays (if o.normalizeHexValues then
                normalizeHexValues propertyText else propertyText)
            else if o.normalizeHexValues then normalizeHexValues propertyText
              else propertyText)
            (propSortKey propertyText))) p
      = some (PropRec.mk p (normOpt o p) (propSortKey p)) := by
    intro p hp
    obtain ⟨ht, hne, hnb⟩ := h p hp
    simp only []
    rw [ht]
    have c1 : p ≠ ['\x7d'] := fun hc => hnb (hc ▸ List.mem_cons_self _ _)
    have c2 : p ≠ ['\x7d', ';'] := fun hc => hnb (hc ▸ List.mem_cons_self _ _)
    rw [if_neg (by simp [hne, c1, c2])]
    rfl
  rw [List.filterMap_congr step]
  rw [show (fun p => some (PropRec.mk p (normOpt o p) (propSortKey p)))
    = some ∘ (fun p => PropRec.mk p (normOpt o p) (propSortKey p)) from rfl]
  exact congrFun (List.filterMap_eq_map _) merged

theorem finalizeNode_blockG (o : FilterOptions) (hsort : o.sortProperties = true)
    (B : Str × List Str × List Str) (hwfB : WfBlock B) :
    finalizeNode (bLines B) o 0 =
      nodeDecl B.1 ::
        ((sortByLe propLe (B.2.1.map fun p =>
              PropRec.mk p (normOpt o p) (propSortKey p))).map
            (fun r => [' ', ' ', ' ', ' '] ++ jsTrim r.normalized) ++
          ((((sortByLe childLe
                (B.2.2.map fun k => ChildRec.mk (childBlock k) k)).map
              (·.lines)).flatten) ++ [closeTop])) := by
  obtain ⟨⟨hne, hal⟩, hprops, hkids⟩ := hwfB
  have hcl : ∀ l ∈ B.2.1.map propLine,
      jsTrim l ≠ [] ∧ isNodeOpener (jsTrim l) = false := by
    intro l hl
    obtain ⟨p, hp, rfl⟩ := List.mem_map.mp hl
    rw [jsTrim_propLine (hprops p hp)]
    refine ⟨(hprops p hp).1, not_opener_of_no_brace ?_⟩
    intro hb
    exact ((hprops p hp).2.2.2 _ hb).1 rfl
  have hms : ∀ l ∈ B.2.1.map propLine,
      jsTrim l ≠ [] ∧ (jsTrim l).getLast? = some ';' := by
    intro l hl
    obtain ⟨p, hp, rfl⟩ := List.mem_map.mp hl
    rw [jsTrim_propLine (hprops p hp)]
    exact ⟨(hprops p hp).1, (hprops p hp).2.2.1⟩
  have hbp : ∀ p ∈ B.2.1, jsTrim p = p ∧ p ≠ [] ∧ '\x7d' ∉ p := by
    intro p hp
    have hw := hprops p hp
    refine ⟨jsTrim_eq_self p hw.2.1 ?_, hw.1, fun hb => (hw.2.2.2 _ hb).2.1 rfl⟩
    intro c hc
    rw [hw.2.2.1] at hc
    simp at hc
    subst hc
    decide
  have hmap : (B.2.1.map propLine).map jsTrim = B.2.1 := by
    rw [List.map_map]
    calc List.map (jsTrim ∘ propLine) B.2.1
        = List.map id B.2.1 :=
          List.map_congr_left fun p hp => jsTrim_propLine (hprops p hp)
      _ = B.2.1 := List.map_id B.2.1
  have hindent : (nodeDecl B.1).takeWhile isJsWs = [] :=
    takeWhile_head_false _ _ (fun c hc => by
      unfold nodeDecl at hc
      rw [List.head?_append_of_ne_nil B.1 hne] at hc
      exact alnumU_not_ws (hal c (head?_eq_some_mem hc)))
  unfold finalizeNode
  rw [show (7 : Nat) = 6 + 1 from rfl]
  unfold bLines
  rw [finalizeNodeAux]
  rw [if_neg (by simp; omega)]
  have hdrop : ((nodeDecl B.1 :: (B.2.1.map propLine ++
        ((B.2.2.map childBlock).flatten ++ [closeTop]))).drop 1).dropLast
      = B.2.1.map propLine ++ (B.2.2.map childBlock).flatten := by
    show (B.2.1.map propLine ++
      ((B.2.2.map childBlock).flatten ++ [closeTop])).dropLast = _
    rw [show B.2.1.map propLine ++ ((B.2.2.map childBlock).flatten ++ [closeTop])
      = (B.2.1.map propLine ++ (B.2.2.map childBlock).flatten) ++ [closeTop] by
        simp]
    simp
  have hlast : (nodeDecl B.1 :: (B.2.1.map propLine ++
        ((B.2.2.map childBlock).flatten ++ [closeTop]))).getLastD [] = closeTop := by
    rw [show nodeDecl B.1 :: (B.2.1.map propLine ++
        ((B.2.2.map childBlock).flatten ++ [closeTop]))
      = (nodeDecl B.1 :: (B.2.1.map propLine ++
          (B.2.2.map childBlock).flatten)) ++ [closeTop] by simp]
    rw [List.getLastD_eq_getLast?, List.getLast?_concat]
    rfl
  simp only [List.headD_cons, hlast, hdrop]
  rw [classifyContent_props_then _ hcl _ hkids _ (Nat.lt_succ_self _)]
  rw [mergeProps_semis _ hms, hmap]
  rw [buildProps_wf o B.2.1 hbp]
  rw [hsort]
  have hch : ((B.2.2.map childBlock).map fun cn =>
      ChildRec.mk (finalizeNodeAux o 6 cn (0 + 1)) (childNodeSortKey (cn.headD [])))
      = B.2.2.map fun k => ChildRec.mk (childBlock k) k := by
    rw [List.map_map]
    refine List.map_congr_left fun k hk => ?_
    obtain ⟨hkne, hka⟩ := hkids k hk
    show ChildRec.mk (finalizeNodeAux o 6 (childBlock k) (0 + 1))
        (childNodeSortKey ((childBlock k).headD [])) = _
    congr 1
    · rw [show (6 : Nat) = 5 + 1 from rfl]
      exact finalizeNodeAux_pair o 5 _ _ (0 + 1)
    · show childNodeSortKey (propLine (nodeDecl k)) = k
      rw [childNodeSortKey_eq_top]
      show topNodeSortKey ([' ', ' ', ' ', ' '] ++ nodeDecl k) = k
      rw [topNodeSortKey_ws_lead _ _ (by decide)]
      exact topNodeSortKey_nodeDecl k hkne hka
  rw [hch]
  have hkli : (if true &&
        (B.2.2.map fun k => ChildRec.mk (childBlock k) k).length > 1 then
      sortByLe childLe (B.2.2.map fun k => ChildRec.mk (childBlock k) k)
    else (B.2.2.map fun k => ChildRec.mk (childBlock k) k))
      = sortByLe childLe (B.2.2.map fun k => ChildRec.mk (childBlock k) k) := by
    by_cases h2 : 1 < B.2.2.length
    · rw [if_pos (by simp [h2])]
    · rw [if_neg (by simp; omega)]
      rw [sortByLe_short _ _ (by simp; omega)]
  rw [hkli]
  rw [hindent]
  simp

theorem childLe_total (a b : ChildRec) : childLe a b = true ∨ childLe b a = true := by
  unfold childLe
  rcases cmpStr_le_total a.sortKey b.sortKey with h | h
  · left; simpa using h
  · right; simpa using h

theorem childLe_trans (a b c : ChildRec) (h1 : childLe a b = true)
    (h2 : childLe b c = true) : childLe a c = true := by
  unfold childLe at h1 h2 ⊢
  simp only [decide_eq_true_eq] at h1 h2 ⊢
  exact cmpStr_le_trans _ _ _ h1 h2

theorem sorted_props_eq_gen (norm : Str → Str) (props props' : List Str)
    (hperm : props.Perm props') (hnodup : (props.map propSortKey).Nodup) :
    sortByLe propLe (props.map fun p => PropRec.mk p (norm p) (propSortKey p)) =
      sortByLe propLe (props'.map fun p =>
        PropRec.mk p (norm p) (propSortKey p)) := by
  have hkeys : ((props.map fun p => PropRec.mk p (norm p) (propSortKey p)).map
      PropRec.sortKey) = props.map propSortKey := by
    rw [List.map_map]
    rfl
  refine sorted_perm_nodup_eq PropRec.sortKey propLe
    (fun a b => by simp [propLe]) _ _
    ((sortByLe_perm _ _).trans ((hperm.map _).trans (sortByLe_perm _ _).symm))
    (sortByLe_sorted _ propLe_total propLe_trans _)
    (sortByLe_sorted _ propLe_total propLe_trans _) ?_
  have h0 : ((props.map fun p => PropRec.mk p (norm p) (propSortKey p)).map
      PropRec.sortKey).Perm (props.map propSortKey) := by
    rw [hkeys]
  have hp : ((sortByLe propLe (props.map fun p =>
      PropRec.mk p (norm p) (propSortKey p))).map PropRec.sortKey).Perm
      (props.map propSortKey) :=
    ((sortByLe_perm _ _).map _).trans h0
  exact hp.nodup_iff.mpr hnodup

theorem sorted_kids_eq (kids kids' : List Str) (hperm : kids.Perm kids')
    (hnodup : kids.Nodup) :
    sortByLe childLe (kids.map fun k => ChildRec.mk (childBlock k) k) =
      sortByLe childLe (kids'.map fun k => ChildRec.mk (childBlock k) k) := by
  have hkeys : ((kids.map fun k => ChildRec.mk (childBlock k) k).map
      ChildRec.sortKey) = kids := by
    rw [List.map_map]
    exact List.map_id kids
  refine sorted_perm_nodup_eq ChildRec.sortKey childLe
    (fun a b => by simp [childLe]) _ _
    ((sortByLe_perm _ _).trans ((hperm.map _).trans (sortByLe_perm _ _).symm))
    (sortByLe_sorted _ childLe_total childLe_trans _)
    (sortByLe_sorted _ childLe_total childLe_trans _) ?_
  have h0 : ((kids.map fun k => ChildRec.mk (childBlock k) k).map
      ChildRec.sortKey).Perm kids := by
    rw [hkeys]
  have hp : ((sortByLe childLe (kids.map fun k =>
      ChildRec.mk (childBlock k) k)).map ChildRec.sortKey).Perm kids :=
    ((sortByLe_perm _ _).map _).trans h0
  exact hp.nodup_iff.mpr hnodup

theorem bNodes_map_pi (Bs : List (Str × List Str × List Str)) :
    ∀ i, (bNodes Bs i).map nodePi = Bs.map fun B => (B.1, bLines B) := by
  induction Bs with
  | nil => intro i; rfl
  | cons B Bs ih =>
    intro i
    simp [bNodes, nodePi, ih]

theorem sorted_bBlocks_eq (Bs Bs' : List (Str × List Str × List Str))
    (hperm : Bs.Perm Bs') (hnodup : (Bs.map (·.1)).Nodup) :
    (sortByLe nodeLe (bNodes Bs 0)).map (·.lines) =
      (sortByLe nodeLe (bNodes Bs' 0)).map (·.lines) := by
  have hpi : ∀ (Cs : List (Str × List Str × List Str)),
      (sortByLe nodeLe (bNodes Cs 0)).map nodePi =
        sortByLe pairLe (Cs.map fun B => (B.1, bLines B)) := by
    intro Cs
    rw [sortByLe_map nodePi nodeLe pairLe (fun a b => rfl)]
    rw [bNodes_map_pi]
  have hkeys : ((Bs.map fun B => (B.1, bLines B)).map Prod.fst) = Bs.map (·.1) := by
    rw [List.map_map]
    rfl
  have hsorteq : sortByLe pairLe (Bs.map fun B => (B.1, bLines B)) =
      sortByLe pairLe (Bs'.map fun B => (B.1, bLines B)) := by
    refine sorted_perm_nodup_eq Prod.fst pairLe
      (fun a b => by simp [pairLe]) _ _
      ((sortByLe_perm _ _).trans ((hperm.map _).trans (sortByLe_perm _ _).symm))
      (sortByLe_sorted _ pairLe_total pairLe_trans _)
      (sortByLe_sorted _ pairLe_total pairLe_trans _) ?_
    have h0 : ((Bs.map fun B => (B.1, bLines B)).map Prod.fst).Perm
        (Bs.map (·.1)) := by
      rw [hkeys]
    have hp : ((sortByLe pairLe (Bs.map fun B => (B.1, bLines B))).map
        Prod.fst).Perm (Bs.map (·.1)) :=
      ((sortByLe_perm _ _).map _).trans h0
    exact hp.nodup_iff.mpr hnodup
  have h1 := hpi Bs
  have h2 := hpi Bs'
  rw [hsorteq] at h1
  have hmaps := h1.trans h2.symm
  have hfst : ∀ (s : List TopNode),
      s.map (·.lines) = (s.map nodePi).map Prod.snd := by
    intro s
    rw [List.map_map]
    exact List.map_congr_left fun _ _ => rfl
  rw [hfst, hfst, hmaps]

/-- C2 (amended): with `semanticComparison` and `sortProperties` on, and for
every setting of the remaining options, the entry point is insensitive to the
original order of sibling properties within a node, to the original order of
sibling child nodes at the same nesting level inside their parent, and to the
original order of sibling top-level nodes, provided the sibling sort keys are
pairwise distinct.  (The unamended claim also covered tied sort keys, which
`c2_tie_counterexample` refutes: the sort is stable, so ties keep their input
order.) -/
theorem c2_amended_order_insensitivity :
    ∀ (o : FilterOptions), o.semanticComparison = true →
      o.sortProperties = true →
      (∀ (nm : Str) (props props' kids : List Str),
        CalmBlock (nm, props, kids) → props.Perm props' →
        (props.map propSortKey).Nodup →
        stripCommentsFromContent (bDoc [(nm, props, kids)]) o =
          stripCommentsFromContent (bDoc [(nm, props', kids)]) o) ∧
      (∀ (nm : Str) (props kids kids' : List Str),
        CalmBlock (nm, props, kids) → kids.Perm kids' → kids.Nodup →
        stripCommentsFromContent (bDoc [(nm, props, kids)]) o =
          stripCommentsFromContent (bDoc [(nm, props, kids')]) o) ∧
      (∀ (Bs Bs' : List (Str × List Str × List Str)),
        Bs ≠ [] → (∀ B ∈ Bs, CalmBlock B) → Bs.Perm Bs' →
        (Bs.map (·.1)).Nodup →
        stripCommentsFromContent (bDoc Bs) o =
          stripCommentsFromContent (bDoc Bs') o) := by
  intro o hsem hsort
  have hkey : ∀ (Bs : List (Str × List Str × List Str)), Bs ≠ [] →
      (∀ B ∈ Bs, CalmBlock B) →
      stripCommentsFromContent (bDoc Bs) o =
        joinLines (((sortByLe nodeLe (bNodes Bs 0)).map
          (fun nd => finalizeNode nd.lines o 0)).flatten) := by
    intro Bs hne hcalm
    have hwf : ∀ B ∈ Bs, WfBlock B := fun B hB => (hcalm B hB).1
    have hflne : (Bs.map bLines).flatten ≠ [] := by
      cases Bs with
      | nil => exact absurd rfl hne
      | cons B Bs' => simp [bLines]
    have hbcr : basicCommentRemoval (bDoc Bs) o = bDoc Bs := by
      show basicCommentRemoval (joinLines _) o = joinLines _
      exact basicCommentRemoval_calm o _ hflne
        (fun l hl => (bDoc_lines_wf Bs hwf l hl).1)
        (fun l hl => (bDoc_lines_wf Bs hwf l hl).2.1)
        (fun l hl => (bDoc_lines_wf Bs hwf l hl).2.2.1)
        (bDoc_lines_calm o Bs hcalm)
    show (if o.semanticComparison then
        semanticDtsNormalization (basicCommentRemoval (bDoc Bs) o) o
      else basicCommentRemoval (bDoc Bs) o) = _
    rw [hsem, if_pos rfl, hbcr, semantic_bDoc o hsort Bs hne hwf]
  have hsingle : ∀ (B : Str × List Str × List Str), CalmBlock B →
      stripCommentsFromContent (bDoc [B]) o =
        joinLines (finalizeNode (bLines B) o 0) := by
    intro B hB
    rw [hkey [B] (by simp) (by simpa using hB)]
    congr 1
    show ((sortByLe nodeLe (bNodes [B] 0)).map
      (fun nd => finalizeNode nd.lines o 0)).flatten = _
    rw [show bNodes [B] 0 = [⟨bLines B, B.1, 0⟩] from rfl]
    rw [sortByLe_short _ _ (by simp)]
    simp
  refine ⟨?_, ?_, ?_⟩
  · intro nm props props' kids hcalm hperm hnodup
    have hcalm' : CalmBlock (nm, props', kids) := by
      obtain ⟨⟨hn, hp, hk⟩, hc⟩ := hcalm
      exact ⟨⟨hn, fun p hp' => hp p (hperm.mem_iff.mpr hp'), hk⟩,
        fun p hp' => hc p (hperm.mem_iff.mpr hp')⟩
    rw [hsingle _ hcalm, hsingle _ hcalm']
    rw [finalizeNode_blockG o hsort _ hcalm.1,
      finalizeNode_blockG o hsort _ hcalm'.1]
    dsimp only
    rw [sorted_props_eq_gen (normOpt o) props props' hperm hnodup]
  · intro nm props kids kids' hcalm hperm hnodup
    have hcalm' : CalmBlock (nm, props, kids') := by
      obtain ⟨⟨hn, hp, hk⟩, hc⟩ := hcalm
      exact ⟨⟨hn, hp, fun k hk' => hk k (hperm.mem_iff.mpr hk')⟩, hc⟩
    rw [hsingle _ hcalm, hsingle _ hcalm']
    rw [finalizeNode_blockG o hsort _ hcalm.1,
      finalizeNode_blockG o hsort _ hcalm'.1]
    dsimp only
    rw [sorted_kids_eq kids kids' hperm hnodup]
  · intro Bs Bs' hne hcalm hperm hnodup
    have hne' : Bs' ≠ [] := by
      intro h
      subst h
      exact hne hperm.eq_nil
    have hcalm' : ∀ B ∈ Bs', CalmBlock B :=
      fun B hB => hcalm B (hperm.mem_iff.mpr hB)
    rw [hkey Bs hne hcalm, hkey Bs' hne' hcalm']
    congr 1
    have hsplit : ∀ (s : List TopNode),
        s.map (fun nd => finalizeNode nd.lines o 0) =
          (s.map (·.lines)).map (fun l => finalizeNode l o 0) := by
      intro s
      rw [List.map_map]
      exact List.map_congr_left fun _ _ => rfl
    rw [hsplit, hsplit, sorted_bBlocks_eq Bs Bs' hperm hnodup]

/-- Witness for C2 (amended): concrete swapped sibling properties inside a
node, swapped sibling child nodes inside a node, and swapped sibling
top-level blocks, evaluated at the structural options record. -/
theorem c2_amended_witness :
    stripCommentsFromContent
        (bDoc [(['n'], ["b = <2>;".toList, "a = <1>;".toList], [])])
        optsSemSort =
      stripCommentsFromContent
        (bDoc [(['n'], ["a = <1>;".toList, "b = <2>;".toList], [])])
        optsSemSort ∧
    stripCommentsFromContent (bDoc [(['n'], [], [['d'], ['c']])]) optsSemSort =
      stripCommentsFromContent (bDoc [(['n'], [], [['c'], ['d']])]) optsSemSort ∧
    stripCommentsFromContent
        (bDoc [(['b'], [], []), (['a'], [], [])]) optsSemSort =
      stripCommentsFromContent
        (bDoc [(['a'], [], []), (['b'], [], [])]) optsSemSort := by
  refine ⟨?_, ?_, ?_⟩
  · refine (c2_amended_order_insensitivity optsSemSort rfl rfl).1 ['n'] _ _ []
      ⟨⟨⟨by decide, by decide⟩, ?_, by simp⟩, ?_⟩
      (List.Perm.swap _ _ _) (by decide)
    · intro p hp
      rcases List.mem_cons.mp hp with rfl | hp
      · exact wfSortProp_of _ (by decide) (by decide) (by decide) (by decide)
      · rcases List.mem_cons.mp hp with rfl | hp
        · exact wfSortProp_of _ (by decide) (by decide) (by decide) (by decide)
        · simp at hp
    · intro p hp
      rcases List.mem_cons.mp hp with rfl | hp
      · exact ⟨by decide, by decide⟩
      · rcases List.mem_cons.mp hp with rfl | hp
        · exact ⟨by decide, by decide⟩
        · simp at hp
  · exact (c2_amended_order_insensitivity optsSemSort rfl rfl).2.1 ['n'] [] _ _
      ⟨⟨⟨by decide, by decide⟩, by simp, by decide⟩, by simp⟩
      (List.Perm.swap _ _ _) (by decide)
  · refine (c2_amended_order_insensitivity optsSemSort rfl rfl).2.2 _ _
      (by simp) ?_ (List.Perm.swap _ _ _) (by decide)
    intro B hB
    rcases List.mem_cons.mp hB with rfl | hB
    · exact ⟨⟨⟨by decide, by decide⟩, by simp, by simp⟩, by simp⟩
    · rcases List.mem_cons.mp hB with rfl | hB
      · exact ⟨⟨⟨by decide, by decide⟩, by simp, by simp⟩, by simp⟩
      · simp at hB

/-- Witness for C7 (amended) at a concrete options record. -/
theorem c7_amended_witness :
    basicCommentRemoval ("x = \"http://example.com\";".toList)
        ⟨true, false, true, false, false, false, false, false⟩
      = "x = \"http://example.com\";".toList :=
  c7_amended_strings_preserved ⟨true, false, true, false, false, false, false, false⟩
    rfl rfl

end DTS
